import Mathlib

/-! genschema.go: schema lookup, reference resolution, sample synthesis, preprocessing

A shallow embedding of `contracts/platform/iotcontractplatform/scripts/genschema.go`.

* JSON values decoded by `encoding/json` are trees (`JVal`); read-only functions
  (`getObject`, `sampleType`, `arrayFromSchema`, the two `generateGo…File` extractions) are
  functions on them.
* `replaceReferences` mutates maps and slices in place and hands out the maps it finds
  in the schema without copying them, so it is embedded over an explicit heap of map and
  slice cells (`Heap`), with the order of a map's member list standing for the order in
  which `range` visits the map.
* the preprocessing loop of `main` is a fold over the scanned lines.
-/

namespace GenSchema

/-! ## Strings -/

/-- Go's `strings.HasPrefix(s, p)`. -/
def startsWith (s p : String) : Bool :=
  p.data.isPrefixOf s.data

/-- Splitting a character list at every occurrence of a one-character separator; like
Go's `strings.Split` it yields one more piece than there are separators. -/
def splitChars (sep : Char) : List Char → List (List Char)
  | [] => [[]]
  | c :: cs =>
    if c = sep then [] :: splitChars sep cs
    else
      match splitChars sep cs with
      | [] => [[c]]
      | w :: ws => (c :: w) :: ws

/-- Go's `strings.Split(s, sep)` for a separator of one character. -/
def split (s : String) (sep : Char) : List String :=
  (splitChars sep s.data).map String.mk

/-! ## Values -/

/-- What an `interface{}` of a decoded schema, or of a synthesized sample, can hold.
`null` is the nil interface; `nilMap` is a `map[string]interface{}` that is nil (what
`getObject` returns on a miss); the member list of `obj` stands for a non-nil map, its
order for the order in which `range` visits it. Numbers are never inspected by the
program and are carried as a decimal mantissa and exponent. -/
inductive JVal where
  | null
  | bool (b : Bool)
  | num (mant : Int) (exp : Int)
  | str (s : String)
  | arr (xs : List JVal)
  | obj (kvs : List (String × JVal))
  | nilMap

/-- The first entry of a member list with key `k`: the index expression `m[k]`. -/
def lookupKey {α : Type} (k : String) : List (String × α) → Option α
  | [] => none
  | (k2, v) :: rest => if k2 = k then some v else lookupKey k rest

/-- The assignment `m[k] = v` on a member list: the entry of `k` is overwritten where it
stands, a new key is added at the end. -/
def setKey {α : Type} (k : String) (v : α) : List (String × α) → List (String × α)
  | [] => [(k, v)]
  | (k2, w) :: rest => if k2 = k then (k2, v) :: rest else (k2, w) :: setKey k v rest

/-! ## Map access, shared by the tree and the heap embedding -/

/-- The two operations `getObject` performs on values: the type assertion
`v.(map[string]interface{})` (`none`: the dynamic type is not a map; `some none`: a nil
map; `some (some m)`: the map `m`) and the index expression `m[k]` on a non-nil map.
A Go variable of map type is an `Option M`, `none` being nil. -/
structure View (V M : Type) where
  assertMap : V → Option (Option M)
  index : M → String → Option V

/-- The index expression `m[k]` on a map variable; a nil map has no entry. -/
def View.get {V M : Type} (vw : View V M) (m : Option M) (k : String) : Option V :=
  m.bind (fun x => vw.index x k)

/-- The two-valued assertion `x, found := (m[k]).(map[string]interface{})`: a missing
entry is the nil interface, whose assertion fails and leaves the nil map. -/
def View.toMap {V M : Type} (vw : View V M) (x : Option V) : Option M × Bool :=
  match x.bind vw.assertMap with
  | some m => (m, true)
  | none => (none, false)

/-- Maps of a decoded tree are their member lists. -/
def treeView : View JVal (List (String × JVal)) where
  assertMap := fun v =>
    match v with
    | .obj kvs => some (some kvs)
    | .nilMap => some none
    | _ => none
  index := fun kvs k => lookupKey k kvs

/-- A map variable as an `interface{}` value. -/
def ofMap (m : Option (List (String × JVal))) : JVal :=
  match m with
  | some kvs => .obj kvs
  | none => .nilMap

/-! ## getObject -/

/-- The loop of `getObject` over the path segments `s[1:]`. -/
def getObjectLoop {V M : Type} (vw : View V M) : Option M → List String → Option M
  | schema, [] => schema
  | schema, seg :: rest =>
    let (props, found) := vw.toMap (vw.get schema "properties")
    let (props, found) :=
      if !found then vw.toMap (vw.get schema "patternProperties") else (props, found)
    let (schema, found) :=
      if found then vw.toMap (vw.get props seg) else vw.toMap (vw.get schema seg)
    if !found then none else getObjectLoop vw schema rest

/-- The pointer `getObject` walks: `objName` itself when it is `#/definitions` or starts
with `#/definitions/`, else `#/definitions/` followed by `objName`. -/
def normalizeName (objName : String) : String :=
  if objName ≠ "#/definitions" ∧ !startsWith objName "#/definitions/" then
    "#/definitions/" ++ objName
  else objName

/-- `getObject(schema, objName)`: the map the pointer leads to, or nil. -/
def getObject {V M : Type} (vw : View V M) (schema : Option M) (objName : String) :
    Option M :=
  let objName := normalizeName objName
  let s := split objName '/'
  getObjectLoop vw schema (s.drop 1)

/-! ## The lookup in the words of the specification -/

/-- The value a segment selects from a node: from the node's `properties` if that is a
map, else from its `patternProperties` if that is a map, else from the node itself. -/
def selectSegment {V M : Type} (vw : View V M) (node : Option M) (seg : String) :
    Option V :=
  match (vw.get node "properties").bind vw.assertMap with
  | some props => vw.get props seg
  | none =>
    match (vw.get node "patternProperties").bind vw.assertMap with
    | some pprops => vw.get pprops seg
    | none => vw.get node seg

/-- The selected value as the next node: it must be there and be a map that is not nil. -/
def asNode {V M : Type} (vw : View V M) (x : Option V) : Option M :=
  match x.bind vw.assertMap with
  | some (some m) => some m
  | _ => none

/-- Descend from a node along the segments, failing at the first segment whose selected
value is no node. -/
def descend {V M : Type} (vw : View V M) : Option M → List String → Option M
  | node, [] => node
  | node, seg :: rest =>
    match asNode vw (selectSegment vw node seg) with
    | some m => descend vw (some m) rest
    | none => none

/-- The segments of the normalized pointer after the leading `#`. -/
def segments (objName : String) : List String :=
  (split (normalizeName objName) '/').drop 1

/-! ## sampleType -/

/-! ### The clock reading and its rendering

`sampleType` renders the clock with `time.Now().Format(time.RFC3339Nano)`, the layout
`2006-01-02T15:04:05.999999999Z07:00` of the library. -/

/-- A clock reading as `time.Now()` presents it to `Format`: the civil date and time of
day, the nanoseconds within the second, and the zone offset in seconds east of UTC. -/
structure Time where
  year : Nat
  month : Nat
  day : Nat
  hour : Nat
  minute : Nat
  second : Nat
  nanosecond : Nat
  offset : Int

/-- The number of days of a month, February having 29 in the years divisible by 4 that
are not divisible by 100 or are divisible by 400. -/
def daysInMonth (year month : Nat) : Nat :=
  if month = 2 then (if year % 4 = 0 ∧ (year % 100 ≠ 0 ∨ year % 400 = 0) then 29 else 28)
  else if month = 4 ∨ month = 6 ∨ month = 9 ∨ month = 11 then 30
  else 31

/-- The fields of a clock reading are in their ranges: a year of four digits, a month
from 1 to 12, a day of that month, and a zone offset of less than a day. The library keeps
every field but the year in its range; the year is that of a clock of the years 0 to
9999. -/
def Time.valid (t : Time) : Prop :=
  t.year < 10000 ∧ 1 ≤ t.month ∧ t.month ≤ 12 ∧ 1 ≤ t.day ∧
    t.day ≤ daysInMonth t.year t.month ∧ t.hour < 24 ∧
    t.minute < 60 ∧ t.second < 60 ∧ t.nanosecond < 10 ^ 9 ∧ t.offset.natAbs < 86400

/-- The byte `'0' + d % 10`. -/
def digitChar (d : Nat) : Char :=
  Char.ofNat (48 + d % 10)

/-- The `width` low decimal digits of `x`, high digit first. -/
def lastDigits : Nat → Nat → List Char
  | 0, _ => []
  | width + 1, x => lastDigits width (x / 10) ++ [digitChar x]

/-- The library's `appendInt(b, x, width)` for `x ≥ 0`: the decimal digits of `x`, padded
with zeros on the left to `width` digits. -/
def appendInt (x width : Nat) : List Char :=
  if x < 10 ^ width then lastDigits width x else (Nat.repr x).data

/-- Removal of the trailing zeros. -/
def trimZeros (ds : List Char) : List Char :=
  (ds.reverse.dropWhile (fun c => c == '0')).reverse

/-- The element `.999999999` of the layout: nothing when the nanoseconds are zero, else a
point and the nine digits without their trailing zeros. -/
def formatNano (nanosecond : Nat) : List Char :=
  if nanosecond = 0 then []
  else
    match trimZeros (appendInt nanosecond 9) with
    | [] => []
    | ds => '.' :: ds

/-- The element `Z07:00` of the layout: `Z` for the offset zero, else the sign and the
hours and minutes of the offset. The library divides the offset by 60 rounding toward
zero and writes `-` when the quotient is negative. -/
def formatZone (offset : Int) : List Char :=
  if offset = 0 then ['Z']
  else
    (if offset < 0 ∧ offset.natAbs / 60 ≠ 0 then '-' else '+') ::
      (appendInt (offset.natAbs / 60 / 60) 2 ++ ':' :: appendInt (offset.natAbs / 60 % 60) 2)

/-- The rendering `t.Format(time.RFC3339Nano)`. -/
def formatRFC3339Nano (t : Time) : String :=
  String.mk
    (appendInt t.year 4 ++ '-' :: (appendInt t.month 2 ++ '-' :: (appendInt t.day 2 ++
      'T' :: (appendInt t.hour 2 ++ ':' :: (appendInt t.minute 2 ++ ':' ::
        (appendInt t.second 2 ++ (formatNano t.nanosecond ++ formatZone t.offset)))))))

/-! ### The date-time format of RFC 3339 -/

/-- The number two decimal digits stand for. -/
def number2 (a b : Char) : Nat :=
  (a.toNat - 48) * 10 + (b.toNat - 48)

/-- The rule `time-offset` of RFC 3339, section 5.6: `Z`, or a sign followed by the hours
`00` to `23`, a colon and the minutes `00` to `59`. -/
def isTimeOffset : List Char → Bool
  | [z] => z == 'Z'
  | [s, h1, h2, c, m1, m2] =>
    (s == '+' || s == '-') && h1.isDigit && h2.isDigit && c == ':' && m1.isDigit &&
      m2.isDigit && decide (number2 h1 h2 ≤ 23) && decide (number2 m1 m2 ≤ 59)
  | _ => false

/-- What follows the seconds: an optional fraction, a point and at least one digit, and
the offset. -/
def isTimeTail : List Char → Bool
  | [] => false
  | c :: rest =>
    if c = '.' then
      !(rest.takeWhile Char.isDigit).isEmpty && isTimeOffset (rest.dropWhile Char.isDigit)
    else isTimeOffset (c :: rest)

/-- The rule `date-time` of RFC 3339, section 5.6, in upper case: `full-date`, `T`,
`partial-time` and `time-offset`, with the month from `01` to `12`, the day from `01` to
the last day of the month (section 5.7), the hour up to `23`, the minute up to `59` and
the second up to `60`. -/
def isRFC3339 (s : String) : Bool :=
  match s.data with
  | y1 :: y2 :: y3 :: y4 :: c1 :: m1 :: m2 :: c2 :: d1 :: d2 :: c3 :: h1 :: h2 :: c4 ::
      n1 :: n2 :: c5 :: s1 :: s2 :: tail =>
    y1.isDigit && y2.isDigit && y3.isDigit && y4.isDigit && c1 == '-' &&
      m1.isDigit && m2.isDigit && c2 == '-' && d1.isDigit && d2.isDigit && c3 == 'T' &&
      h1.isDigit && h2.isDigit && c4 == ':' && n1.isDigit && n2.isDigit && c5 == ':' &&
      s1.isDigit && s2.isDigit &&
      decide (1 ≤ number2 m1 m2) && decide (number2 m1 m2 ≤ 12) &&
      decide (1 ≤ number2 d1 d2) &&
      decide (number2 d1 d2 ≤
        daysInMonth (number2 y1 y2 * 100 + number2 y3 y4) (number2 m1 m2)) &&
      decide (number2 h1 h2 ≤ 23) && decide (number2 n1 n2 ≤ 59) &&
      decide (number2 s1 s2 ≤ 60) && isTimeTail tail
  | _ => false

/-- What `sampleType` takes from outside the program: the clock reading `time.Now()` and
the library function `strings.ToLower`. -/
structure Env where
  now : Time
  toLower : String → String

/-- Lower-casing of the letters `A` to `Z`. `strings.ToLower` agrees with it on ASCII
names and differs on some others (it maps U+0130 to `i`); it serves the examples, whose
names are ASCII, and no theorem about `sampleType` in general depends on it. -/
def asciiLower (s : String) : String :=
  String.mk (s.data.map Char.toLower)

/-- A concrete environment for evaluating examples: half a second past noon UTC on
8 June 2016. -/
def sampleEnv : Env where
  now := ⟨2016, 6, 8, 12, 0, 0, 500000000, 0⟩
  toLower := asciiLower

/-- The assertion `x, found := o[key].(string)` together with `found && len(x) > 0`. -/
def nonEmptyString (x : Option JVal) : Option String :=
  match x with
  | some (.str s) => if s ≠ "" then some s else none
  | _ => none

/-- The `enum` step of the `string` case: `enum[1]` when the list has more than one
entry, else `enum[0]` when it has one. -/
def enumChoice (x : Option JVal) : Option JVal :=
  match x with
  | some (.arr (_ :: e1 :: _)) => some e1
  | some (.arr [e0]) => some e0
  | _ => none

/-- The `case "string"` branch of `sampleType` on the map `o`. -/
def sampleString (env : Env) (o : List (String × JVal)) (elementName : String) : JVal :=
  if env.toLower elementName = "timestamp" then .str (formatRFC3339Nano env.now)
  else
    match nonEmptyString (lookupKey "example" o) with
    | some ex => .str ex
    | none =>
      match nonEmptyString (lookupKey "default" o) with
      | some d => .str d
      | none =>
        match enumChoice (lookupKey "enum" o) with
        | some e => e
        | none =>
          match nonEmptyString (lookupKey "description" o) with
          | some desc => .str desc
          | none => .str "carpe noctem"

mutual
/-- `sampleType(obj, elementName)`. -/
def sampleType (env : Env) (obj : JVal) (elementName : String) : JVal :=
  match obj with
  | .obj o =>
    match lookupKey "type" o with
    | some (.str t) =>
      if t = "number" then .num 123456 (-3)
      else if t = "integer" then .num 789 0
      else if t = "string" then sampleString env o elementName
      else if t = "null" then .null
      else if t = "boolean" then .bool true
      else if t = "array" then
        match _h : lookupKey "items" o with
        | some (.obj items) => arrayFromSchema env (.obj items) elementName
        | some .nilMap => arrayFromSchema env .nilMap elementName
        | _ => .str "ARRAY WITH NO ITEMS PROPERTY"
      else if t = "object" then
        match _h : lookupKey "properties" o with
        | some (.obj props) => propsLoop env props []
        | some .nilMap => .obj []
        | _ =>
          match _h2 : lookupKey "patternProperties" o with
          | some (.obj props) => propsLoop env props []
          | some .nilMap => .obj []
          | _ => .str "INVALID OBJECT - MISSING PROPERTIES"
      else .str ("UNKNOWN TYPE in SampleType: " ++ t ++ "\n")
    | _ => if elementName = "oneOf" then .obj o else .str "NO TYPE PROPERTY"
  | .nilMap => if elementName = "oneOf" then .nilMap else .str "NO TYPE PROPERTY"
  | _ => .str ("SCHEMA ELEMENT " ++ elementName ++ " IS NOT MAP")
termination_by (sizeOf obj, 0)
decreasing_by
  all_goals simp_wf
  all_goals
    have key : ∀ (l : List (String × JVal)) (k : String) (v : JVal),
        lookupKey k l = some v → sizeOf v < sizeOf l := by
      intro l
      induction l with
      | nil => intro k v hv; simp [lookupKey] at hv
      | cons p rest ih =>
        intro k v hv
        obtain ⟨k2, w⟩ := p
        simp only [lookupKey] at hv
        split at hv
        · cases hv; simp; omega
        · have := ih k v hv; simp; omega
  all_goals
    first
      | (have hsz := key _ _ _ _h; simp at hsz; left; omega)
      | (have hsz := key _ _ _ _h2; simp at hsz; left; omega)

/-- `arrayFromSchema(schema, elementName)`, the schema map passed as a value. -/
def arrayFromSchema (env : Env) (schema : JVal) (elementName : String) : JVal :=
  match schema with
  | .obj items =>
    match lookupKey "enum" items with
    | some enum => enum
    | none => .arr [sampleType env (.obj items) elementName]
  | other => .arr [sampleType env other elementName]
termination_by (sizeOf schema, 1)
decreasing_by
  all_goals simp_wf
  all_goals (right; omega)

/-- The loop `for k, v := range props` of the `object` case; `objOut` is the map built
so far. A member holding the nil interface ends the loop and the function. -/
def propsLoop (env : Env) (props : List (String × JVal)) (objOut : List (String × JVal)) :
    JVal :=
  match props with
  | [] => .obj objOut
  | (k, v) :: rest =>
    match v with
    | .null => .str ("INVALID OBJECT - " ++ ("Key " ++ k ++ " has NIL value in SampleType\n"))
    | .arr aArr =>
      if "oneOf" = k then
        if aArr.isEmpty then propsLoop env rest objOut
        else propsLoop env rest (setKey k (.arr (oneOfLoop env aArr)) objOut)
      else propsLoop env rest (setKey k (.str "UNKNOWN ARRAY OBJECT") objOut)
    | .obj aMap => propsLoop env rest (setKey k (sampleType env (.obj aMap) k) objOut)
    | .nilMap => propsLoop env rest (setKey k (sampleType env .nilMap k) objOut)
    | _ => propsLoop env rest objOut
termination_by (sizeOf props, 0)
decreasing_by
  all_goals simp_wf
  all_goals (left; omega)

/-- The loop `for k2, v2 := range aArr` of a `oneOf` member: the slice `aOut`, one entry
per alternative, nil where the alternative is no map or has no member. -/
def oneOfLoop (env : Env) (aArr : List JVal) : List JVal :=
  match aArr with
  | [] => []
  | v2 :: rest =>
    (match v2 with
      | .obj vObj => altLoop env vObj .null
      | _ => .null) :: oneOfLoop env rest
termination_by (sizeOf aArr, 0)
decreasing_by
  all_goals simp_wf
  all_goals (left; omega)

/-- The loop `for k3, v3 := range vObj` over one alternative; `cur` is `aOut[k2]` so far,
and every member visited replaces it by a fresh one-key map. -/
def altLoop (env : Env) (vObj : List (String × JVal)) (cur : JVal) : JVal :=
  match vObj with
  | [] => cur
  | (k3, v3) :: rest => altLoop env rest (.obj [(k3, sampleType env v3 k3)])
termination_by (sizeOf vObj, 0)
decreasing_by
  all_goals simp_wf
  all_goals (left; omega)
end

/-- The member map of an object-typed node, as the `object` case finds it: `properties`
when that is a map, otherwise `patternProperties` when that is a map (`some none`: the
map found is nil; `none`: neither is a map). -/
def memberMap (o : List (String × JVal)) : Option (Option (List (String × JVal))) :=
  match (lookupKey "properties" o).bind treeView.assertMap with
  | some m => some m
  | none => (lookupKey "patternProperties" o).bind treeView.assertMap

/-- What one pass of the loop over the member map stores in `objOut` under the key `k`
for a member value `v` that is not the nil interface (`none`: nothing is stored). -/
def memberSample (env : Env) (k : String) (v : JVal) : Option JVal :=
  match v with
  | .arr aArr =>
    if "oneOf" = k then
      if aArr.isEmpty then none else some (.arr (oneOfLoop env aArr))
    else some (.str "UNKNOWN ARRAY OBJECT")
  | .obj aMap => some (sampleType env (.obj aMap) k)
  | .nilMap => some (sampleType env .nilMap k)
  | _ => none

/-! ## The heap embedding for in-place resolution

`replaceReferences` assigns into the maps and slices it is given, and `getObject` returns
the very map stored in the schema, so resolved targets are shared between the places that
refer to them. Maps and slices are therefore cells of a heap, and an `interface{}` holds
a scalar or the address of a cell. The program allocates no map and no slice while
resolving, so the heap keeps its cells. -/

/-- An `interface{}` in the heap embedding; `arr` and `map` hold the address of a cell. -/
inductive Val where
  | null
  | bool (b : Bool)
  | num (mant : Int) (exp : Int)
  | str (s : String)
  | arr (a : Nat)
  | map (a : Nat)
  | nilMap
  deriving DecidableEq

/-- A heap cell: the elements of a slice, or the members of a map in the order in which
`range` visits them. -/
inductive Cell where
  | arr (xs : List Val)
  | map (kvs : List (String × Val))
  deriving DecidableEq

/-- The heap; an address is a position in the list. -/
abbrev Heap := List Cell

/-- How a call ends: with a result, with a run-time panic, or not at all (the fuel of
the embedding ran out). -/
inductive Res (α : Type) where
  | ok (a : α)
  | panic
  | diverge
  deriving DecidableEq

/-- The members of the map at address `a` (none when `a` holds no map). -/
def Heap.members (h : Heap) (a : Nat) : List (String × Val) :=
  match h[a]? with
  | some (.map kvs) => kvs
  | _ => []

/-- The elements of the slice at address `a` (none when `a` holds no slice). -/
def Heap.elems (h : Heap) (a : Nat) : List Val :=
  match h[a]? with
  | some (.arr xs) => xs
  | _ => []

/-- The assignment `m[k] = v` on the map at address `a`. -/
def Heap.setMember (h : Heap) (a : Nat) (k : String) (v : Val) : Heap :=
  match h[a]? with
  | some (.map kvs) => h.set a (.map (setKey k v kvs))
  | _ => h

/-- The assignment `s[i] = v` on the slice at address `a`. -/
def Heap.setElem (h : Heap) (a : Nat) (i : Nat) (v : Val) : Heap :=
  match h[a]? with
  | some (.arr xs) => h.set a (.arr (xs.set i v))
  | _ => h

/-- Maps of the heap are their addresses. -/
def heapView (h : Heap) : View Val Nat where
  assertMap := fun v =>
    match v with
    | .map a => some (some a)
    | .nilMap => some none
    | _ => none
  index := fun a k => lookupKey k (h.members a)

/-- A map variable as an `interface{}` value of the heap embedding. -/
def Val.ofMap (m : Option Nat) : Val :=
  match m with
  | some a => .map a
  | none => .nilMap

/-- The loop `for k, v := range oMap` of `replaceReferences` over the map at address `a`.
The keys are those the map has when the loop starts, in member order (Go leaves open
whether a key stored while the loop runs is visited; here it is not); each value is read
when its key is reached. `oMap` is the variable the loop assigns to: it starts as the map
ranged over and becomes the resolved target once the key `$ref` has been visited, after
which `oMap[k] = …` writes into that target (and panics if it is nil). `rr` is the
recursive call. -/
def refMapLoop (rr : Heap → Val → Res (Heap × Val)) (schema : Option Nat) (a : Nat) :
    List String → Heap → Option Nat → Res (Heap × Option Nat)
  | [], h, oMap => .ok (h, oMap)
  | k :: ks, h, oMap =>
    match lookupKey k (h.members a) with
    | none => refMapLoop rr schema a ks h oMap
    | some v =>
      if k = "$ref" then
        match v with
        | .str ref =>
          match rr h (Val.ofMap (getObject (heapView h) schema ref)) with
          | .ok (h1, r) =>
            match (heapView h1).assertMap r with
            | some m => refMapLoop rr schema a ks h1 m
            | none => .panic
          | .panic => .panic
          | .diverge => .diverge
        | _ => .panic
      else
        match rr h v with
        | .ok (h1, r) =>
          match oMap with
          | some b => refMapLoop rr schema a ks (h1.setMember b k r) oMap
          | none => .panic
        | .panic => .panic
        | .diverge => .diverge

/-- The loop `for k, v := range oArr` of `replaceReferences` over the slice at address `a`;
the indices are those of the slice, each element is read when its index is reached. -/
def refArrLoop (rr : Heap → Val → Res (Heap × Val)) (schema : Option Nat) (a : Nat) :
    List Nat → Heap → Res Heap
  | [], h => .ok h
  | k :: ks, h =>
    match (h.elems a)[k]? with
    | none => refArrLoop rr schema a ks h
    | some v =>
      match (heapView h).assertMap v with
      | some r =>
        match (heapView h).get r "$ref" with
        | some ref =>
          match ref with
          | .str p =>
            match rr h (Val.ofMap (getObject (heapView h) schema p)) with
            | .ok (h1, x) => refArrLoop rr schema a ks (h1.setElem a k x)
            | .panic => .panic
            | .diverge => .diverge
          | _ => .panic
        | none =>
          match rr h v with
          | .ok (h1, x) => refArrLoop rr schema a ks (h1.setElem a k x)
          | .panic => .panic
          | .diverge => .diverge
      | none => refArrLoop rr schema a ks h

/-- `replaceReferences(schema, obj)` on the heap `h`; the fuel bounds the depth of the
recursion, and running out of it stands for a call that does not return. -/
def replaceReferences : Nat → Heap → Option Nat → Val → Res (Heap × Val)
  | 0, _, _, _ => .diverge
  | fuel + 1, h, schema, obj =>
    match obj with
    | .arr a =>
      match refArrLoop (fun h1 v => replaceReferences fuel h1 schema v) schema a
          (List.range (h.elems a).length) h with
      | .ok h1 => .ok (h1, .arr a)
      | .panic => .panic
      | .diverge => .diverge
    | .map a =>
      match refMapLoop (fun h1 v => replaceReferences fuel h1 schema v) schema a
          ((h.members a).map Prod.fst) h (some a) with
      | .ok (h1, oMap) => .ok (h1, Val.ofMap oMap)
      | .panic => .panic
      | .diverge => .diverge
    | .nilMap => .ok (h, .nilMap)
    | other => .ok (h, other)

/-! ## Between trees and heaps -/

mutual
/-- Store a decoded tree in the heap, members and elements first; the value returned
stands for the tree. -/
def load : JVal → Heap → Val × Heap
  | .null, h => (.null, h)
  | .bool b, h => (.bool b, h)
  | .num m e, h => (.num m e, h)
  | .str s, h => (.str s, h)
  | .nilMap, h => (.nilMap, h)
  | .arr xs, h =>
    let r := loadList xs h
    (.arr r.2.length, r.2 ++ [.arr r.1])
  | .obj kvs, h =>
    let r := loadMembers kvs h
    (.map r.2.length, r.2 ++ [.map r.1])
/-- Store the elements of a list, left to right. -/
def loadList : List JVal → Heap → List Val × Heap
  | [], h => ([], h)
  | x :: xs, h =>
    let r := load x h
    let rs := loadList xs r.2
    (r.1 :: rs.1, rs.2)
/-- Store the members of a map, in member order. -/
def loadMembers : List (String × JVal) → Heap → List (String × Val) × Heap
  | [], h => ([], h)
  | (k, v) :: rest, h =>
    let r := load v h
    let rs := loadMembers rest r.2
    ((k, r.1) :: rs.1, rs.2)
end

/-- Apply a function that may fail to every entry of a list. -/
def allSome {α β : Type} (f : α → Option β) : List α → Option (List β)
  | [] => some []
  | x :: xs =>
    match f x, allSome f xs with
    | some y, some ys => some (y :: ys)
    | _, _ => none

/-- The tree a heap value stands for, when it is one of depth below `n`. -/
def readback : Nat → Heap → Val → Option JVal
  | 0, _, _ => none
  | n + 1, h, v =>
    match v with
    | .null => some .null
    | .bool b => some (.bool b)
    | .num m e => some (.num m e)
    | .str s => some (.str s)
    | .nilMap => some .nilMap
    | .arr a => (allSome (readback n h) (h.elems a)).map JVal.arr
    | .map a =>
      (allSome (fun kv => (readback n h kv.2).map (fun t => (kv.1, t))) (h.members a)).map
        JVal.obj

mutual
/-- Some object of the tree, at any depth and under objects or arrays alike, carries a
`$ref` key. -/
def carriesRef : JVal → Bool
  | .obj kvs => (lookupKey "$ref" kvs).isSome || carriesRefMembers kvs
  | .arr xs => carriesRefList xs
  | _ => false
/-- Some element of the list carries a `$ref` key at some depth. -/
def carriesRefList : List JVal → Bool
  | [] => false
  | x :: xs => carriesRef x || carriesRefList xs
/-- Some member value carries a `$ref` key at some depth. -/
def carriesRefMembers : List (String × JVal) → Bool
  | [] => false
  | (_, v) :: rest => carriesRef v || carriesRefMembers rest
end

/-! ## What resolution leaves behind -/

/-- `Reach h deep v w`: in the heap `h` the value `w` is `v` or lies under it, reached
through map members and slice elements. With `deep` false an element that is itself a
slice is not entered: these are the places the loops of `replaceReferences` look into. -/
inductive Reach (h : Heap) (deep : Bool) : Val → Val → Prop where
  | refl (v : Val) : Reach h deep v v
  | member {v : Val} {a : Nat} {k : String} {w : Val} :
      Reach h deep v (.map a) → lookupKey k (h.members a) = some w → Reach h deep v w
  | elem {v : Val} {a : Nat} {i : Nat} {w : Val} :
      Reach h deep v (.arr a) → (h.elems a)[i]? = some w →
      (deep = true ∨ ∀ b, w ≠ .arr b) → Reach h deep v w

/-- No map reached from `v` without entering a slice inside a slice has a `$ref` key. -/
def Resolved (h : Heap) (v : Val) : Prop :=
  ∀ a, Reach h false v (.map a) → lookupKey "$ref" (h.members a) = none

/-- What a run of `replaceReferences` changes between the heaps `h` and `h'`: every map
member and slice element of `h'` is as in `h`, or holds a resolved value (and is not
stored under the key `$ref`). -/
structure Frame (h h' : Heap) : Prop where
  members : ∀ (a : Nat) (k : String) (w : Val), lookupKey k (h'.members a) = some w →
    lookupKey k (h.members a) = some w ∨ (k ≠ "$ref" ∧ Resolved h' w)
  elems : ∀ (a i : Nat) (w : Val), (h'.elems a)[i]? = some w →
    (h.elems a)[i]? = some w ∨ Resolved h' w

/-! ## Extraction of the requested elements -/

/-- The fields of `Config` the extraction reads: `Schemas.GoSchemaElements`, `Schemas.API`
and `Samples.GoSampleElements`. -/
structure Config where
  goSchemaElements : List String
  api : List String
  goSampleElements : List String

/-- The loop shape shared by the three extraction loops: for each requested name compute
its entry `f name`; when there is none (`obj == nil`) the function returns on the spot
and nothing is written (`none`), otherwise the entry is stored under the name. -/
def extractLoop (f : String → Option JVal) :
    List String → List (String × JVal) → Option (List (String × JVal))
  | [], out => some out
  | name :: rest, out =>
    match f name with
    | none => none
    | some entry => extractLoop f rest (setKey name entry out)

/-- `generateGoSchemaFile`: the map `schemas` that is marshalled and written, or `none` when
the function returns before writing. The API functions are looked up under
`#/definitions/API/`, the elements under their own names. -/
def generateGoSchemaFile (schema : Option (List (String × JVal))) (config : Config) :
    Option JVal :=
  match extractLoop
      (fun functionName =>
        (getObject treeView schema ("#/definitions/API/" ++ functionName)).map JVal.obj)
      config.api [] with
  | none => none
  | some apis =>
    match extractLoop (fun elementName => (getObject treeView schema elementName).map JVal.obj)
        config.goSchemaElements [] with
    | none => none
    | some elements => some (.obj [("API", .obj apis), ("objectModelSchemas", .obj elements)])

/-- `generateGoSampleFile`: the map `samples` that is marshalled and written, or `none` when
the function returns before writing. The name `schema` stands for the whole schema. -/
def generateGoSampleFile (env : Env) (schema : Option (List (String × JVal)))
    (config : Config) : Option JVal :=
  (extractLoop
      (fun elementName =>
        if elementName = "schema" then some (sampleType env (ofMap schema) elementName)
        else
          (getObject treeView schema elementName).map
            (fun obj => sampleType env (.obj obj) elementName))
      config.goSampleElements []).map JVal.obj

/-! ## The preprocessing loop of `main` and the syntax error report -/

/-- Go's `unicode.IsSpace`. -/
def isSpace (c : Char) : Bool :=
  let n := c.toNat
  n = 0x09 || n = 0x0A || n = 0x0B || n = 0x0C || n = 0x0D || n = 0x20 || n = 0x85
    || n = 0xA0 || n = 0x1680 || (0x2000 ≤ n && n ≤ 0x200A) || n = 0x2028 || n = 0x2029
    || n = 0x202F || n = 0x205F || n = 0x3000

/-- Go's `strings.TrimSpace`. -/
def trimSpace (s : String) : String :=
  String.mk (((s.data.dropWhile isSpace).reverse.dropWhile isSpace).reverse)

/-- Whether `sub` occurs in the list: `strings.Index(s, sub) != -1`. -/
def hasInfix (sub : List Char) : List Char → Bool
  | [] => sub.isEmpty
  | c :: cs => sub.isPrefixOf (c :: cs) || hasInfix sub cs

/-- A result, if the call ended with one. -/
def Res.toOption {α : Type} : Res α → Option α
  | .ok a => some a
  | _ => none

/-- The variables of `main` the preprocessing loop updates: the rewritten text `api`, the
counters `line` and `lineOut`, and the table `offsets` (a `[5000]int`, all zero at first). -/
structure Pre where
  api : String
  line : Nat
  lineOut : Nat
  offsets : Nat → Nat

/-- The state before the first line: `line = 1`, `lineOut = 1`. -/
def Pre.init : Pre where
  api := ""
  line := 1
  lineOut := 1
  offsets := fun _ => 0

/-- One pass of the loop `for scanner.Scan()` on the scanned line `l`. `getIncludedFile` is
the function of that name, which reads the file system and may panic. Indexing `offsets`
at 5000 or beyond panics, and so does slicing an included text of fewer than two lines. -/
def preprocessLine (getIncludedFile : String → Res String) (st : Pre) (l : String) :
    Res Pre :=
  let ts := trimSpace l
  let body : Res (String × Nat) :=
    if startsWith ts "#" then .ok (st.api, st.lineOut)
    else if ts = "" then .ok (st.api, st.lineOut)
    else if startsWith ts "\"$ref\"" && !(hasInfix "\"#/".data ts.data) then
      let ss := split ts '"'
      if ss.length < 2 then .panic
      else
        match ss[ss.length - 2]? with
        | none => .panic
        | some p =>
          match getIncludedFile p with
          | .ok refArr =>
            let lines := split refArr '\n'
            if lines.length < 2 then .panic
            else
              let lines := (lines.drop 1).take (lines.length - 2)
              let api := lines.foldl (fun acc l2 => acc ++ l2 ++ "\n") st.api
              let lineOut := st.lineOut + lines.length
              .ok (if ss.getLast? = some "," then api ++ "," else api, lineOut)
          | .panic => .panic
          | .diverge => .diverge
    else .ok (st.api ++ l ++ "\n", st.lineOut + 1)
  match body with
  | .ok (api, lineOut) =>
    if lineOut < 5000 then
      .ok
        { api := api
          line := st.line + 1
          lineOut := lineOut
          offsets := fun i => if i = lineOut then st.line else st.offsets i }
    else .panic
  | .panic => .panic
  | .diverge => .diverge

/-- The preprocessing loop over the lines the scanner delivers (`scanLines` gives them for
a raw text). -/
def preprocess (getIncludedFile : String → Res String) : List String → Pre → Res Pre
  | [], st => .ok st
  | l :: ls, st =>
    match preprocessLine getIncludedFile st l with
    | .ok st1 => preprocess getIncludedFile ls st1
    | .panic => .panic
    | .diverge => .diverge

/-- The position of the last occurrence of `c` in the list, if there is one. -/
def lastIndexOf (c : Char) : List Char → Option Nat
  | [] => none
  | x :: xs =>
    match lastIndexOf c xs with
    | some i => some (i + 1)
    | none => if x = c then some 0 else none

/-- The line number `printSyntaxError` prints for a syntax error at `offset` in the text
`js`: with `start` one past the last newline before the offset and `line` the number of
newlines before `start`, it is `off[line] + 1`. Text positions are counted in characters,
which for ASCII text are its bytes. The value is the number in the first line printed;
the excerpt printed after it, with `strings.Repeat(" ", pos)`, is not part of it. -/
def printSyntaxError (js : String) (off : Nat → Nat) (offset : Nat) : Res Nat :=
  let start :=
    match lastIndexOf '\n' (js.data.take offset) with
    | some i => i + 1
    | none => 0
  let line := ((js.data.take start).filter (fun c => c = '\n')).length
  if line < 5000 then .ok (off line + 1) else .panic

/-! ## An example document with an include -/

/-- A raw schema text of 21 lines: line 10 is an external include, line 20 lacks the
colon after its key. -/
def includeExampleRaw : List String :=
  ["\x7b", "\"k2\": 2,", "\"k3\": 3,", "\"k4\": 4,", "\"k5\": 5,", "\"k6\": 6,",
    "\"k7\": 7,", "\"k8\": 8,", "\"k9\": 9,",
    "\"$ref\": \"ext/schema.json/#/definitions/inc\",",
    "\"k11\": 11,", "\"k12\": 12,", "\"k13\": 13,", "\"k14\": 14,", "\"k15\": 15,",
    "\"k16\": 16,", "\"k17\": 17,", "\"k18\": 18,", "\"k19\": 19,", "\"k20\" 20", "\x7d"]

/-- What `getIncludedFile` returns for the include of the example: an object of five
members as `json.MarshalIndent` prints it, seven lines of which five are inlined. -/
def includeExampleFile (path : String) : Res String :=
  if path = "ext/schema.json/#/definitions/inc" then
    .ok "\x7b\n   \"a\": 1,\n   \"b\": 2,\n   \"c\": 3,\n   \"d\": 4,\n   \"e\": 5\n\x7d"
  else .panic

/-! ## The line classes of the preprocessor, in the words of the specification -/

/-- A line is an external include when its trimmed form starts with `"$ref"` and does not
contain `"#/`. -/
def isIncludeLine (l : String) : Bool :=
  startsWith (trimSpace l) "\"$ref\"" && !(hasInfix "\"#/".data (trimSpace l).data)

/-- A line is kept when its trimmed form is not empty and does not start with `#`. -/
def keptLine (l : String) : Bool :=
  !(startsWith (trimSpace l) "#") && decide (trimSpace l ≠ "")

/-- The lines in order, each followed by a newline. -/
def joinLines : List String → String
  | [] => ""
  | l :: ls => l ++ "\n" ++ joinLines ls

/-! ## referencesExist -/

mutual
/-- The body of the loop of `referencesExist` for one member value: the type switch has a
case for maps only, on which the function calls itself. -/
def referencesExistVal : JVal → Bool
  | .obj m => (lookupKey "$ref" m).isSome || referencesExistLoop m
  | _ => false
/-- The loop `for _, v := range schema` of `referencesExist`. -/
def referencesExistLoop : List (String × JVal) → Bool
  | [] => false
  | (_, v) :: rest => referencesExistVal v || referencesExistLoop rest
end

/-- `referencesExist(schema)`; a nil map has no key and no member. -/
def referencesExist (schema : Option (List (String × JVal))) : Bool :=
  match schema with
  | some m => (lookupKey "$ref" m).isSome || referencesExistLoop m
  | none => false

/-! ## Sample synthesis with its run-time checks and a bound on the call depth

`sampleTypeChecked` is `sampleType` again, written as the machine runs it: an index
expression outside its bounds is `.panic`, and a call nested deeper than `fuel` is
`.diverge`. The type assertions of the source are all of the two-result form, which cannot
fail; they appear as the same pattern matches as in `sampleType`. -/

mutual
/-- Number of nested containers of a value tree. -/
def depth : JVal → Nat
  | .arr xs => depthList xs + 1
  | .obj kvs => depthMembers kvs + 1
  | _ => 0
/-- Largest depth of an element. -/
def depthList : List JVal → Nat
  | [] => 0
  | x :: xs => max (depth x) (depthList xs)
/-- Largest depth of a member value. -/
def depthMembers : List (String × JVal) → Nat
  | [] => 0
  | (_, v) :: rest => max (depth v) (depthMembers rest)
end

/-- The index expression `xs[i]`. -/
def indexChecked (xs : List JVal) (i : Nat) : Res JVal :=
  match xs[i]? with
  | some x => .ok x
  | none => .panic

/-- The assignment `xs[i] = v`. -/
def assignChecked (xs : List JVal) (i : Nat) (v : JVal) : Res (List JVal) :=
  if i < xs.length then .ok (xs.set i v) else .panic

/-- The `enum` step of the `string` case: `enum[1]` under `len(enum) > 1`, `enum[0]`
under `len(enum) > 0`; `none` when the step returns nothing. -/
def enumChoiceChecked (x : Option JVal) : Option (Res JVal) :=
  match x with
  | some (.arr enum) =>
    if enum.length > 1 then some (indexChecked enum 1)
    else if enum.length > 0 then some (indexChecked enum 0)
    else none
  | _ => none

/-- The `case "string"` branch of `sampleType`. -/
def sampleStringChecked (env : Env) (o : List (String × JVal)) (elementName : String) :
    Res JVal :=
  if env.toLower elementName = "timestamp" then .ok (.str (formatRFC3339Nano env.now))
  else
    match nonEmptyString (lookupKey "example" o) with
    | some ex => .ok (.str ex)
    | none =>
      match nonEmptyString (lookupKey "default" o) with
      | some d => .ok (.str d)
      | none =>
        match enumChoiceChecked (lookupKey "enum" o) with
        | some e => e
        | none =>
          match nonEmptyString (lookupKey "description" o) with
          | some desc => .ok (.str desc)
          | none => .ok (.str "carpe noctem")

/-- `arrayFromSchema`, its call of `sampleType` given as `rec`. -/
def arrayFromSchemaChecked (rec : JVal → String → Res JVal) (schema : JVal)
    (elementName : String) : Res JVal :=
  match schema with
  | .obj items =>
    match lookupKey "enum" items with
    | some enum => .ok enum
    | none =>
      match rec (.obj items) elementName with
      | .ok s => .ok (.arr [s])
      | .panic => .panic
      | .diverge => .diverge
  | other =>
    match rec other elementName with
    | .ok s => .ok (.arr [s])
    | .panic => .panic
    | .diverge => .diverge

/-- The loop `for k3, v3 := range vObj`: each member builds `tmp` and assigns it to
`aOut[k2]`. -/
def altLoopChecked (rec : JVal → String → Res JVal) (k2 : Nat) :
    List (String × JVal) → List JVal → Res (List JVal)
  | [], aOut => .ok aOut
  | (k3, v3) :: rest, aOut =>
    match rec v3 k3 with
    | .ok s =>
      match assignChecked aOut k2 (.obj [(k3, s)]) with
      | .ok aOut1 => altLoopChecked rec k2 rest aOut1
      | .panic => .panic
      | .diverge => .diverge
    | .panic => .panic
    | .diverge => .diverge

/-- The loop `for k2, v2 := range aArr`, from index `k2` on, over the slice `aOut`. -/
def oneOfLoopChecked (rec : JVal → String → Res JVal) :
    List JVal → Nat → List JVal → Res (List JVal)
  | [], _, aOut => .ok aOut
  | v2 :: rest, k2, aOut =>
    match v2 with
    | .obj vObj =>
      match altLoopChecked rec k2 vObj aOut with
      | .ok aOut1 => oneOfLoopChecked rec rest (k2 + 1) aOut1
      | .panic => .panic
      | .diverge => .diverge
    | _ => oneOfLoopChecked rec rest (k2 + 1) aOut

/-- The loop `for k, v := range props` of the `object` case. `aOut` starts as
`make([]interface{}, len(aArr))`. -/
def propsLoopChecked (rec : JVal → String → Res JVal) :
    List (String × JVal) → List (String × JVal) → Res JVal
  | [], objOut => .ok (.obj objOut)
  | (k, v) :: rest, objOut =>
    match v with
    | .null =>
      .ok (.str ("INVALID OBJECT - " ++ ("Key " ++ k ++ " has NIL value in SampleType\n")))
    | .arr aArr =>
      if "oneOf" = k then
        match oneOfLoopChecked rec aArr 0 (List.replicate aArr.length .null) with
        | .ok aOut =>
          if aArr.isEmpty then propsLoopChecked rec rest objOut
          else propsLoopChecked rec rest (setKey k (.arr aOut) objOut)
        | .panic => .panic
        | .diverge => .diverge
      else propsLoopChecked rec rest (setKey k (.str "UNKNOWN ARRAY OBJECT") objOut)
    | .obj aMap =>
      match rec (.obj aMap) k with
      | .ok s => propsLoopChecked rec rest (setKey k s objOut)
      | .panic => .panic
      | .diverge => .diverge
    | .nilMap =>
      match rec .nilMap k with
      | .ok s => propsLoopChecked rec rest (setKey k s objOut)
      | .panic => .panic
      | .diverge => .diverge
    | _ => propsLoopChecked rec rest objOut

/-- `sampleType(obj, elementName)` with at most `fuel` nested calls. -/
def sampleTypeChecked : Nat → Env → JVal → String → Res JVal
  | 0, _, _, _ => .diverge
  | fuel + 1, env, obj, elementName =>
    match obj with
    | .obj o =>
      match lookupKey "type" o with
      | some (.str t) =>
        if t = "number" then .ok (.num 123456 (-3))
        else if t = "integer" then .ok (.num 789 0)
        else if t = "string" then sampleStringChecked env o elementName
        else if t = "null" then .ok .null
        else if t = "boolean" then .ok (.bool true)
        else if t = "array" then
          match lookupKey "items" o with
          | some (.obj items) =>
            arrayFromSchemaChecked (sampleTypeChecked fuel env) (.obj items) elementName
          | some .nilMap =>
            arrayFromSchemaChecked (sampleTypeChecked fuel env) .nilMap elementName
          | _ => .ok (.str "ARRAY WITH NO ITEMS PROPERTY")
        else if t = "object" then
          match lookupKey "properties" o with
          | some (.obj props) => propsLoopChecked (sampleTypeChecked fuel env) props []
          | some .nilMap => .ok (.obj [])
          | _ =>
            match lookupKey "patternProperties" o with
            | some (.obj props) => propsLoopChecked (sampleTypeChecked fuel env) props []
            | some .nilMap => .ok (.obj [])
            | _ => .ok (.str "INVALID OBJECT - MISSING PROPERTIES")
        else .ok (.str ("UNKNOWN TYPE in SampleType: " ++ t ++ "\n"))
      | _ => if elementName = "oneOf" then .ok (.obj o) else .ok (.str "NO TYPE PROPERTY")
    | .nilMap => if elementName = "oneOf" then .ok .nilMap else .ok (.str "NO TYPE PROPERTY")
    | _ => .ok (.str ("SCHEMA ELEMENT " ++ elementName ++ " IS NOT MAP"))

/-! ## Reference cycles

The vocabulary for calls of `replaceReferences` that cannot return: a set of heap values
each of which sends the resolver to another value of the set. -/

/-- The member map one step of the walk of `getObject` selects from, with the flag of its
assertion: `properties` when that is a map, else `patternProperties`. -/
def stepContainer {V M : Type} (vw : View V M) (schema : Option M) : Option M × Bool :=
  if (vw.toMap (vw.get schema "properties")).2 then vw.toMap (vw.get schema "properties")
  else vw.toMap (vw.get schema "patternProperties")

/-- The node one step of the walk of `getObject` moves to for the segment `seg`, with the
flag of its assertion: read from the member map when there is one, else from the node. -/
def stepNext {V M : Type} (vw : View V M) (schema : Option M) (seg : String) :
    Option M × Bool :=
  if (stepContainer vw schema).2 then vw.toMap (vw.get (stepContainer vw schema).1 seg)
  else vw.toMap (vw.get schema seg)

/-- The walk of `getObject` from `schema` along `segs` succeeds in the heap `h` and every
map it reads is in `T`: each node it stands on, each member map it selects from, and the
node it ends on. -/
def walkIn (h : Heap) (T : Val → Prop) : Option Nat → List String → Prop
  | schema, [] => T (Val.ofMap schema)
  | schema, seg :: rest =>
    T (Val.ofMap schema) ∧
    ((stepContainer (heapView h) schema).2 = true →
      T (Val.ofMap (stepContainer (heapView h) schema).1)) ∧
    (stepNext (heapView h) schema seg).2 = true ∧
    walkIn h T (stepNext (heapView h) schema seg).1 rest

/-- What keeps the resolver from returning on a value of `T`: a map with a `$ref` member
holds a pointer string under it whose lookup stays in `T`; a map without one has a member
that is in `T`; a slice has an element map that is in `T`. -/
def Trap (h : Heap) (schema : Option Nat) (T : Val → Prop) : Val → Prop
  | .map x =>
    match lookupKey "$ref" (h.members x) with
    | some w => ∃ p, w = .str p ∧ walkIn h T schema (segments p)
    | none => ∃ k w, lookupKey k (h.members x) = some w ∧ T w
  | .arr c => ∃ (i : Nat) (y : Nat), (h.elems c)[i]? = some (Val.map y) ∧ T (.map y)
  | _ => False

/-- Every value of `T` is trapped in `T`. A reference cycle, taken together with the maps
on the lookup paths of its pointers, is such a set. -/
def TrapSet (h : Heap) (schema : Option Nat) (T : Val → Prop) : Prop :=
  ∀ v, T v → Trap h schema T v

/-- The value meets its trap at the first step of its loop: the first member of a map is
`$ref` or holds a value of `T`, the first element of a slice is a map of `T`. -/
def FirstTrap (h : Heap) (T : Val → Prop) : Val → Prop
  | .map x =>
    match (h.members x).head? with
    | some (k, w) => k = "$ref" ∨ T w
    | none => False
  | .arr c => ∃ y : Nat, (h.elems c)[0]? = some (Val.map y) ∧ T (.map y)
  | _ => False

/-- The heap `h1` holds in the maps and slices of `T` what `h` holds there, but for
places where `h` holds a map that is not in `T`. -/
structure Keeps (T : Val → Prop) (h h1 : Heap) : Prop where
  members : ∀ x, T (.map x) → ∀ key,
    lookupKey key (h1.members x) = lookupKey key (h.members x) ∨
      ∃ q, lookupKey key (h.members x) = some (.map q) ∧ ¬ T (.map q)
  elems : ∀ c, T (.arr c) → ∀ i : Nat,
    (h1.elems c)[i]? = (h.elems c)[i]? ∨
      ∃ q : Nat, (h.elems c)[i]? = some (Val.map q) ∧ ¬ T (.map q)

/-! ## The line scanner of `main`

`main` reads the schema file through `bufio.NewScanner` with `bufio.ScanLines` and never
sets a buffer nor looks at `scanner.Err()`: the scanner delivers the lines in turn, each
without its line end, and stops for good, without a word, at a line that does not fit its
buffer of `bufio.MaxScanTokenSize` bytes. -/

/-- Number of bytes of the UTF-8 form of a text. -/
def byteLength (cs : List Char) : Nat :=
  (cs.map Char.utf8Size).sum

/-- The constant `bufio.MaxScanTokenSize`. -/
def maxScanTokenSize : Nat := 64 * 1024

/-- The library's `dropCR`: a carriage return at the end is dropped. -/
def dropCR (cs : List Char) : List Char :=
  if cs.getLast? = some '\r' then cs.dropLast else cs

/-- The pieces of a text between its newlines; a text that ends with a newline, or is
empty, has no piece after its end. -/
def rawPieces (raw : String) : List (List Char) :=
  if (splitChars '\n' raw.data).getLast? = some [] then (splitChars '\n' raw.data).dropLast
  else splitChars '\n' raw.data

/-- The lines of a raw text, each without its line end `\n` or `\r\n`. -/
def rawLines (raw : String) : List String :=
  (rawPieces raw).map (fun p => String.mk (dropCR p))

/-- The lines `scanner.Scan()` and `scanner.Text()` deliver for a raw text: the lines up
to the first piece of `bufio.MaxScanTokenSize` bytes or more, which fills the buffer
before its newline is seen. -/
def scanLines (raw : String) : List String :=
  ((rawPieces raw).takeWhile (fun p => decide (byteLength p < maxScanTokenSize))).map
    (fun p => String.mk (dropCR p))

/-- The preprocessing loop of `main` on the raw text of the schema file. -/
def preprocessText (getIncludedFile : String → Res String) (raw : String) : Res Pre :=
  preprocess getIncludedFile (scanLines raw) Pre.init

/-! # Theorems -/

/-! ## Strings -/

theorem startsWith_append (p s : String) : startsWith (p ++ s) p = true := by
  simp [startsWith, String.data_append]

theorem splitChars_ne_nil (sep : Char) (cs : List Char) : splitChars sep cs ≠ [] := by
  cases cs with
  | nil => simp [splitChars]
  | cons c cs =>
    simp only [splitChars]
    split
    · simp
    · split <;> simp

theorem normalizeName_idem (name : String) :
    normalizeName (normalizeName name) = normalizeName name := by
  unfold normalizeName
  by_cases h : name ≠ "#/definitions" ∧ (!startsWith name "#/definitions/") = true
  · rw [if_pos h, if_neg]
    simp [startsWith_append]
  · rw [if_neg h, if_neg h]

theorem normalizeName_cases (name : String) :
    normalizeName name = "#/definitions" ∨
      ∃ r : List Char, (normalizeName name).data = "#/definitions/".data ++ r := by
  unfold normalizeName
  by_cases h : name ≠ "#/definitions" ∧ (!startsWith name "#/definitions/") = true
  · right
    refine ⟨name.data, ?_⟩
    rw [if_pos h, String.data_append]
  · rw [if_neg h]
    by_cases h1 : name = "#/definitions"
    · exact Or.inl h1
    · right
      have h2 : startsWith name "#/definitions/" = true := by
        by_contra hc
        exact h ⟨h1, by simpa using hc⟩
      unfold startsWith at h2
      rw [List.isPrefixOf_iff_prefix] at h2
      obtain ⟨r, hr⟩ := h2
      exact ⟨r, hr.symm⟩

theorem segments_ne_nil (name : String) : segments name ≠ [] := by
  unfold segments split
  rcases normalizeName_cases name with h | ⟨r, hr⟩
  · rw [h]; decide
  · rw [hr]
    have h0 := splitChars_ne_nil '/' r
    simp only [splitChars, String.data, List.cons_append, List.nil_append]
    revert h0
    cases splitChars '/' r with
    | nil => intro h0; exact absurd rfl h0
    | cons w ws => intro _; simp

/-! ## getObject -/

theorem getObjectLoop_nil {V M : Type} (vw : View V M) (segs : List String) :
    getObjectLoop vw none segs = none := by
  cases segs with
  | nil => rfl
  | cons seg rest => simp [getObjectLoop, View.get, View.toMap]

theorem descend_nil {V M : Type} (vw : View V M) (segs : List String) :
    descend vw none segs = none := by
  cases segs with
  | nil => rfl
  | cons seg rest => simp [descend, selectSegment, asNode, View.get]

theorem getObjectLoop_eq_descend {V M : Type} (vw : View V M) (segs : List String) :
    ∀ node : Option M, getObjectLoop vw node segs = descend vw node segs := by
  induction segs with
  | nil => intro node; rfl
  | cons seg rest ih =>
    intro node
    simp only [getObjectLoop, descend, selectSegment, asNode, View.toMap]
    cases h1 : (vw.get node "properties").bind vw.assertMap with
    | some props =>
      simp only [Bool.not_true, Bool.false_eq_true, if_false, if_true]
      cases h3 : (vw.get props seg).bind vw.assertMap with
      | none => simp
      | some m =>
        cases m with
        | none => simp [getObjectLoop_nil]
        | some m => simp [ih]
    | none =>
      simp only [Bool.not_false, if_true]
      cases h2 : (vw.get node "patternProperties").bind vw.assertMap with
      | some pprops =>
        simp only [if_true]
        cases h3 : (vw.get pprops seg).bind vw.assertMap with
        | none => simp
        | some m =>
          cases m with
          | none => simp [getObjectLoop_nil]
          | some m => simp [ih]
      | none =>
        simp only [Bool.false_eq_true, if_false]
        cases h3 : (vw.get node seg).bind vw.assertMap with
        | none => simp
        | some m =>
          cases m with
          | none => simp [getObjectLoop_nil]
          | some m => simp [ih]

theorem descend_eq_none_iff {V M : Type} (vw : View V M) (segs : List String) :
    ∀ node : Option M, descend vw node segs = none ↔
      node = none ∨ ∃ i seg, segs[i]? = some seg ∧
        asNode vw (selectSegment vw (descend vw node (segs.take i)) seg) = none := by
  induction segs with
  | nil =>
    intro node
    simp [descend]
  | cons s rest ih =>
    intro node
    constructor
    · intro h
      cases hsel : asNode vw (selectSegment vw node s) with
      | none =>
        right
        exact ⟨0, s, by simp, by simpa [descend] using hsel⟩
      | some m =>
        simp only [descend, hsel] at h
        rcases (ih (some m)).1 h with h0 | ⟨i, seg, hi, hf⟩
        · exact absurd h0 (by simp)
        · right
          refine ⟨i + 1, seg, by simpa using hi, ?_⟩
          simpa [descend, hsel] using hf
    · rintro (h0 | ⟨i, seg, hi, hf⟩)
      · rw [h0]; exact descend_nil vw _
      · cases hsel : asNode vw (selectSegment vw node s) with
        | none => simp [descend, hsel]
        | some m =>
          simp only [descend, hsel]
          cases i with
          | zero =>
            simp only [List.getElem?_cons_zero, Option.some.injEq] at hi
            subst hi
            simp only [List.take_zero, descend] at hf
            rw [hf] at hsel
            exact absurd hsel (by simp)
          | succ j =>
            apply (ih (some m)).2
            right
            refine ⟨j, seg, by simpa using hi, ?_⟩
            simpa [descend, hsel] using hf

/-- C3 (pointer normalization). For every view of maps, every schema root and every name
that is not `#/definitions` and does not start with `#/definitions/`, `getObject` gives
the same result (the same map, or nil both times) for the bare name and for
`#/definitions/` followed by the name. -/
theorem getObject_pointer_normalization {V M : Type} (vw : View V M) (schema : Option M)
    (name : String) (h1 : name ≠ "#/definitions")
    (h2 : startsWith name "#/definitions/" = false) :
    getObject vw schema name = getObject vw schema ("#/definitions/" ++ name) := by
  have e1 : normalizeName name = "#/definitions/" ++ name := by
    unfold normalizeName
    rw [if_pos ⟨h1, by simp [h2]⟩]
  have e2 : normalizeName ("#/definitions/" ++ name) = "#/definitions/" ++ name := by
    rw [← e1]
    exact normalizeName_idem name
  simp only [getObject, e1, e2]

/-- Witness of C3 on the root `{"definitions": {"Foo": {"type": "string"}}}` and
the name `Foo`: both lookups give the map of `Foo`. -/
theorem getObject_pointer_normalization_witness :
    "Foo" ≠ "#/definitions" ∧ startsWith "Foo" "#/definitions/" = false ∧
      getObject treeView
          (some [("definitions", .obj [("Foo", .obj [("type", .str "string")])])]) "Foo" =
        getObject treeView
          (some [("definitions", .obj [("Foo", .obj [("type", .str "string")])])])
          ("#/definitions/" ++ "Foo") :=
  ⟨by decide, by decide,
    getObject_pointer_normalization treeView _ "Foo" (by decide) (by decide)⟩

/-- C4, amended (lookup semantics). `getObject` is the descent of the specification along the
segments of the normalized pointer after the leading `#`: each segment is selected from
the current node's `properties` if that is a map, else from its `patternProperties` if
that is a map, else from the node itself, and the node reached after the last segment
is returned. The result is nil exactly when at some segment the selected value is no
node: it is absent, or is not a map, or is a map that is nil. -/
theorem getObject_lookup_semantics {V M : Type} (vw : View V M) (schema : Option M)
    (name : String) :
    getObject vw schema name = descend vw schema (segments name) ∧
      (getObject vw schema name = none ↔
        ∃ i seg, (segments name)[i]? = some seg ∧
          asNode vw (selectSegment vw (descend vw schema ((segments name).take i)) seg)
            = none) := by
  have e : getObject vw schema name = descend vw schema (segments name) := by
    simp only [getObject, segments, getObjectLoop_eq_descend]
  refine ⟨e, ?_⟩
  rw [e, descend_eq_none_iff]
  constructor
  · rintro (h0 | h)
    · subst h0
      cases hs : segments name with
      | nil => exact absurd hs (segments_ne_nil name)
      | cons s rest =>
        exact ⟨0, s, by simp, by simp [descend, selectSegment, asNode, View.get]⟩
    · exact h
  · intro h
    exact Or.inr h

/-- C4, as stated, fails. In the root `{"definitions": {"X": m}}` with `m` a nil map (what
a dangling `$ref` leaves behind: the second part resolves
`{"definitions": {"X": {"$ref": "#/definitions/Missing"}}}` and reads `X` back), the
pointer `X` has the segments `definitions` and `X`; each selects a value that is present
and passes the map assertion, and `getObject` returns nil all the same. -/
theorem getObject_nil_map_counterexample :
    segments "X" = ["definitions", "X"] ∧
    (∃ v, selectSegment treeView (some [("definitions", .obj [("X", .nilMap)])]) "definitions"
        = some v ∧ treeView.assertMap v = some (some [("X", .nilMap)])) ∧
    (∃ v, selectSegment treeView (some [("X", .nilMap)]) "X" = some v ∧
        treeView.assertMap v = some none) ∧
    getObject treeView (some [("definitions", .obj [("X", .nilMap)])]) "X" = none ∧
    (match replaceReferences 4
        [.map [("$ref", .str "#/definitions/Missing")], .map [("X", .map 0)],
          .map [("definitions", .map 1)]] (some 2) (.map 2) with
      | .ok (h1, _) =>
        (lookupKey "X" (h1.members 1), getObject (heapView h1) (some 2) "X")
      | _ => (none, none)) = (some .nilMap, none) := by
  refine ⟨by decide, ⟨_, rfl, rfl⟩, ⟨_, rfl, rfl⟩, rfl, by decide⟩

/-! ## sampleType: scalar and array cases -/

theorem sampleType_string (env : Env) (o : List (String × JVal)) (name : String)
    (htype : lookupKey "type" o = some (.str "string")) :
    sampleType env (.obj o) name = sampleString env o name := by
  rw [sampleType]
  simp [htype]

theorem nonEmptyString_eq_none (x : Option JVal)
    (h : ∀ s, x = some (.str s) → s = "") : nonEmptyString x = none := by
  unfold nonEmptyString
  split
  · rename_i s
    simp [h s rfl]
  · rfl

theorem nonEmptyString_eq_some (x : Option JVal) (s : String)
    (h : x = some (.str s)) (hs : s ≠ "") : nonEmptyString x = some s := by
  subst h
  simp [nonEmptyString, hs]

theorem enumChoice_eq_none (x : Option JVal)
    (h : ∀ xs, x = some (.arr xs) → xs = []) : enumChoice x = none := by
  unfold enumChoice
  split
  · rename_i e0 e1 rest
    exact absurd (h _ rfl) (by simp)
  · rename_i e0
    exact absurd (h _ rfl) (by simp)
  · rfl

/-- C6 (string sampling preference order). For a node of type `string` and a name whose
lower-case form is not `timestamp`, `sampleType` returns the first available of: a
non-empty string `example`; a non-empty string `default`; the second entry of the `enum`
list when it has at least two entries, else its only entry; a non-empty string
`description`; else `carpe noctem`. In particular example `X` with default `Y` gives `X`,
only enum `[A, B, C]` gives `B`, and only enum `[A]` gives `A`. -/
theorem sampleType_string_preference (env : Env) (o : List (String × JVal)) (name : String)
    (htype : lookupKey "type" o = some (.str "string"))
    (hname : env.toLower name ≠ "timestamp") :
    (∀ s, lookupKey "example" o = some (.str s) → s ≠ "" →
        sampleType env (.obj o) name = .str s) ∧
    ((∀ s, lookupKey "example" o = some (.str s) → s = "") →
      (∀ s, lookupKey "default" o = some (.str s) → s ≠ "" →
        sampleType env (.obj o) name = .str s) ∧
      ((∀ s, lookupKey "default" o = some (.str s) → s = "") →
        (∀ e0 e1 rest, lookupKey "enum" o = some (.arr (e0 :: e1 :: rest)) →
          sampleType env (.obj o) name = e1) ∧
        (∀ e0, lookupKey "enum" o = some (.arr [e0]) →
          sampleType env (.obj o) name = e0) ∧
        ((∀ xs, lookupKey "enum" o = some (.arr xs) → xs = []) →
          (∀ s, lookupKey "description" o = some (.str s) → s ≠ "" →
            sampleType env (.obj o) name = .str s) ∧
          ((∀ s, lookupKey "description" o = some (.str s) → s = "") →
            sampleType env (.obj o) name = .str "carpe noctem")))) ∧
    sampleType env
        (.obj [("type", .str "string"), ("example", .str "X"), ("default", .str "Y")]) name
      = .str "X" ∧
    sampleType env
        (.obj [("type", .str "string"), ("enum", .arr [.str "A", .str "B", .str "C"])]) name
      = .str "B" ∧
    sampleType env (.obj [("type", .str "string"), ("enum", .arr [.str "A"])]) name
      = .str "A" := by
  rw [sampleType_string env o name htype]
  unfold sampleString
  rw [if_neg hname]
  refine ⟨?_, ?_, ?_, ?_, ?_⟩
  · intro s h hs
    simp [nonEmptyString_eq_some _ s h hs]
  · intro hex
    rw [nonEmptyString_eq_none _ hex]
    refine ⟨?_, ?_⟩
    · intro s h hs
      simp [nonEmptyString_eq_some _ s h hs]
    · intro hdef
      rw [nonEmptyString_eq_none _ hdef]
      refine ⟨?_, ?_, ?_⟩
      · intro e0 e1 rest h
        simp [h, enumChoice]
      · intro e0 h
        simp [h, enumChoice]
      · intro hen
        rw [enumChoice_eq_none _ hen]
        refine ⟨?_, ?_⟩
        · intro s h hs
          simp [nonEmptyString_eq_some _ s h hs]
        · intro hd
          simp [nonEmptyString_eq_none _ hd]
  · rw [sampleType_string env _ name (by simp [lookupKey])]
    simp [sampleString, hname, lookupKey, nonEmptyString]
  · rw [sampleType_string env _ name (by simp [lookupKey])]
    simp [sampleString, hname, lookupKey, nonEmptyString, enumChoice]
  · rw [sampleType_string env _ name (by simp [lookupKey])]
    simp [sampleString, hname, lookupKey, nonEmptyString, enumChoice]

/-- Witness of C6 on `{"type": "string", "default": "Y", "description": "D"}` and
the name `owner`: the default is taken. -/
theorem sampleType_string_preference_witness :
    lookupKey "type" [("type", JVal.str "string"), ("default", .str "Y"),
        ("description", .str "D")] = some (.str "string") ∧
      sampleEnv.toLower "owner" ≠ "timestamp" ∧
      sampleType sampleEnv
          (.obj [("type", .str "string"), ("default", .str "Y"), ("description", .str "D")])
          "owner" = .str "Y" :=
  ⟨rfl, by decide,
    ((sampleType_string_preference sampleEnv
        [("type", .str "string"), ("default", .str "Y"), ("description", .str "D")]
        "owner" rfl (by decide)).2.1
      (by intro s h; simp [lookupKey] at h)).1 "Y" rfl (by decide)⟩

/-- C7 (array-with-enum sampling). For a node of type `array` whose `items` is a map
with an `enum` key, `sampleType` returns the value of that `enum` as it stands, whatever
the name and whatever else `items` holds. -/
theorem sampleType_array_enum (env : Env) (o items : List (String × JVal)) (name : String)
    (enum : JVal) (htype : lookupKey "type" o = some (.str "array"))
    (hitems : lookupKey "items" o = some (.obj items))
    (henum : lookupKey "enum" items = some enum) :
    sampleType env (.obj o) name = enum := by
  rw [sampleType]
  simp only [htype]
  simp only [String.reduceEq, if_false, if_true]
  split
  · rename_i items2 h
    rw [hitems] at h
    cases h
    rw [arrayFromSchema]
    simp [henum]
  · rename_i h
    rw [hitems] at h
    cases h
  · rename_i h1 h2
    exact absurd hitems (h1 items)

/-- Witness of C7 on `{"type": "array", "items": {"type": "string", "enum": [a, b, c]}}`:
the sample is the list `[a, b, c]`. -/
theorem sampleType_array_enum_witness :
    lookupKey "type" [("type", JVal.str "array"),
        ("items", .obj [("type", .str "string"),
          ("enum", .arr [.str "a", .str "b", .str "c"])])] = some (.str "array") ∧
      sampleType sampleEnv
          (.obj [("type", .str "array"),
            ("items", .obj [("type", .str "string"),
              ("enum", .arr [.str "a", .str "b", .str "c"])])]) "colours"
        = .arr [.str "a", .str "b", .str "c"] :=
  ⟨rfl,
    sampleType_array_enum sampleEnv _
      [("type", .str "string"), ("enum", .arr [.str "a", .str "b", .str "c"])] "colours"
      (.arr [.str "a", .str "b", .str "c"]) rfl rfl rfl⟩

/-! ## Member lists -/

theorem lookupKey_setKey_same {α : Type} (k : String) (v : α) (l : List (String × α)) :
    lookupKey k (setKey k v l) = some v := by
  induction l with
  | nil => simp [setKey, lookupKey]
  | cons p rest ih =>
    obtain ⟨k2, w⟩ := p
    by_cases h : k2 = k
    · simp [setKey, lookupKey, h]
    · simp [setKey, lookupKey, h, ih]

theorem lookupKey_setKey_other {α : Type} (k k' : String) (v : α) (l : List (String × α))
    (h : k' ≠ k) : lookupKey k' (setKey k v l) = lookupKey k' l := by
  induction l with
  | nil => simp [setKey, lookupKey, Ne.symm h]
  | cons p rest ih =>
    obtain ⟨k2, w⟩ := p
    by_cases h2 : k2 = k
    · subst h2
      simp [setKey, lookupKey, Ne.symm h]
    · by_cases h3 : k2 = k'
      · subst h3
        simp [setKey, lookupKey, h2]
      · simp [setKey, lookupKey, h2, h3, ih]

theorem lookupKey_eq_none_of_not_mem {α : Type} (k : String) (l : List (String × α))
    (h : k ∉ l.map Prod.fst) : lookupKey k l = none := by
  induction l with
  | nil => rfl
  | cons p rest ih =>
    obtain ⟨k2, w⟩ := p
    simp only [List.map_cons, List.mem_cons, not_or] at h
    simp [lookupKey, Ne.symm h.1, ih h.2]

/-! ## sampleType: the object case -/

theorem sampleType_object (env : Env) (o : List (String × JVal)) (name : String)
    (props : List (String × JVal)) (htype : lookupKey "type" o = some (.str "object"))
    (hprops : memberMap o = some (some props)) :
    sampleType env (.obj o) name = propsLoop env props [] := by
  rw [sampleType]
  simp only [htype]
  simp only [String.reduceEq, if_false, if_true]
  unfold memberMap at hprops
  split
  · rename_i p h
    simp [h, treeView] at hprops
    rw [hprops]
  · rename_i h
    simp [h, treeView] at hprops
  · rename_i h1 h2
    have e : (lookupKey "properties" o).bind treeView.assertMap = none := by
      cases hp : lookupKey "properties" o with
      | none => rfl
      | some v =>
        cases v with
        | obj p => exact absurd hp (h1 p)
        | nilMap => exact absurd hp h2
        | _ => rfl
    rw [e] at hprops
    split
    · rename_i p h
      simp [h, treeView] at hprops
      rw [hprops]
    · rename_i h
      simp [h, treeView] at hprops
    · rename_i h3 h4
      cases hp : lookupKey "patternProperties" o with
      | none => simp [hp] at hprops
      | some v =>
        cases v with
        | obj p => exact absurd hp (h3 p)
        | nilMap => exact absurd hp h4
        | _ => simp [hp, treeView] at hprops

theorem propsLoop_cons (env : Env) (k : String) (v : JVal) (rest objOut : List (String × JVal))
    (hv : v ≠ .null) :
    propsLoop env ((k, v) :: rest) objOut =
      propsLoop env rest
        (match memberSample env k v with
          | some s => setKey k s objOut
          | none => objOut) := by
  cases v with
  | null => exact absurd rfl hv
  | arr aArr =>
    conv_lhs => rw [propsLoop]
    simp only [memberSample]
    by_cases hk : "oneOf" = k
    · by_cases he : aArr.isEmpty = true
      · simp [hk, he]
      · simp [hk, he]
    · simp [hk]
  | obj aMap =>
    conv_lhs => rw [propsLoop]
    simp only [memberSample]
  | nilMap =>
    conv_lhs => rw [propsLoop]
    simp only [memberSample]
  | bool b => rw [propsLoop] <;> simp [memberSample]
  | num m e => rw [propsLoop] <;> simp [memberSample]
  | str s => rw [propsLoop] <;> simp [memberSample]

/-- The loop over a member map without nil-valued members and with distinct keys returns
a map; under each key it holds what the pass for that member stored, and `objOut` is
otherwise as before. -/
theorem propsLoop_spec (env : Env) (props : List (String × JVal)) :
    ∀ objOut : List (String × JVal), (∀ kv ∈ props, kv.2 ≠ JVal.null) →
      (props.map Prod.fst).Nodup →
      ∃ out, propsLoop env props objOut = .obj out ∧
        ∀ k, lookupKey k out =
          match lookupKey k props with
          | some v => (memberSample env k v).orElse (fun _ => lookupKey k objOut)
          | none => lookupKey k objOut := by
  induction props with
  | nil =>
    intro objOut _ _
    exact ⟨objOut, by rw [propsLoop], fun k => by simp [lookupKey]⟩
  | cons p rest ih =>
    intro objOut hnn hnd
    obtain ⟨k0, v0⟩ := p
    have hv0 : v0 ≠ .null := hnn (k0, v0) (by simp)
    simp only [List.map_cons, List.nodup_cons] at hnd
    obtain ⟨out, hout, hl⟩ := ih
      (match memberSample env k0 v0 with
        | some s => setKey k0 s objOut
        | none => objOut)
      (fun kv hkv => hnn kv (List.mem_cons_of_mem _ hkv)) hnd.2
    refine ⟨out, by rw [propsLoop_cons env k0 v0 rest objOut hv0]; exact hout, ?_⟩
    intro k
    rw [hl k]
    by_cases hk : k0 = k
    · subst hk
      rw [lookupKey_eq_none_of_not_mem _ _ hnd.1]
      simp only [lookupKey, if_true]
      cases memberSample env k0 v0 with
      | none => simp
      | some s => simp [lookupKey_setKey_same]
    · simp only [lookupKey, hk, if_false]
      have e : lookupKey k
          (match memberSample env k0 v0 with
            | some s => setKey k0 s objOut
            | none => objOut) = lookupKey k objOut := by
        cases memberSample env k0 v0 with
        | none => rfl
        | some s => exact lookupKey_setKey_other k0 k s objOut (Ne.symm hk)
      rw [e]

theorem oneOfLoop_single (env : Env) (ps : List (String × JVal)) :
    oneOfLoop env (ps.map fun p => JVal.obj [(p.1, p.2)]) =
      ps.map fun p => JVal.obj [(p.1, sampleType env p.2 p.1)] := by
  induction ps with
  | nil => rw [List.map_nil, oneOfLoop]; rfl
  | cons p rest ih =>
    rw [List.map_cons, oneOfLoop, ih]
    simp only [List.map_cons]
    rw [altLoop, altLoop]

/-- C8, as stated, fails: `sampleType` applied to the node
`{"oneOf": [{"A": {"type": "integer"}}, {"B": {"type": "boolean"}}]}` yields the
missing-type placeholder (and the node itself under the name `oneOf`), not the sequence
of the two one-key samples. -/
theorem sampleType_bare_oneOf_counterexample :
    sampleType sampleEnv
        (.obj [("oneOf", .arr [.obj [("A", .obj [("type", .str "integer")])],
          .obj [("B", .obj [("type", .str "boolean")])]])]) "choice"
      = .str "NO TYPE PROPERTY" ∧
    sampleType sampleEnv
        (.obj [("oneOf", .arr [.obj [("A", .obj [("type", .str "integer")])],
          .obj [("B", .obj [("type", .str "boolean")])]])]) "oneOf"
      = .obj [("oneOf", .arr [.obj [("A", .obj [("type", .str "integer")])],
          .obj [("B", .obj [("type", .str "boolean")])]])] ∧
    sampleType sampleEnv
        (.obj [("oneOf", .arr [.obj [("A", .obj [("type", .str "integer")])],
          .obj [("B", .obj [("type", .str "boolean")])]])]) "choice"
      ≠ .arr [.obj [("A", sampleType sampleEnv (.obj [("type", .str "integer")]) "A")],
          .obj [("B", sampleType sampleEnv (.obj [("type", .str "boolean")]) "B")]] := by
  refine ⟨?_, ?_, ?_⟩
  · rw [sampleType]; simp [lookupKey]
  · rw [sampleType]; simp [lookupKey]
  · rw [sampleType]; simp [lookupKey]

/-- C8, amended (composition sampling). For an object-typed node whose member map has
distinct keys, no nil-valued member, and under `oneOf` a non-empty sequence of one-key
objects `{name_i: sub_i}`, `sampleType` returns a map whose `oneOf` entry is the sequence,
in the same order, of the one-key objects `{name_i: sampleType(sub_i, name_i)}`. -/
theorem sampleType_oneOf_member (env : Env) (o props ps : List (String × JVal))
    (name : String) (htype : lookupKey "type" o = some (.str "object"))
    (hprops : memberMap o = some (some props))
    (hkeys : (props.map Prod.fst).Nodup)
    (hnonnil : ∀ kv ∈ props, kv.2 ≠ JVal.null)
    (hone : lookupKey "oneOf" props = some (.arr (ps.map fun p => JVal.obj [(p.1, p.2)])))
    (hne : ps ≠ []) :
    ∃ out, sampleType env (.obj o) name = .obj out ∧
      lookupKey "oneOf" out =
        some (.arr (ps.map fun p => JVal.obj [(p.1, sampleType env p.2 p.1)])) := by
  obtain ⟨out, hout, hl⟩ := propsLoop_spec env props [] hnonnil hkeys
  refine ⟨out, by rw [sampleType_object env o name props htype hprops]; exact hout, ?_⟩
  rw [hl "oneOf", hone]
  have hne2 : (ps.map fun p => JVal.obj [(p.1, p.2)]).isEmpty = false := by
    cases ps with
    | nil => exact absurd rfl hne
    | cons p rest => rfl
  simp only [memberSample, if_true, hne2, Bool.false_eq_true, if_false, Option.orElse]
  rw [oneOfLoop_single]

/-- Witness of the amended C8 on
`{"type": "object", "properties": {"oneOf": [{"A": {"type": "integer"}}, {"B": {"type": "boolean"}}]}}`:
the sample's `oneOf` entry is `[{"A": 789}, {"B": true}]`. -/
theorem sampleType_oneOf_member_witness :
    ∃ out, sampleType sampleEnv
        (.obj [("type", .str "object"),
          ("properties", .obj [("oneOf", .arr [.obj [("A", .obj [("type", .str "integer")])],
            .obj [("B", .obj [("type", .str "boolean")])]])])]) "event" = .obj out ∧
      lookupKey "oneOf" out =
        some (.arr ([("A", JVal.obj [("type", .str "integer")]),
            ("B", JVal.obj [("type", .str "boolean")])].map
          fun p => JVal.obj [(p.1, sampleType sampleEnv p.2 p.1)])) :=
  sampleType_oneOf_member sampleEnv
    [("type", .str "object"),
      ("properties", .obj [("oneOf", .arr [.obj [("A", .obj [("type", .str "integer")])],
        .obj [("B", .obj [("type", .str "boolean")])]])])]
    [("oneOf", .arr [.obj [("A", .obj [("type", .str "integer")])],
        .obj [("B", .obj [("type", .str "boolean")])]])]
    [("A", .obj [("type", .str "integer")]), ("B", .obj [("type", .str "boolean")])]
    "event" rfl rfl (by simp) (by simp) rfl (by simp)

/-! ## Heap cells -/

theorem setKey_of_lookupKey {α : Type} (k : String) (v : α) (l : List (String × α))
    (h : lookupKey k l = some v) : setKey k v l = l := by
  induction l with
  | nil => simp [lookupKey] at h
  | cons p rest ih =>
    obtain ⟨k2, w⟩ := p
    by_cases hk : k2 = k
    · simp only [lookupKey, hk, if_true, Option.some.injEq] at h
      simp [setKey, hk, h]
    · simp only [lookupKey, hk, if_false] at h
      simp [setKey, hk, ih h]

theorem list_set_of_getElem? {α : Type} (l : List α) (i : Nat) (x : α)
    (h : l[i]? = some x) : l.set i x = l := by
  induction l generalizing i with
  | nil => rfl
  | cons y ys ih =>
    cases i with
    | zero =>
      simp only [List.getElem?_cons_zero, Option.some.injEq] at h
      simp [h]
    | succ j =>
      simp only [List.getElem?_cons_succ] at h
      simp [ih j h]

theorem setMember_self (h : Heap) (a : Nat) (k : String) (v : Val)
    (hv : lookupKey k (h.members a) = some v) : h.setMember a k v = h := by
  unfold Heap.members at hv
  unfold Heap.setMember
  cases hc : h[a]? with
  | none => rfl
  | some c =>
    cases c with
    | arr xs => rfl
    | map kvs =>
      simp only [hc] at hv
      simp only [setKey_of_lookupKey k v kvs hv]
      exact list_set_of_getElem? h a _ hc

theorem setElem_self (h : Heap) (a : Nat) (i : Nat) (v : Val)
    (hv : (h.elems a)[i]? = some v) : h.setElem a i v = h := by
  unfold Heap.elems at hv
  unfold Heap.setElem
  cases hc : h[a]? with
  | none => rfl
  | some c =>
    cases c with
    | map kvs => rfl
    | arr xs =>
      simp only [hc] at hv
      simp only [list_set_of_getElem? xs i v hv]
      exact list_set_of_getElem? h a _ hc

theorem lookupKey_mem {α : Type} (k : String) (v : α) (l : List (String × α))
    (h : lookupKey k l = some v) : (k, v) ∈ l := by
  induction l with
  | nil => simp [lookupKey] at h
  | cons p rest ih =>
    obtain ⟨k2, w⟩ := p
    by_cases hk : k2 = k
    · simp only [lookupKey, hk, if_true, Option.some.injEq] at h
      simp [hk, h]
    · simp only [lookupKey, hk, if_false] at h
      exact List.mem_cons_of_mem _ (ih h)

theorem lookupKey_isSome_of_mem {α : Type} (k : String) (l : List (String × α))
    (h : k ∈ l.map Prod.fst) : (lookupKey k l).isSome = true := by
  induction l with
  | nil => simp at h
  | cons p rest ih =>
    obtain ⟨k2, w⟩ := p
    by_cases hk : k2 = k
    · simp [lookupKey, hk]
    · simp only [List.map_cons, List.mem_cons] at h
      rcases h with h | h
      · exact absurd h.symm hk
      · simp [lookupKey, hk, ih h]

/-! ## Reading trees back -/

theorem allSome_mem {α β : Type} (f : α → Option β) (l : List α) (ys : List β)
    (h : allSome f l = some ys) : ∀ x ∈ l, ∃ y ∈ ys, f x = some y := by
  induction l generalizing ys with
  | nil => intro x hx; simp at hx
  | cons a as ih =>
    simp only [allSome] at h
    split at h
    · rename_i y ys2 hy hys
      cases h
      intro x hx
      rcases List.mem_cons.1 hx with rfl | hx
      · exact ⟨y, by simp, hy⟩
      · obtain ⟨z, hz, hfz⟩ := ih ys2 hys x hx
        exact ⟨z, List.mem_cons_of_mem _ hz, hfz⟩
    · cases h

theorem allSome_keys {γ : Type} (f : Val → Option γ) (l : List (String × Val))
    (kvs : List (String × γ))
    (h : allSome (fun kv => (f kv.2).map (fun t => (kv.1, t))) l = some kvs) :
    kvs.map Prod.fst = l.map Prod.fst := by
  induction l generalizing kvs with
  | nil => simp only [allSome, Option.some.injEq] at h; subst h; rfl
  | cons a as ih =>
    simp only [allSome] at h
    split at h
    · rename_i y ys2 hy hys
      cases h
      cases hf : f a.2 with
      | none => simp [hf] at hy
      | some t =>
        simp only [hf, Option.map_some', Option.some.injEq] at hy
        subst hy
        simp [ih ys2 hys]
    · cases h

theorem carriesRefMembers_false (kvs : List (String × JVal))
    (h : carriesRefMembers kvs = false) : ∀ kv ∈ kvs, carriesRef kv.2 = false := by
  induction kvs with
  | nil => intro kv hkv; simp at hkv
  | cons p rest ih =>
    obtain ⟨k, v⟩ := p
    simp only [carriesRefMembers, Bool.or_eq_false_iff] at h
    intro kv hkv
    rcases List.mem_cons.1 hkv with rfl | hkv
    · exact h.1
    · exact ih h.2 kv hkv

theorem carriesRefList_false (xs : List JVal)
    (h : carriesRefList xs = false) : ∀ x ∈ xs, carriesRef x = false := by
  induction xs with
  | nil => intro x hx; simp at hx
  | cons y ys ih =>
    simp only [carriesRefList, Bool.or_eq_false_iff] at h
    intro x hx
    rcases List.mem_cons.1 hx with rfl | hx
    · exact h.1
    · exact ih h.2 x hx

/-- A map value that reads back as a tree without `$ref` has no `$ref` member. -/
theorem no_ref_member_of_readback (n : Nat) (h : Heap) (b : Nat) (t : JVal)
    (ht : readback n h (.map b) = some t) (hfree : carriesRef t = false) :
    lookupKey "$ref" (h.members b) = none := by
  cases n with
  | zero => simp [readback] at ht
  | succ m =>
    simp only [readback, Option.map_eq_some'] at ht
    obtain ⟨kvs, hkvs, rfl⟩ := ht
    simp only [carriesRef, Bool.or_eq_false_iff] at hfree
    have hk := allSome_keys (readback m h) _ kvs hkvs
    by_contra hc
    have hmem : "$ref" ∈ (h.members b).map Prod.fst := by
      cases hl : lookupKey "$ref" (h.members b) with
      | none => exact absurd hl hc
      | some v =>
        exact List.mem_map.2 ⟨("$ref", v), lookupKey_mem _ _ _ hl, rfl⟩
    rw [← hk] at hmem
    have := lookupKey_isSome_of_mem _ _ hmem
    rw [this] at hfree
    exact absurd hfree.1 (by simp)

/-! ## Resolution of a reference-free value -/

theorem refMapLoop_unchanged (rr : Heap → Val → Res (Heap × Val)) (schema : Option Nat)
    (a : Nat) (h : Heap) (ks : List String)
    (hks : ∀ k ∈ ks, k ≠ "$ref" ∧
      ∀ v, lookupKey k (h.members a) = some v → rr h v = .ok (h, v)) :
    refMapLoop rr schema a ks h (some a) = .ok (h, some a) := by
  induction ks with
  | nil => rfl
  | cons k ks ih =>
    have hk := hks k (by simp)
    have ih2 := ih (fun k2 hk2 => hks k2 (List.mem_cons_of_mem _ hk2))
    simp only [refMapLoop]
    cases hv : lookupKey k (h.members a) with
    | none => simpa using ih2
    | some v =>
      simp only [if_neg hk.1, hk.2 v hv, setMember_self h a k v hv]
      exact ih2

theorem refArrLoop_unchanged (rr : Heap → Val → Res (Heap × Val)) (schema : Option Nat)
    (a : Nat) (h : Heap) (ks : List Nat)
    (hks : ∀ k ∈ ks, ∀ v, (h.elems a)[k]? = some v →
      ∀ r, (heapView h).assertMap v = some r →
        (heapView h).get r "$ref" = none ∧ rr h v = .ok (h, v)) :
    refArrLoop rr schema a ks h = .ok h := by
  induction ks with
  | nil => rfl
  | cons k ks ih =>
    have hk := hks k (by simp)
    have ih2 := ih (fun k2 hk2 => hks k2 (List.mem_cons_of_mem _ hk2))
    simp only [refArrLoop]
    cases hv : (h.elems a)[k]? with
    | none => simpa using ih2
    | some v =>
      cases hr : (heapView h).assertMap v with
      | none => simpa [hr] using ih2
      | some r =>
        obtain ⟨h1, h2⟩ := hk v hv r hr
        simp only [hr, h1, h2, setElem_self h a k v hv]
        exact ih2

theorem replaceReferences_unchanged (n : Nat) :
    ∀ (m : Nat) (h : Heap) (schema : Option Nat) (v : Val) (t : JVal), n ≤ m →
      readback n h v = some t → carriesRef t = false →
      replaceReferences m h schema v = .ok (h, v) := by
  induction n with
  | zero => intro m h schema v t _ ht; simp [readback] at ht
  | succ n ih =>
    intro m h schema v t hm ht hfree
    obtain ⟨m, rfl⟩ : ∃ m', m = m' + 1 := ⟨m - 1, by omega⟩
    have hnm : n ≤ m := by omega
    cases v with
    | null => rfl
    | bool b => rfl
    | num x e => rfl
    | str s => rfl
    | nilMap => rfl
    | arr a =>
      simp only [readback, Option.map_eq_some'] at ht
      obtain ⟨ts, hts, rfl⟩ := ht
      simp only [carriesRef] at hfree
      have hloop := refArrLoop_unchanged (fun h1 v => replaceReferences m h1 schema v)
        schema a h (List.range (h.elems a).length) (by
          intro k _ v hv r hr
          obtain ⟨t, htmem, htv⟩ := allSome_mem _ _ _ hts v (List.mem_iff_getElem?.2 ⟨_, hv⟩)
          have hft := carriesRefList_false ts hfree t htmem
          refine ⟨?_, ih m h schema v t hnm htv hft⟩
          cases v with
          | map b =>
            simp only [heapView, Option.some.injEq] at hr
            subst hr
            simpa [View.get, heapView] using no_ref_member_of_readback n h b t htv hft
          | nilMap =>
            simp only [heapView, Option.some.injEq] at hr
            subst hr
            rfl
          | _ => simp [heapView] at hr)
      simp only [replaceReferences, hloop]
    | map a =>
      have hnoref := no_ref_member_of_readback (n + 1) h a t ht hfree
      simp only [readback, Option.map_eq_some'] at ht
      obtain ⟨kvs, hkvs, rfl⟩ := ht
      simp only [carriesRef, Bool.or_eq_false_iff] at hfree
      have hloop := refMapLoop_unchanged (fun h1 v => replaceReferences m h1 schema v)
        schema a h ((h.members a).map Prod.fst) (by
          intro k hk
          refine ⟨?_, ?_⟩
          · rintro rfl
            have := lookupKey_isSome_of_mem _ _ hk
            rw [hnoref] at this
            exact absurd this (by simp)
          · intro v hv
            obtain ⟨kt, hktmem, hkt⟩ := allSome_mem _ _ _ hkvs (k, v) (lookupKey_mem _ _ _ hv)
            cases hrb : readback n h v with
            | none => simp [hrb] at hkt
            | some t =>
              simp only [hrb, Option.map_some', Option.some.injEq] at hkt
              subst hkt
              exact ih m h schema v t hnm hrb (carriesRefMembers_false kvs hfree.2 _ hktmem))
      simp only [replaceReferences, hloop, Val.ofMap]

/-- C2, amended (idempotence on reference-free input). For every heap, every schema root
and every node that stands for a finite tree in which no object at any depth carries a
`$ref` key,
`replaceReferences` returns the node itself and leaves the heap as it was (so the result
is structurally equal to the node), for any fuel not below the depth bound of the tree. -/
theorem replaceReferences_reference_free (n m : Nat) (h : Heap) (schema : Option Nat)
    (node : Val) (t : JVal) (hm : n ≤ m) (ht : readback n h node = some t)
    (hfree : carriesRef t = false) :
    replaceReferences m h schema node = .ok (h, node) :=
  replaceReferences_unchanged n m h schema node t hm ht hfree

/-- Witness of the amended C2: the root
`{"definitions": {"T": {"type": "string"}}, "x": [{"title": "t"}, 1]}` stored in the heap
is returned unchanged. -/
theorem replaceReferences_reference_free_witness :
    readback 4
        [.map [("type", .str "string")], .map [("T", .map 0)], .map [("title", .str "t")],
          .arr [.map 2, .num 1 0], .map [("definitions", .map 1), ("x", .arr 3)]]
        (.map 4) =
      some (.obj [("definitions", .obj [("T", .obj [("type", .str "string")])]),
        ("x", .arr [.obj [("title", .str "t")], .num 1 0])]) ∧
    carriesRef (.obj [("definitions", .obj [("T", .obj [("type", .str "string")])]),
        ("x", .arr [.obj [("title", .str "t")], .num 1 0])]) = false ∧
    replaceReferences 4
        [.map [("type", .str "string")], .map [("T", .map 0)], .map [("title", .str "t")],
          .arr [.map 2, .num 1 0], .map [("definitions", .map 1), ("x", .arr 3)]]
        (some 4) (.map 4) =
      .ok ([.map [("type", .str "string")], .map [("T", .map 0)], .map [("title", .str "t")],
          .arr [.map 2, .num 1 0], .map [("definitions", .map 1), ("x", .arr 3)]], .map 4) :=
  ⟨rfl, rfl, replaceReferences_reference_free 4 4 _ (some 4) (.map 4) _ (Nat.le_refl 4) rfl rfl⟩

/-! ## A reference with siblings -/

/-- C5 at a failing input. The heap holds the root
`{"definitions": {"T": {"type": "string"}}, "x": {"$ref": "#/definitions/T", "title": "t"}}`
(cell 3; `T` is cell 0, the referring object cell 2, visited `$ref` first). Resolving the
referring object returns the target with the sibling `title` written into it, and the
definition `T` in the schema has gained that key; resolving the looked-up target itself
returns `{"type": "string"}` and changes nothing. -/
theorem replaceReferences_ref_then_sibling :
    getObject
        (heapView [.map [("type", .str "string")], .map [("T", .map 0)],
          .map [("$ref", .str "#/definitions/T"), ("title", .str "t")],
          .map [("definitions", .map 1), ("x", .map 2)]])
        (some 3) "#/definitions/T" = some 0 ∧
    replaceReferences 3
        [.map [("type", .str "string")], .map [("T", .map 0)],
          .map [("$ref", .str "#/definitions/T"), ("title", .str "t")],
          .map [("definitions", .map 1), ("x", .map 2)]]
        (some 3) (.map 2) =
      .ok ([.map [("type", .str "string"), ("title", .str "t")], .map [("T", .map 0)],
          .map [("$ref", .str "#/definitions/T"), ("title", .str "t")],
          .map [("definitions", .map 1), ("x", .map 2)]], .map 0) ∧
    replaceReferences 3
        [.map [("type", .str "string")], .map [("T", .map 0)],
          .map [("$ref", .str "#/definitions/T"), ("title", .str "t")],
          .map [("definitions", .map 1), ("x", .map 2)]]
        (some 3) (.map 0) =
      .ok ([.map [("type", .str "string")], .map [("T", .map 0)],
          .map [("$ref", .str "#/definitions/T"), ("title", .str "t")],
          .map [("definitions", .map 1), ("x", .map 2)]], .map 0) ∧
    readback 3
        [.map [("type", .str "string"), ("title", .str "t")], .map [("T", .map 0)],
          .map [("$ref", .str "#/definitions/T"), ("title", .str "t")],
          .map [("definitions", .map 1), ("x", .map 2)]] (.map 0) =
      some (.obj [("type", .str "string"), ("title", .str "t")]) := by
  refine ⟨by decide, by decide, by decide, rfl⟩

/-- The same object visited `title` first: the sibling is written into the referring
object, which is then dropped, and the result is the target alone. -/
theorem replaceReferences_sibling_then_ref :
    replaceReferences 3
        [.map [("type", .str "string")], .map [("T", .map 0)],
          .map [("title", .str "t"), ("$ref", .str "#/definitions/T")],
          .map [("definitions", .map 1), ("x", .map 2)]]
        (some 3) (.map 2) =
      .ok ([.map [("type", .str "string")], .map [("T", .map 0)],
          .map [("title", .str "t"), ("$ref", .str "#/definitions/T")],
          .map [("definitions", .map 1), ("x", .map 2)]], .map 0) := by
  decide

/-! ## Reachability -/

theorem reach_trans {h : Heap} {d : Bool} {u v w : Val} (h1 : Reach h d u v)
    (h2 : Reach h d v w) : Reach h d u w := by
  induction h2 with
  | refl => exact h1
  | member _ hk ih => exact Reach.member ih hk
  | elem _ hi hd ih => exact Reach.elem ih hi hd

theorem reach_head {h : Heap} {d : Bool} {v w : Val} (hr : Reach h d v w) :
    w = v ∨
      (∃ a k x, v = .map a ∧ lookupKey k (h.members a) = some x ∧ Reach h d x w) ∨
      (∃ (a i : Nat) (x : Val), v = .arr a ∧ (h.elems a)[i]? = some x ∧ (d = true ∨ ∀ b, x ≠ .arr b) ∧
        Reach h d x w) := by
  induction hr with
  | refl => exact Or.inl rfl
  | @member a k w _ hk ih =>
    rcases ih with e | ⟨a2, k2, x, hv, hx, hxr⟩ | ⟨a2, i2, x, hv, hx, hd, hxr⟩
    · exact Or.inr (Or.inl ⟨a, k, w, e.symm, hk, Reach.refl w⟩)
    · exact Or.inr (Or.inl ⟨a2, k2, x, hv, hx, Reach.member hxr hk⟩)
    · exact Or.inr (Or.inr ⟨a2, i2, x, hv, hx, hd, Reach.member hxr hk⟩)
  | @elem a i w _ hi hd ih =>
    rcases ih with e | ⟨a2, k2, x, hv, hx, hxr⟩ | ⟨a2, i2, x, hv, hx, hd2, hxr⟩
    · exact Or.inr (Or.inr ⟨a, i, w, e.symm, hi, hd, Reach.refl w⟩)
    · exact Or.inr (Or.inl ⟨a2, k2, x, hv, hx, Reach.elem hxr hi hd⟩)
    · exact Or.inr (Or.inr ⟨a2, i2, x, hv, hx, hd2, Reach.elem hxr hi hd⟩)

theorem resolved_member {h : Heap} {a : Nat} {k : String} {w : Val}
    (hr : Resolved h (.map a)) (hk : lookupKey k (h.members a) = some w) : Resolved h w :=
  fun c hc => hr c (reach_trans (Reach.member (Reach.refl _) hk) hc)

theorem resolved_elem {h : Heap} {a : Nat} {i : Nat} {w : Val}
    (hr : Resolved h (.arr a)) (hi : (h.elems a)[i]? = some w) (hw : ∀ b, w ≠ .arr b) :
    Resolved h w :=
  fun c hc => hr c (reach_trans (Reach.elem (Reach.refl _) hi (Or.inr hw)) hc)

theorem resolved_of_scalar {h : Heap} {v : Val} (hm : ∀ a, v ≠ .map a)
    (ha : ∀ a, v ≠ .arr a) : Resolved h v := by
  intro c hc
  rcases reach_head hc with e | ⟨a, _, _, hv, _⟩ | ⟨a, _, _, hv, _⟩
  · exact absurd e.symm (hm c)
  · exact absurd hv (hm a)
  · exact absurd hv (ha a)

theorem resolved_of_map {h : Heap} {a : Nat}
    (hno : lookupKey "$ref" (h.members a) = none)
    (hall : ∀ k w, lookupKey k (h.members a) = some w → Resolved h w) :
    Resolved h (.map a) := by
  intro c hc
  rcases reach_head hc with e | ⟨a2, k, x, hv, hx, hxr⟩ | ⟨a2, _, _, hv, _⟩
  · cases e; exact hno
  · cases hv; exact hall k x hx c hxr
  · cases hv

theorem resolved_of_arr {h : Heap} {a : Nat}
    (hall : ∀ (i b : Nat), (h.elems a)[i]? = some (.map b) → Resolved h (.map b)) :
    Resolved h (.arr a) := by
  intro c hc
  rcases reach_head hc with e | ⟨a2, _, _, hv, _⟩ | ⟨a2, i, x, hv, hx, hd, hxr⟩
  · cases e
  · cases hv
  · cases hv
    cases x with
    | map b => exact hall i b hx c hxr
    | arr b =>
      rcases hd with hd | hd
      · cases hd
      · exact absurd rfl (hd b)
    | _ => exact resolved_of_scalar (by intro a; simp) (by intro a; simp) c hxr

/-! ## Frames -/

theorem frame_refl (h : Heap) : Frame h h :=
  ⟨fun _ _ _ hw => Or.inl hw, fun _ _ _ hw => Or.inl hw⟩

theorem frame_reach {h h' : Heap} (hf : Frame h h') {v x : Val}
    (hr : Reach h' false v x) : Reach h false v x ∨ Resolved h' x := by
  induction hr with
  | refl => exact Or.inl (Reach.refl _)
  | @member a k w _ hk ih =>
    rcases ih with ih | ih
    · rcases hf.1 a k w hk with hk2 | ⟨_, hres⟩
      · exact Or.inl (Reach.member ih hk2)
      · exact Or.inr hres
    · exact Or.inr (resolved_member ih hk)
  | @elem a i w _ hi hd ih =>
    have hw : ∀ b, w ≠ .arr b := by
      rcases hd with hd | hd
      · cases hd
      · exact hd
    rcases ih with ih | ih
    · rcases hf.2 a i w hi with hi2 | hres
      · exact Or.inl (Reach.elem ih hi2 hd)
      · exact Or.inr hres
    · exact Or.inr (resolved_elem ih hi hw)

theorem frame_mono {h h' : Heap} (hf : Frame h h') {v : Val} (hv : Resolved h v) :
    Resolved h' v := by
  intro c hc
  rcases frame_reach hf hc with hr | hr
  · have hno := hv c hr
    cases hl : lookupKey "$ref" (h'.members c) with
    | none => rfl
    | some w =>
      rcases hf.1 c "$ref" w hl with h2 | ⟨h2, _⟩
      · rw [hno] at h2; cases h2
      · exact absurd rfl h2
  · exact hr c (Reach.refl _)

theorem frame_trans {h0 h1 h2 : Heap} (h01 : Frame h0 h1) (h12 : Frame h1 h2) :
    Frame h0 h2 := by
  refine ⟨?_, ?_⟩
  · intro a k w hw
    rcases h12.1 a k w hw with hw1 | hres
    · rcases h01.1 a k w hw1 with hw0 | ⟨hk, hres⟩
      · exact Or.inl hw0
      · exact Or.inr ⟨hk, frame_mono h12 hres⟩
    · exact Or.inr hres
  · intro a i w hw
    rcases h12.2 a i w hw with hw1 | hres
    · rcases h01.2 a i w hw1 with hw0 | hres
      · exact Or.inl hw0
      · exact Or.inr (frame_mono h12 hres)
    · exact Or.inr hres

/-! ## Single assignments -/

theorem members_setMember (h : Heap) (a : Nat) (k : String) (v : Val) (a2 : Nat) (k2 : String)
    (w : Val) (hw : lookupKey k2 ((h.setMember a k v).members a2) = some w) :
    (a2 = a ∧ k2 = k ∧ w = v) ∨
      ((a2 ≠ a ∨ k2 ≠ k) ∧ lookupKey k2 (h.members a2) = some w) := by
  unfold Heap.setMember at hw
  cases hc : h[a]? with
  | none => simp only [hc] at hw; exact Or.inr ⟨by
      by_cases e : a2 = a
      · subst e; simp [Heap.members, hc, lookupKey] at hw
      · exact Or.inl e, hw⟩
  | some c =>
    cases c with
    | arr xs => simp only [hc] at hw; exact Or.inr ⟨by
        by_cases e : a2 = a
        · subst e; simp [Heap.members, hc, lookupKey] at hw
        · exact Or.inl e, hw⟩
    | map kvs =>
      simp only [hc] at hw
      have ha : a < h.length := by
        rcases List.getElem?_eq_some.1 hc with ⟨hlt, _⟩
        exact hlt
      by_cases e : a2 = a
      · subst e
        have hm : Heap.members (h.set a2 (Cell.map (setKey k v kvs))) a2 = setKey k v kvs := by
          simp [Heap.members, List.getElem?_set_self, ha]
        have hm0 : h.members a2 = kvs := by simp [Heap.members, hc]
        rw [hm] at hw
        by_cases ek : k2 = k
        · subst ek
          rw [lookupKey_setKey_same] at hw
          exact Or.inl ⟨rfl, rfl, by cases hw; rfl⟩
        · rw [lookupKey_setKey_other _ _ _ _ ek] at hw
          exact Or.inr ⟨Or.inr ek, by rw [hm0]; exact hw⟩
      · have hm : Heap.members (h.set a (Cell.map (setKey k v kvs))) a2 = h.members a2 := by
          simp [Heap.members, List.getElem?_set_ne (Ne.symm e)]
        rw [hm] at hw
        exact Or.inr ⟨Or.inl e, hw⟩

theorem elems_setMember (h : Heap) (a : Nat) (k : String) (v : Val) (a2 : Nat) :
    (h.setMember a k v).elems a2 = h.elems a2 := by
  unfold Heap.setMember
  cases hc : h[a]? with
  | none => rfl
  | some c =>
    cases c with
    | arr xs => rfl
    | map kvs =>
      by_cases e : a2 = a
      · subst e
        have ha : a2 < h.length := (List.getElem?_eq_some.1 hc).1
        simp [Heap.elems, hc, List.getElem?_set_self, ha]
      · simp [Heap.elems, List.getElem?_set_ne (Ne.symm e)]

theorem elems_setElem (h : Heap) (a i : Nat) (v : Val) (a2 j : Nat) (w : Val)
    (hw : ((h.setElem a i v).elems a2)[j]? = some w) :
    (a2 = a ∧ j = i ∧ w = v) ∨ ((a2 ≠ a ∨ j ≠ i) ∧ (h.elems a2)[j]? = some w) := by
  unfold Heap.setElem at hw
  cases hc : h[a]? with
  | none => simp only [hc] at hw; exact Or.inr ⟨by
      by_cases e : a2 = a
      · subst e; simp [Heap.elems, hc] at hw
      · exact Or.inl e, hw⟩
  | some c =>
    cases c with
    | map kvs => simp only [hc] at hw; exact Or.inr ⟨by
        by_cases e : a2 = a
        · subst e; simp [Heap.elems, hc] at hw
        · exact Or.inl e, hw⟩
    | arr xs =>
      simp only [hc] at hw
      have ha : a < h.length := (List.getElem?_eq_some.1 hc).1
      by_cases e : a2 = a
      · subst e
        have hm : Heap.elems (h.set a2 (Cell.arr (xs.set i v))) a2 = xs.set i v := by
          simp [Heap.elems, List.getElem?_set_self, ha]
        have hm0 : h.elems a2 = xs := by simp [Heap.elems, hc]
        rw [hm] at hw
        by_cases ej : j = i
        · subst ej
          have hj : j < xs.length := by
            have := (List.getElem?_eq_some.1 hw).1
            simpa using this
          rw [List.getElem?_set_self hj] at hw
          exact Or.inl ⟨rfl, rfl, by cases hw; rfl⟩
        · rw [List.getElem?_set_ne (Ne.symm ej)] at hw
          exact Or.inr ⟨Or.inr ej, by rw [hm0]; exact hw⟩
      · have hm : Heap.elems (h.set a (Cell.arr (xs.set i v))) a2 = h.elems a2 := by
          simp [Heap.elems, List.getElem?_set_ne (Ne.symm e)]
        rw [hm] at hw
        exact Or.inr ⟨Or.inl e, hw⟩

theorem members_setElem (h : Heap) (a i : Nat) (v : Val) (a2 : Nat) :
    (h.setElem a i v).members a2 = h.members a2 := by
  unfold Heap.setElem
  cases hc : h[a]? with
  | none => rfl
  | some c =>
    cases c with
    | map kvs => rfl
    | arr xs =>
      by_cases e : a2 = a
      · subst e
        have ha : a2 < h.length := (List.getElem?_eq_some.1 hc).1
        simp [Heap.members, hc, List.getElem?_set_self, ha]
      · simp [Heap.members, List.getElem?_set_ne (Ne.symm e)]

/-- After one assignment of `r`, every path of the new heap is a path of the old heap
from its start or from `r`. -/
theorem reach_after_write (h h' : Heap) (r : Val)
    (hm : ∀ (a : Nat) (k : String) (w : Val), lookupKey k (h'.members a) = some w →
      lookupKey k (h.members a) = some w ∨ w = r)
    (he : ∀ (a i : Nat) (w : Val), (h'.elems a)[i]? = some w →
      (h.elems a)[i]? = some w ∨ w = r)
    {v x : Val} (hr : Reach h' false v x) : Reach h false v x ∨ Reach h false r x := by
  induction hr with
  | refl => exact Or.inl (Reach.refl _)
  | @member a k w _ hk ih =>
    rcases hm a k w hk with hk2 | e
    · rcases ih with ih | ih
      · exact Or.inl (Reach.member ih hk2)
      · exact Or.inr (Reach.member ih hk2)
    · subst e; exact Or.inr (Reach.refl _)
  | @elem a i w _ hi hd ih =>
    rcases he a i w hi with hi2 | e
    · rcases ih with ih | ih
      · exact Or.inl (Reach.elem ih hi2 hd)
      · exact Or.inr (Reach.elem ih hi2 hd)
    · subst e; exact Or.inr (Reach.refl _)

theorem resolved_after_write (h h' : Heap) (r : Val)
    (hm : ∀ (a : Nat) (k : String) (w : Val), lookupKey k (h'.members a) = some w →
      lookupKey k (h.members a) = some w ∨ (k ≠ "$ref" ∧ w = r))
    (he : ∀ (a i : Nat) (w : Val), (h'.elems a)[i]? = some w →
      (h.elems a)[i]? = some w ∨ w = r)
    (hr : Resolved h r) {v : Val} (hv : Resolved h v) : Resolved h' v := by
  intro c hc
  have hno : lookupKey "$ref" (h.members c) = none := by
    rcases reach_after_write h h' r
        (fun a k w hw => (hm a k w hw).imp id (fun x => x.2)) he hc with h1 | h1
    · exact hv c h1
    · exact hr c h1
  cases hl : lookupKey "$ref" (h'.members c) with
  | none => rfl
  | some w =>
    rcases hm c "$ref" w hl with h2 | ⟨h2, _⟩
    · rw [hno] at h2; cases h2
    · exact absurd rfl h2

theorem frame_setMember (h : Heap) (b : Nat) (k : String) (r : Val) (hk : k ≠ "$ref")
    (hr : Resolved h r) : Frame h (h.setMember b k r) := by
  have hm : ∀ (a : Nat) (k2 : String) (w : Val),
      lookupKey k2 ((h.setMember b k r).members a) = some w →
      lookupKey k2 (h.members a) = some w ∨ (k2 ≠ "$ref" ∧ w = r) := by
    intro a k2 w hw
    rcases members_setMember h b k r a k2 w hw with ⟨_, e2, e3⟩ | ⟨_, h2⟩
    · exact Or.inr ⟨by rw [e2]; exact hk, e3⟩
    · exact Or.inl h2
  have he : ∀ (a i : Nat) (w : Val), ((h.setMember b k r).elems a)[i]? = some w →
      (h.elems a)[i]? = some w ∨ w = r := by
    intro a i w hw
    rw [elems_setMember] at hw
    exact Or.inl hw
  have hres : Resolved (h.setMember b k r) r := resolved_after_write h _ r hm he hr hr
  refine ⟨?_, ?_⟩
  · intro a k2 w hw
    rcases hm a k2 w hw with h2 | ⟨h2, e⟩
    · exact Or.inl h2
    · exact Or.inr ⟨h2, by rw [e]; exact hres⟩
  · intro a i w hw
    rcases he a i w hw with h2 | e
    · exact Or.inl h2
    · exact Or.inr (by rw [e]; exact hres)

theorem frame_setElem (h : Heap) (b i : Nat) (r : Val) (hr : Resolved h r) :
    Frame h (h.setElem b i r) := by
  have hm : ∀ (a : Nat) (k2 : String) (w : Val),
      lookupKey k2 ((h.setElem b i r).members a) = some w →
      lookupKey k2 (h.members a) = some w ∨ (k2 ≠ "$ref" ∧ w = r) := by
    intro a k2 w hw
    rw [members_setElem] at hw
    exact Or.inl hw
  have he : ∀ (a j : Nat) (w : Val), ((h.setElem b i r).elems a)[j]? = some w →
      (h.elems a)[j]? = some w ∨ w = r := by
    intro a j w hw
    rcases elems_setElem h b i r a j w hw with ⟨_, _, e3⟩ | ⟨_, h2⟩
    · exact Or.inr e3
    · exact Or.inl h2
  have hres : Resolved (h.setElem b i r) r := resolved_after_write h _ r hm he hr hr
  refine ⟨?_, ?_⟩
  · intro a k2 w hw
    rcases hm a k2 w hw with h2 | ⟨h2, e⟩
    · exact Or.inl h2
    · exact Or.inr ⟨h2, by rw [e]; exact hres⟩
  · intro a j w hw
    rcases he a j w hw with h2 | e
    · exact Or.inl h2
    · exact Or.inr (by rw [e]; exact hres)

/-! ## Resolution completeness -/

theorem assertMap_eq_ofMap (h : Heap) (r : Val) (m : Option Nat)
    (hm : (heapView h).assertMap r = some m) : r = Val.ofMap m := by
  cases r with
  | map b => simp only [heapView, Option.some.injEq] at hm; subst hm; rfl
  | nilMap => simp only [heapView, Option.some.injEq] at hm; subst hm; rfl
  | _ => simp [heapView] at hm

theorem refMapLoop_resolved (rr : Heap → Val → Res (Heap × Val))
    (hrr : ∀ h v h1 r, rr h v = .ok (h1, r) → Frame h h1 ∧ Resolved h1 r)
    (schema : Option Nat) (a : Nat) (ks : List String) :
    ∀ (h : Heap) (oMap : Option Nat) (hf : Heap) (oMapf : Option Nat),
      (Resolved h (Val.ofMap oMap) ∨
        (oMap = some a ∧ ∀ k w, lookupKey k (h.members a) = some w →
          k ∈ ks ∨ (k ≠ "$ref" ∧ Resolved h w))) →
      refMapLoop rr schema a ks h oMap = .ok (hf, oMapf) →
      Frame h hf ∧ Resolved hf (Val.ofMap oMapf) := by
  induction ks with
  | nil =>
    intro h oMap hf oMapf hpre hrun
    simp only [refMapLoop, Res.ok.injEq, Prod.mk.injEq] at hrun
    obtain ⟨rfl, rfl⟩ := hrun
    refine ⟨frame_refl h, ?_⟩
    rcases hpre with hpre | ⟨rfl, hall⟩
    · exact hpre
    · have hall2 : ∀ k w, lookupKey k (h.members a) = some w → k ≠ "$ref" ∧ Resolved h w := by
        intro k w hw
        rcases hall k w hw with hk | hk
        · simp at hk
        · exact hk
      apply resolved_of_map
      · cases hl : lookupKey "$ref" (h.members a) with
        | none => rfl
        | some w => exact absurd rfl (hall2 _ w hl).1
      · exact fun k w hw => (hall2 k w hw).2
  | cons k ks ih =>
    intro h oMap hf oMapf hpre hrun
    simp only [refMapLoop] at hrun
    cases hv : lookupKey k (h.members a) with
    | none =>
      simp only [hv] at hrun
      refine ih h oMap hf oMapf ?_ hrun
      rcases hpre with hpre | ⟨e, hall⟩
      · exact Or.inl hpre
      · refine Or.inr ⟨e, ?_⟩
        intro k2 w hw
        rcases hall k2 w hw with hk | hk
        · rcases List.mem_cons.1 hk with rfl | hk
          · rw [hv] at hw; cases hw
          · exact Or.inl hk
        · exact Or.inr hk
    | some v =>
      simp only [hv] at hrun
      by_cases hk : k = "$ref"
      · simp only [hk, if_true] at hrun
        cases v with
        | str ref =>
          simp only at hrun
          cases hcall : rr h (Val.ofMap (getObject (heapView h) schema ref)) with
          | ok p =>
            obtain ⟨h1, r⟩ := p
            simp only [hcall] at hrun
            obtain ⟨hfr, hres⟩ := hrr _ _ _ _ hcall
            cases hm : (heapView h1).assertMap r with
            | none => simp [hm] at hrun
            | some m =>
              simp only [hm] at hrun
              have e := assertMap_eq_ofMap h1 r m hm
              obtain ⟨hfr2, hres2⟩ := ih h1 m hf oMapf (Or.inl (by rw [← e]; exact hres)) hrun
              exact ⟨frame_trans hfr hfr2, hres2⟩
          | panic => simp [hcall] at hrun
          | diverge => simp [hcall] at hrun
        | _ => simp at hrun
      · simp only [hk, if_false] at hrun
        cases hcall : rr h v with
        | ok p =>
          obtain ⟨h1, r⟩ := p
          simp only [hcall] at hrun
          obtain ⟨hfr, hres⟩ := hrr _ _ _ _ hcall
          cases oMap with
          | none => simp at hrun
          | some b =>
            simp only at hrun
            have hw := frame_setMember h1 b k r hk hres
            have h02 := frame_trans hfr hw
            obtain ⟨hfr2, hres2⟩ := ih (h1.setMember b k r) (some b) hf oMapf (by
              rcases hpre with hpre | ⟨e, hall⟩
              · exact Or.inl (frame_mono h02 hpre)
              · refine Or.inr ⟨e, ?_⟩
                cases e
                intro k2 w hw2
                rcases members_setMember h1 a k r a k2 w hw2 with ⟨_, e2, e3⟩ | ⟨hne, hw1⟩
                · exact Or.inr ⟨by rw [e2]; exact hk, by rw [e3]; exact frame_mono hw hres⟩
                · have hne2 : k2 ≠ k := by
                    rcases hne with hne | hne
                    · exact absurd rfl hne
                    · exact hne
                  rcases hfr.members a k2 w hw1 with hw0 | ⟨hk2, hr1⟩
                  · rcases hall k2 w hw0 with hmem | ⟨hk2, hr0⟩
                    · rcases List.mem_cons.1 hmem with e4 | hmem
                      · exact absurd e4 hne2
                      · exact Or.inl hmem
                    · exact Or.inr ⟨hk2, frame_mono h02 hr0⟩
                  · exact Or.inr ⟨hk2, frame_mono hw hr1⟩) hrun
            exact ⟨frame_trans h02 hfr2, hres2⟩
        | panic => simp [hcall] at hrun
        | diverge => simp [hcall] at hrun

theorem refArrLoop_resolved (rr : Heap → Val → Res (Heap × Val))
    (hrr : ∀ h v h1 r, rr h v = .ok (h1, r) → Frame h h1 ∧ Resolved h1 r)
    (schema : Option Nat) (a : Nat) (ks : List Nat) :
    ∀ (h hf : Heap),
      (∀ (i : Nat) (w : Val), (h.elems a)[i]? = some w →
        i ∈ ks ∨ ∀ b, w = .map b → Resolved h w) →
      refArrLoop rr schema a ks h = .ok hf →
      Frame h hf ∧
        ∀ (i : Nat) (w : Val), (hf.elems a)[i]? = some w → ∀ b, w = .map b → Resolved hf w := by
  induction ks with
  | nil =>
    intro h hf hpre hrun
    simp only [refArrLoop, Res.ok.injEq] at hrun
    subst hrun
    refine ⟨frame_refl h, ?_⟩
    intro i w hw
    rcases hpre i w hw with hi | hi
    · simp at hi
    · exact hi
  | cons k ks ih =>
    intro h hf hpre hrun
    simp only [refArrLoop] at hrun
    have skip : ∀ v, (h.elems a)[k]? = some v → (∀ b, v ≠ .map b) →
        ∀ (i : Nat) (w : Val), (h.elems a)[i]? = some w →
          i ∈ ks ∨ ∀ b, w = .map b → Resolved h w := by
      intro v hv hnm i w hw
      rcases hpre i w hw with hi | hi
      · rcases List.mem_cons.1 hi with rfl | hi
        · rw [hv] at hw
          cases hw
          exact Or.inr (fun b hb => absurd hb (hnm b))
        · exact Or.inl hi
      · exact Or.inr hi
    have step : ∀ (h1 : Heap) (x : Val), Frame h h1 → Resolved h1 x →
        refArrLoop rr schema a ks (h1.setElem a k x) = .ok hf →
        Frame h hf ∧ ∀ (i : Nat) (w : Val), (hf.elems a)[i]? = some w →
          ∀ b, w = .map b → Resolved hf w := by
      intro h1 x hfr hres hrun2
      have hw := frame_setElem h1 a k x hres
      have h02 := frame_trans hfr hw
      obtain ⟨hfr2, hpost⟩ := ih (h1.setElem a k x) hf (by
        intro i w hw2
        rcases elems_setElem h1 a k x a i w hw2 with ⟨_, _, e3⟩ | ⟨hne, hw1⟩
        · exact Or.inr (fun _ _ => by rw [e3]; exact frame_mono hw hres)
        · have hne2 : i ≠ k := by
            rcases hne with hne | hne
            · exact absurd rfl hne
            · exact hne
          rcases hfr.elems a i w hw1 with hw0 | hr1
          · rcases hpre i w hw0 with hmem | hr0
            · rcases List.mem_cons.1 hmem with e4 | hmem
              · exact absurd e4 hne2
              · exact Or.inl hmem
            · exact Or.inr (fun b hb => frame_mono h02 (hr0 b hb))
          · exact Or.inr (fun _ _ => frame_mono hw hr1)) hrun2
      exact ⟨frame_trans h02 hfr2, hpost⟩
    cases hv : (h.elems a)[k]? with
    | none =>
      simp only [hv] at hrun
      refine ih h hf ?_ hrun
      intro i w hw
      rcases hpre i w hw with hi | hi
      · rcases List.mem_cons.1 hi with rfl | hi
        · rw [hv] at hw; cases hw
        · exact Or.inl hi
      · exact Or.inr hi
    | some v =>
      simp only [hv] at hrun
      cases hm : (heapView h).assertMap v with
      | none =>
        simp only [hm] at hrun
        refine ih h hf (skip v hv ?_) hrun
        intro b hb
        subst hb
        simp [heapView] at hm
      | some r =>
        simp only [hm] at hrun
        cases hg : (heapView h).get r "$ref" with
        | some ref =>
          simp only [hg] at hrun
          cases ref with
          | str p =>
            simp only at hrun
            cases hcall : rr h (Val.ofMap (getObject (heapView h) schema p)) with
            | ok q =>
              obtain ⟨h1, x⟩ := q
              simp only [hcall] at hrun
              obtain ⟨hfr, hres⟩ := hrr _ _ _ _ hcall
              exact step h1 x hfr hres hrun
            | panic => simp [hcall] at hrun
            | diverge => simp [hcall] at hrun
          | _ => simp at hrun
        | none =>
          simp only [hg] at hrun
          cases hcall : rr h v with
          | ok q =>
            obtain ⟨h1, x⟩ := q
            simp only [hcall] at hrun
            obtain ⟨hfr, hres⟩ := hrr _ _ _ _ hcall
            exact step h1 x hfr hres hrun
          | panic => simp [hcall] at hrun
          | diverge => simp [hcall] at hrun

theorem replaceReferences_frame_resolved (fuel : Nat) :
    ∀ (h : Heap) (schema : Option Nat) (obj : Val) (h1 : Heap) (r : Val),
      replaceReferences fuel h schema obj = .ok (h1, r) → Frame h h1 ∧ Resolved h1 r := by
  induction fuel with
  | zero => intro h schema obj h1 r hrun; simp [replaceReferences] at hrun
  | succ fuel ih =>
    intro h schema obj h1 r hrun
    have hrr : ∀ h v h1 r, (fun h1 v => replaceReferences fuel h1 schema v) h v = .ok (h1, r) →
        Frame h h1 ∧ Resolved h1 r := fun h v h1 r hc => ih h schema v h1 r hc
    cases obj with
    | arr a =>
      simp only [replaceReferences] at hrun
      cases hl : refArrLoop (fun h1 v => replaceReferences fuel h1 schema v) schema a
          (List.range (h.elems a).length) h with
      | ok hf =>
        simp only [hl, Res.ok.injEq, Prod.mk.injEq] at hrun
        obtain ⟨rfl, rfl⟩ := hrun
        obtain ⟨hfr, hpost⟩ := refArrLoop_resolved _ hrr schema a _ h hf (by
          intro i w hw
          left
          exact List.mem_range.2 (List.getElem?_eq_some.1 hw).1) hl
        exact ⟨hfr, resolved_of_arr (fun i b hb => hpost i _ hb b rfl)⟩
      | panic => simp [hl] at hrun
      | diverge => simp [hl] at hrun
    | map a =>
      simp only [replaceReferences] at hrun
      cases hl : refMapLoop (fun h1 v => replaceReferences fuel h1 schema v) schema a
          ((h.members a).map Prod.fst) h (some a) with
      | ok p =>
        obtain ⟨hf, oMapf⟩ := p
        simp only [hl, Res.ok.injEq, Prod.mk.injEq] at hrun
        obtain ⟨rfl, rfl⟩ := hrun
        exact refMapLoop_resolved _ hrr schema a _ h (some a) hf oMapf (Or.inr ⟨rfl, by
          intro k w hw
          left
          exact List.mem_map.2 ⟨(k, w), lookupKey_mem _ _ _ hw, rfl⟩⟩) hl
      | panic => simp [hl] at hrun
      | diverge => simp [hl] at hrun
    | nilMap =>
      simp only [replaceReferences, Res.ok.injEq, Prod.mk.injEq] at hrun
      obtain ⟨rfl, rfl⟩ := hrun
      exact ⟨frame_refl h, resolved_of_scalar (by intro a; simp) (by intro a; simp)⟩
    | null =>
      simp only [replaceReferences, Res.ok.injEq, Prod.mk.injEq] at hrun
      obtain ⟨rfl, rfl⟩ := hrun
      exact ⟨frame_refl h, resolved_of_scalar (by intro a; simp) (by intro a; simp)⟩
    | bool b =>
      simp only [replaceReferences, Res.ok.injEq, Prod.mk.injEq] at hrun
      obtain ⟨rfl, rfl⟩ := hrun
      exact ⟨frame_refl h, resolved_of_scalar (by intro a; simp) (by intro a; simp)⟩
    | num x e =>
      simp only [replaceReferences, Res.ok.injEq, Prod.mk.injEq] at hrun
      obtain ⟨rfl, rfl⟩ := hrun
      exact ⟨frame_refl h, resolved_of_scalar (by intro a; simp) (by intro a; simp)⟩
    | str s =>
      simp only [replaceReferences, Res.ok.injEq, Prod.mk.injEq] at hrun
      obtain ⟨rfl, rfl⟩ := hrun
      exact ⟨frame_refl h, resolved_of_scalar (by intro a; simp) (by intro a; simp)⟩

/-- C1 at a failing input. The heap holds the root
`{"definitions": {"T": {"type": "string"}}, "x": [[{"$ref": "#/definitions/T"}]]}`
(cell 5; the referring object is cell 2, inside the slice of cell 3, inside the slice of
cell 4). Resolution returns with the heap unchanged: the object inside the nested array
still carries its `$ref` key, and so does the tree read back from the result. -/
theorem replaceReferences_nested_array_counterexample :
    replaceReferences 4
        [.map [("type", .str "string")], .map [("T", .map 0)],
          .map [("$ref", .str "#/definitions/T")], .arr [.map 2], .arr [.arr 3],
          .map [("definitions", .map 1), ("x", .arr 4)]]
        (some 5) (.map 5) =
      .ok ([.map [("type", .str "string")], .map [("T", .map 0)],
          .map [("$ref", .str "#/definitions/T")], .arr [.map 2], .arr [.arr 3],
          .map [("definitions", .map 1), ("x", .arr 4)]], .map 5) ∧
    Reach
        [.map [("type", .str "string")], .map [("T", .map 0)],
          .map [("$ref", .str "#/definitions/T")], .arr [.map 2], .arr [.arr 3],
          .map [("definitions", .map 1), ("x", .arr 4)]]
        true (.map 5) (.map 2) ∧
    lookupKey "$ref"
        (Heap.members
          [.map [("type", .str "string")], .map [("T", .map 0)],
            .map [("$ref", .str "#/definitions/T")], .arr [.map 2], .arr [.arr 3],
            .map [("definitions", .map 1), ("x", .arr 4)]] 2) =
      some (.str "#/definitions/T") ∧
    (readback 5
        [.map [("type", .str "string")], .map [("T", .map 0)],
          .map [("$ref", .str "#/definitions/T")], .arr [.map 2], .arr [.arr 3],
          .map [("definitions", .map 1), ("x", .arr 4)]]
        (.map 5)).map carriesRef = some true := by
  refine ⟨by decide, ?_, by decide, rfl⟩
  have h1 : Reach
      [.map [("type", .str "string")], .map [("T", .map 0)],
        .map [("$ref", .str "#/definitions/T")], .arr [.map 2], .arr [.arr 3],
        .map [("definitions", .map 1), ("x", .arr 4)]]
      true (.map 5) (.arr 4) :=
    Reach.member (k := "x") (Reach.refl _) (by decide)
  have h2 := Reach.elem (i := 0) (w := .arr 3) h1 (by decide) (Or.inl rfl)
  exact Reach.elem (i := 0) (w := .map 2) h2 (by decide) (Or.inl rfl)

/-- What the resolver does achieve. Whenever `replaceReferences` returns, no map reached
from its result through map members and slice elements, without entering a slice that is
itself an element of a slice, has a `$ref` key. -/
theorem replaceReferences_resolution_complete (fuel : Nat) (h : Heap) (schema : Option Nat)
    (obj : Val) (h1 : Heap) (r : Val)
    (hrun : replaceReferences fuel h schema obj = .ok (h1, r)) :
    ∀ a, Reach h1 false r (.map a) → lookupKey "$ref" (h1.members a) = none :=
  (replaceReferences_frame_resolved fuel h schema obj h1 r hrun).2

/-- An instance of `replaceReferences_resolution_complete` on the root
`{"definitions": {"T": {"type": "string"}}, "x": [{"$ref": "#/definitions/T"}], "y": {"$ref": "T"}}`
(cell 5): the run returns, `x[0]` and `y` have become the map of `T`, and no map reached
from the root has a `$ref` key. -/
theorem replaceReferences_resolution_complete_witness :
    replaceReferences 4
        [.map [("type", .str "string")], .map [("T", .map 0)],
          .map [("$ref", .str "#/definitions/T")], .arr [.map 2], .map [("$ref", .str "T")],
          .map [("definitions", .map 1), ("x", .arr 3), ("y", .map 4)]]
        (some 5) (.map 5) =
      .ok ([.map [("type", .str "string")], .map [("T", .map 0)],
          .map [("$ref", .str "#/definitions/T")], .arr [.map 0], .map [("$ref", .str "T")],
          .map [("definitions", .map 1), ("x", .arr 3), ("y", .map 0)]], .map 5) ∧
    ∀ a, Reach
        [.map [("type", .str "string")], .map [("T", .map 0)],
          .map [("$ref", .str "#/definitions/T")], .arr [.map 0], .map [("$ref", .str "T")],
          .map [("definitions", .map 1), ("x", .arr 3), ("y", .map 0)]]
        false (.map 5) (.map a) →
      lookupKey "$ref"
        (Heap.members
          [.map [("type", .str "string")], .map [("T", .map 0)],
            .map [("$ref", .str "#/definitions/T")], .arr [.map 0], .map [("$ref", .str "T")],
            .map [("definitions", .map 1), ("x", .arr 3), ("y", .map 0)]] a) = none :=
  ⟨by decide,
    replaceReferences_resolution_complete 4
      [.map [("type", .str "string")], .map [("T", .map 0)],
        .map [("$ref", .str "#/definitions/T")], .arr [.map 2], .map [("$ref", .str "T")],
        .map [("definitions", .map 1), ("x", .arr 3), ("y", .map 4)]]
      (some 5) (.map 5) _ (.map 5) (by decide)⟩

/-! ## Extraction -/

theorem extractLoop_miss (f : String → Option JVal) (names : List String) :
    ∀ out : List (String × JVal), (∃ n ∈ names, f n = none) →
      extractLoop f names out = none := by
  induction names with
  | nil => intro out h; simp at h
  | cons n0 rest ih =>
    intro out h
    simp only [extractLoop]
    cases hf : f n0 with
    | none => rfl
    | some e =>
      obtain ⟨n, hn, hfn⟩ := h
      rcases List.mem_cons.1 hn with rfl | hn
      · rw [hf] at hfn; cases hfn
      · exact ih _ ⟨n, hn, hfn⟩

theorem extractLoop_all (f : String → Option JVal) (names : List String) :
    ∀ out : List (String × JVal), (∀ n ∈ names, f n ≠ none) →
      ∃ res, extractLoop f names out = some res ∧
        ∀ n, lookupKey n res = if n ∈ names then f n else lookupKey n out := by
  induction names with
  | nil => intro out _; exact ⟨out, rfl, fun n => by simp⟩
  | cons n0 rest ih =>
    intro out h
    simp only [extractLoop]
    cases hf : f n0 with
    | none => exact absurd hf (h n0 (by simp))
    | some e =>
      obtain ⟨res, hres, hl⟩ := ih (setKey n0 e out)
        (fun n hn => h n (List.mem_cons_of_mem _ hn))
      refine ⟨res, hres, ?_⟩
      intro n
      rw [hl n]
      by_cases h1 : n ∈ rest
      · simp [h1]
      · by_cases h2 : n = n0
        · subst h2
          simp [h1, lookupKey_setKey_same, hf]
        · simp [h1, h2, lookupKey_setKey_other _ _ _ _ h2]

/-- C9, as stated, fails. On the schema
`{"definitions": {"A": {"type": "string"}, "B": {"type": "integer"}}}` the requested
elements `A`, `Missing`, `B` give no output at all, for the schemas and for the samples
alike, although `A` and `B` resolve; without `Missing` both outputs are produced. -/
theorem extraction_miss_counterexample :
    generateGoSchemaFile
        (some [("definitions", .obj [("A", .obj [("type", .str "string")]),
          ("B", .obj [("type", .str "integer")])])])
        { goSchemaElements := ["A", "Missing", "B"], api := [], goSampleElements := [] }
      = none ∧
    generateGoSampleFile sampleEnv
        (some [("definitions", .obj [("A", .obj [("type", .str "string")]),
          ("B", .obj [("type", .str "integer")])])])
        { goSchemaElements := [], api := [], goSampleElements := ["A", "Missing", "B"] }
      = none ∧
    getObject treeView
        (some [("definitions", .obj [("A", .obj [("type", .str "string")]),
          ("B", .obj [("type", .str "integer")])])]) "B"
      = some [("type", .str "integer")] ∧
    generateGoSchemaFile
        (some [("definitions", .obj [("A", .obj [("type", .str "string")]),
          ("B", .obj [("type", .str "integer")])])])
        { goSchemaElements := ["A", "B"], api := [], goSampleElements := [] }
      = some (.obj [("API", .obj []),
          ("objectModelSchemas", .obj [("A", .obj [("type", .str "string")]),
            ("B", .obj [("type", .str "integer")])])]) := by
  refine ⟨rfl, rfl, rfl, rfl⟩

/-- C9, amended (lookup miss). If some requested API function or element name fails to
resolve, `generateGoSchemaFile` produces no output; if all resolve, its output holds every
API function name and every element name with the map `getObject` finds for it. Likewise
`generateGoSampleFile` produces no output if some requested name other than `schema` fails
to resolve, and otherwise holds every requested name with the sample of its map. -/
theorem extraction_all_or_nothing (env : Env) (schema : Option (List (String × JVal)))
    (config : Config) :
    (((∃ n ∈ config.api, getObject treeView schema ("#/definitions/API/" ++ n) = none) ∨
        (∃ n ∈ config.goSchemaElements, getObject treeView schema n = none)) →
      generateGoSchemaFile schema config = none) ∧
    ((∀ n ∈ config.api, getObject treeView schema ("#/definitions/API/" ++ n) ≠ none) →
      (∀ n ∈ config.goSchemaElements, getObject treeView schema n ≠ none) →
      ∃ apis elements,
        generateGoSchemaFile schema config =
          some (.obj [("API", .obj apis), ("objectModelSchemas", .obj elements)]) ∧
        (∀ n ∈ config.api, lookupKey n apis =
          (getObject treeView schema ("#/definitions/API/" ++ n)).map JVal.obj) ∧
        (∀ n ∈ config.goSchemaElements, lookupKey n elements =
          (getObject treeView schema n).map JVal.obj)) ∧
    ((∃ n ∈ config.goSampleElements, n ≠ "schema" ∧ getObject treeView schema n = none) →
      generateGoSampleFile env schema config = none) ∧
    ((∀ n ∈ config.goSampleElements, n ≠ "schema" → getObject treeView schema n ≠ none) →
      ∃ samples,
        generateGoSampleFile env schema config = some (.obj samples) ∧
        ∀ n ∈ config.goSampleElements, lookupKey n samples =
          some (sampleType env
            (if n = "schema" then ofMap schema else ofMap (getObject treeView schema n)) n))
    := by
  refine ⟨?_, ?_, ?_, ?_⟩
  · rintro (⟨n, hn, hf⟩ | ⟨n, hn, hf⟩)
    · unfold generateGoSchemaFile
      rw [extractLoop_miss _ _ [] ⟨n, hn, by simp [hf]⟩]
    · unfold generateGoSchemaFile
      rw [extractLoop_miss (fun elementName =>
        (getObject treeView schema elementName).map JVal.obj) _ [] ⟨n, hn, by simp [hf]⟩]
      split <;> rfl
  · intro hapi hel
    obtain ⟨apis, hapis, hla⟩ := extractLoop_all
      (fun functionName =>
        (getObject treeView schema ("#/definitions/API/" ++ functionName)).map JVal.obj)
      config.api [] (fun n hn => by simpa using hapi n hn)
    obtain ⟨elements, hels, hle⟩ := extractLoop_all
      (fun elementName => (getObject treeView schema elementName).map JVal.obj)
      config.goSchemaElements [] (fun n hn => by simpa using hel n hn)
    refine ⟨apis, elements, ?_, ?_, ?_⟩
    · unfold generateGoSchemaFile
      rw [hapis, hels]
    · intro n hn
      rw [hla n, if_pos hn]
    · intro n hn
      rw [hle n, if_pos hn]
  · rintro ⟨n, hn, hne, hf⟩
    unfold generateGoSampleFile
    rw [extractLoop_miss _ _ [] ⟨n, hn, by simp [hne, hf]⟩]
    rfl
  · intro hall
    obtain ⟨samples, hs, hl⟩ := extractLoop_all
      (fun elementName =>
        if elementName = "schema" then some (sampleType env (ofMap schema) elementName)
        else
          (getObject treeView schema elementName).map
            (fun obj => sampleType env (.obj obj) elementName))
      config.goSampleElements [] (fun n hn => by
        by_cases h1 : n = "schema"
        · simp [h1]
        · have := hall n hn h1
          simp only [h1, if_false, ne_eq, Option.map_eq_none']
          exact this)
    refine ⟨samples, ?_, ?_⟩
    · unfold generateGoSampleFile
      rw [hs]
      rfl
    · intro n hn
      rw [hl n, if_pos hn]
      by_cases h1 : n = "schema"
      · simp [h1]
      · simp only [h1, if_false]
        cases hg : getObject treeView schema n with
        | none => exact absurd hg (hall n hn h1)
        | some obj => rfl

/-! ## The line reported for a syntax error -/

set_option maxRecDepth 100000 in
/-- C10 at failing inputs. For the four raw lines `{`, `"a": 1,`, `"b" 2`, `}` the
syntax error lies in output line 2 (zero-based), which is raw line 3, and
`printSyntaxError` reports `offsets[2] + 1 = 2`. For the example with a five-line include
at raw line 10, the error on raw line 20 lies in output line 23 and is reported as line 19,
and the third inlined line (output line 11) is reported as line 1. -/
theorem preprocess_reported_line :
    (preprocess (fun _ => .panic) ["\x7b", "\"a\": 1,", "\"b\" 2", "\x7d"]
        Pre.init).toOption.map
      (fun st => (st.api, st.offsets 2 + 1, (printSyntaxError st.api st.offsets 15).toOption))
      = some ("\x7b\n\"a\": 1,\n\"b\" 2\n\x7d\n", 2, some 2) ∧
    (preprocess includeExampleFile includeExampleRaw Pre.init).toOption.map
      (fun st => (st.offsets 23 + 1, st.offsets 11 + 1,
        (printSyntaxError st.api st.offsets 235).toOption))
      = some (19, 1, some 19) := by
  refine ⟨by decide, by decide⟩

/-! ## The drop and copy rule of the preprocessor -/

theorem preprocessLine_plain (g : String → Res String) (st : Pre) (l : String)
    (hinc : isIncludeLine l = false) :
    preprocessLine g st l =
      if (if keptLine l then st.lineOut + 1 else st.lineOut) < 5000 then
        .ok
          { api := if keptLine l then st.api ++ l ++ "\n" else st.api
            line := st.line + 1
            lineOut := if keptLine l then st.lineOut + 1 else st.lineOut
            offsets := fun i =>
              if i = (if keptLine l then st.lineOut + 1 else st.lineOut) then st.line
              else st.offsets i }
      else .panic := by
  unfold isIncludeLine at hinc
  unfold preprocessLine keptLine
  by_cases h1 : startsWith (trimSpace l) "#" = true
  · simp [h1]
  · by_cases h2 : trimSpace l = ""
    · simp [h1, h2]
    · simp only [h1, h2, hinc, Bool.false_eq_true, if_false, Bool.not_false, Bool.true_and,
        ne_eq, not_false_eq_true, decide_True, if_true]

theorem preprocess_plain (g : String → Res String) (lines : List String) :
    ∀ st : Pre, (∀ l ∈ lines, isIncludeLine l = false) →
      st.lineOut + (lines.filter keptLine).length < 5000 →
      ∃ st1, preprocess g lines st = .ok st1 ∧
        st1.api = st.api ++ joinLines (lines.filter keptLine) ∧
        st1.lineOut = st.lineOut + (lines.filter keptLine).length := by
  induction lines with
  | nil => intro st _ _; exact ⟨st, rfl, by simp [joinLines], by simp⟩
  | cons l ls ih =>
    intro st hinc hsize
    have hl := hinc l (by simp)
    have hls : ∀ l2 ∈ ls, isIncludeLine l2 = false :=
      fun l2 h2 => hinc l2 (List.mem_cons_of_mem _ h2)
    simp only [preprocess, preprocessLine_plain g st l hl]
    by_cases hk : keptLine l = true
    · simp only [hk, List.filter_cons_of_pos, List.length_cons, if_true] at hsize ⊢
      rw [if_pos (by omega)]
      obtain ⟨st1, h1, h2, h3⟩ := ih
        { api := st.api ++ l ++ "\n"
          line := st.line + 1
          lineOut := st.lineOut + 1
          offsets := fun i => if i = st.lineOut + 1 then st.line else st.offsets i }
        hls (by simp only; omega)
      refine ⟨st1, h1, ?_, ?_⟩
      · rw [h2]; simp only [joinLines, String.append_assoc]
      · rw [h3]; simp only; omega
    · simp only [hk, Bool.false_eq_true, if_false, List.filter_cons_of_neg,
        not_false_eq_true] at hsize ⊢
      rw [if_pos (by omega)]
      obtain ⟨st1, h1, h2, h3⟩ := ih
        { api := st.api
          line := st.line + 1
          lineOut := st.lineOut
          offsets := fun i => if i = st.lineOut then st.line else st.offsets i }
        hls (by simp only; omega)
      exact ⟨st1, h1, h2, h3⟩

theorem preprocess_overflow (g : String → Res String) (lines : List String) :
    ∀ st : Pre, (∀ l ∈ lines, isIncludeLine l = false) → st.lineOut < 5000 →
      5000 ≤ st.lineOut + (lines.filter keptLine).length →
      preprocess g lines st = .panic := by
  induction lines with
  | nil => intro st _ h1 h2; simp at h2; omega
  | cons l ls ih =>
    intro st hinc hlt hsize
    have hl := hinc l (by simp)
    have hls : ∀ l2 ∈ ls, isIncludeLine l2 = false :=
      fun l2 h2 => hinc l2 (List.mem_cons_of_mem _ h2)
    simp only [preprocess, preprocessLine_plain g st l hl]
    by_cases hk : keptLine l = true
    · simp only [hk, List.filter_cons_of_pos, List.length_cons, if_true] at hsize ⊢
      by_cases hfull : st.lineOut + 1 < 5000
      · rw [if_pos hfull]
        exact ih _ hls (by simp only; omega) (by simp only; omega)
      · rw [if_neg hfull]
    · simp only [hk, Bool.false_eq_true, if_false, List.filter_cons_of_neg,
        not_false_eq_true] at hsize ⊢
      rw [if_pos hlt]
      exact ih _ hls (by simp only; omega) (by simp only; omega)

/-- The loop over 4999 scanned lines `1`, none of them an include, blank or a comment,
gives no rewritten text at all: storing into the offset table at index 5000 panics. -/
theorem preprocess_long_text_counterexample :
    isIncludeLine "1" = false ∧ keptLine "1" = true ∧
      preprocess (fun _ => .panic) (List.replicate 4999 "1") Pre.init = .panic := by
  refine ⟨by decide, by decide, ?_⟩
  apply preprocess_overflow
  · intro l hl
    rw [List.eq_of_mem_replicate hl]
    decide
  · decide
  · rw [List.filter_replicate_of_pos (by decide), List.length_replicate]
    decide

/-- The drop and copy rule on scanned lines. For scanned lines none of which is an
external include and fewer than 4999 of which are kept, the loop ends with the rewritten text
being exactly the kept lines (trimmed form not empty and not starting with `#`), in their
order, each verbatim and followed by a newline. A line whose trimmed form contains `"#/`
is never an external include. -/
theorem preprocess_drop_copy (getIncludedFile : String → Res String) (lines : List String)
    (hinc : ∀ l ∈ lines, isIncludeLine l = false)
    (hsize : (lines.filter keptLine).length < 4999) :
    (∃ st, preprocess getIncludedFile lines Pre.init = .ok st ∧
      st.api = joinLines (lines.filter keptLine)) ∧
    ∀ l : String, hasInfix "\"#/".data (trimSpace l).data = true → isIncludeLine l = false := by
  refine ⟨?_, ?_⟩
  · obtain ⟨st, h1, h2, _⟩ := preprocess_plain getIncludedFile lines Pre.init hinc
      (by simp only [Pre.init]; omega)
    exact ⟨st, h1, by rw [h2]; simp [Pre.init]⟩
  · intro l hl
    simp [isIncludeLine, hl]

/-- An instance of `preprocess_drop_copy`: of the five lines `{`, a comment, a blank
line, a local `$ref` and `}`, the three kept ones are copied. -/
theorem preprocess_drop_copy_witness :
    (∃ st, preprocess (fun _ => .panic)
        ["\x7b", "  # note", "   ", "  \"$ref\": \"#/definitions/a\"", "\x7d"] Pre.init
          = .ok st ∧
      st.api = "\x7b\n  \"$ref\": \"#/definitions/a\"\n\x7d\n") ∧
    ∀ l : String, hasInfix "\"#/".data (trimSpace l).data = true → isIncludeLine l = false :=
  preprocess_drop_copy (fun _ => .panic)
    ["\x7b", "  # note", "   ", "  \"$ref\": \"#/definitions/a\"", "\x7d"]
    (by decide) (by decide)

/-! ## sampleType: missing and unknown types, timestamps -/

theorem sampleType_no_type (env : Env) (o : List (String × JVal)) (name : String)
    (h : ∀ t, lookupKey "type" o ≠ some (.str t)) :
    sampleType env (.obj o) name =
      if name = "oneOf" then .obj o else .str "NO TYPE PROPERTY" := by
  rw [sampleType]
  split
  · rename_i t ht
    exact absurd ht (h t)
  · rfl

theorem sampleType_unknown_type (env : Env) (o : List (String × JVal)) (name t : String)
    (ht : lookupKey "type" o = some (.str t))
    (hu : t ∉ ["number", "integer", "string", "null", "boolean", "array", "object"]) :
    sampleType env (.obj o) name = .str ("UNKNOWN TYPE in SampleType: " ++ t ++ "\n") := by
  simp only [List.mem_cons, List.mem_singleton, not_or, List.not_mem_nil, or_false] at hu
  obtain ⟨h1, h2, h3, h4, h5, h6, h7⟩ := hu
  rw [sampleType]
  simp only [ht, h1, h2, h3, h4, h5, h6, h7, if_false]

/-- C16 (missing type). For a map-shaped node without a string-valued `type`, a non-nil
map or a nil one, `sampleType` returns the node itself when the name is exactly `oneOf`
and the string `NO TYPE PROPERTY` otherwise; for a node whose `type` is a string other
than number, integer, string, null, boolean, array and object it returns the string
`UNKNOWN TYPE in SampleType: ` followed by that type and a newline. -/
theorem sampleType_missing_or_unknown_type (env : Env) (o : List (String × JVal))
    (name : String) :
    ((∀ t, lookupKey "type" o ≠ some (.str t)) →
      sampleType env (.obj o) "oneOf" = .obj o ∧
      (name ≠ "oneOf" → sampleType env (.obj o) name = .str "NO TYPE PROPERTY")) ∧
    (sampleType env .nilMap "oneOf" = .nilMap ∧
      (name ≠ "oneOf" → sampleType env .nilMap name = .str "NO TYPE PROPERTY")) ∧
    (∀ t, lookupKey "type" o = some (.str t) →
      t ∉ ["number", "integer", "string", "null", "boolean", "array", "object"] →
      sampleType env (.obj o) name = .str ("UNKNOWN TYPE in SampleType: " ++ t ++ "\n")) := by
  refine ⟨?_, ⟨?_, ?_⟩, ?_⟩
  · intro h
    refine ⟨?_, ?_⟩
    · rw [sampleType_no_type env o "oneOf" h]; simp
    · intro hn
      rw [sampleType_no_type env o name h, if_neg hn]
  · rw [sampleType]; simp
  · intro hn
    rw [sampleType]; simp [hn]
  · intro t ht hu
    exact sampleType_unknown_type env o name t ht hu

/-! ### The rendering of the clock is an RFC 3339 date-time -/

theorem digitChar_isDigit (d : Nat) : (digitChar d).isDigit = true := by
  have h : d % 10 < 10 := Nat.mod_lt _ (by decide)
  unfold digitChar
  generalize d % 10 = k at h
  interval_cases k <;> decide

theorem digitChar_value (d : Nat) : (digitChar d).toNat - 48 = d % 10 := by
  have h : d % 10 < 10 := Nat.mod_lt _ (by decide)
  unfold digitChar
  generalize d % 10 = k at h
  interval_cases k <;> decide

theorem digitChar_eq_zero (d : Nat) (h0 : digitChar d = '0') : d % 10 = 0 := by
  have h := digitChar_value d
  rw [h0] at h
  rw [← h]
  decide

theorem number2_lastDigits (x : Nat) (hx : x < 100) :
    number2 (digitChar (x / 10)) (digitChar x) = x := by
  unfold number2
  rw [digitChar_value, digitChar_value]
  omega

theorem lastDigits_isDigit : ∀ (w x : Nat), ∀ c ∈ lastDigits w x, c.isDigit = true := by
  intro w
  induction w with
  | zero => intro x c hc; simp [lastDigits] at hc
  | succ w ih =>
    intro x c hc
    simp only [lastDigits, List.mem_append, List.mem_singleton] at hc
    rcases hc with hc | hc
    · exact ih _ c hc
    · rw [hc]; exact digitChar_isDigit x

theorem lastDigits_all_zero : ∀ (w x : Nat), (∀ c ∈ lastDigits w x, c = '0') →
    10 ^ w ∣ x := by
  intro w
  induction w with
  | zero => intro x _; simp
  | succ w ih =>
    intro x h
    simp only [lastDigits, List.mem_append, List.mem_singleton] at h
    have h1 := ih (x / 10) (fun c hc => h c (Or.inl hc))
    have h2 := digitChar_eq_zero x (h _ (Or.inr rfl))
    obtain ⟨q, hq⟩ := h1
    refine ⟨q, ?_⟩
    have : x = 10 * (x / 10) + x % 10 := (Nat.div_add_mod x 10).symm
    rw [pow_succ]
    rw [hq, h2] at this
    rw [this]
    ring

theorem trimZeros_isDigit (ds : List Char) (h : ∀ c ∈ ds, c.isDigit = true) :
    ∀ c ∈ trimZeros ds, c.isDigit = true := by
  intro c hc
  unfold trimZeros at hc
  rw [List.mem_reverse] at hc
  have := (List.dropWhile_sublist _).subset hc
  exact h c (List.mem_reverse.1 this)

theorem trimZeros_ne_nil (ds : List Char) (h : ∃ c ∈ ds, c ≠ '0') : trimZeros ds ≠ [] := by
  unfold trimZeros
  intro e
  rw [List.reverse_eq_nil_iff, List.dropWhile_eq_nil_iff] at e
  obtain ⟨c, hc, hne⟩ := h
  have := e c (List.mem_reverse.2 hc)
  simp at this
  exact hne this

theorem takeWhile_digits_append (ds rest : List Char) (h : ∀ c ∈ ds, c.isDigit = true)
    (hr : ∀ c r, rest = c :: r → c.isDigit = false) :
    (ds ++ rest).takeWhile Char.isDigit = ds ∧ (ds ++ rest).dropWhile Char.isDigit = rest := by
  induction ds with
  | nil =>
    cases rest with
    | nil => simp
    | cons c r => simp [hr c r rfl]
  | cons d ds ih =>
    have hd := h d (List.mem_cons_self _ _)
    have := ih (fun c hc => h c (List.mem_cons_of_mem _ hc))
    simp [hd, this]

theorem isTimeOffset_formatZone (offset : Int) (h : offset.natAbs < 86400) :
    isTimeOffset (formatZone offset) = true := by
  unfold formatZone
  by_cases h0 : offset = 0
  · simp [h0, isTimeOffset]
  · have h1 : offset.natAbs / 60 / 60 < 10 ^ 2 := by norm_num; omega
    have h2 : offset.natAbs / 60 % 60 < 10 ^ 2 := by norm_num; omega
    simp only [h0, if_false, appendInt, h1, h2, if_true, lastDigits, List.nil_append,
      List.cons_append, isTimeOffset, digitChar_isDigit, number2_lastDigits _ h1,
      number2_lastDigits _ h2]
    have h3 : offset.natAbs / 60 / 60 ≤ 23 := by omega
    have h4 : offset.natAbs / 60 % 60 ≤ 59 := by omega
    by_cases hs : offset < 0 ∧ offset.natAbs / 60 ≠ 0 <;> simp [hs, h3, h4] 

theorem formatZone_head (offset : Int) :
    ∀ c r, formatZone offset = c :: r → c.isDigit = false ∧ c ≠ '.' := by
  intro c r h
  unfold formatZone at h
  by_cases h0 : offset = 0
  · simp [h0] at h; rw [← h.1]; decide
  · by_cases hs : offset < 0 ∧ offset.natAbs / 60 ≠ 0
    · simp only [h0, hs, if_false, if_true, ne_eq, not_false_eq_true, and_self,
        List.cons.injEq] at h
      rw [← h.1]; decide
    · simp only [h0, hs, if_false, List.cons.injEq] at h
      rw [← h.1]; decide

theorem isTimeTail_format (nanosecond : Nat) (offset : Int) (hn : nanosecond < 10 ^ 9)
    (ho : offset.natAbs < 86400) :
    isTimeTail (formatNano nanosecond ++ formatZone offset) = true := by
  have hz := isTimeOffset_formatZone offset ho
  have hplain : isTimeTail (formatZone offset) = true := by
    cases hf : formatZone offset with
    | nil => rw [hf] at hz; simp [isTimeOffset] at hz
    | cons c r =>
      have := (formatZone_head offset c r hf).2
      simp only [isTimeTail, this, if_false]
      rw [← hf]; exact hz
  unfold formatNano
  by_cases h0 : nanosecond = 0
  · simp only [h0, if_true, List.nil_append]; exact hplain
  · simp only [h0, if_false, appendInt, hn, if_true]
    have hdig := trimZeros_isDigit _ (lastDigits_isDigit 9 nanosecond)
    have hne : trimZeros (lastDigits 9 nanosecond) ≠ [] := by
      apply trimZeros_ne_nil
      by_contra hall
      push_neg at hall
      have := lastDigits_all_zero 9 nanosecond hall
      exact h0 (Nat.eq_zero_of_dvd_of_lt this hn)
    cases hds : trimZeros (lastDigits 9 nanosecond) with
    | nil => exact absurd hds hne
    | cons d ds =>
      rw [hds] at hdig
      obtain ⟨e1, e2⟩ := takeWhile_digits_append (d :: ds) (formatZone offset) hdig
        (fun c r hf => (formatZone_head offset c r hf).1)
      simp only [List.cons_append, isTimeTail, if_true]
      rw [← List.cons_append, e1, e2, hz]
      rfl

theorem number2_digits (x : Nat) :
    number2 (digitChar (x / 10)) (digitChar x) = x % 100 := by
  unfold number2
  rw [digitChar_value, digitChar_value]
  omega

theorem daysInMonth_le (year month : Nat) : daysInMonth year month ≤ 31 := by
  unfold daysInMonth
  split
  · split <;> omega
  · split <;> omega

theorem formatRFC3339Nano_valid (t : Time) (ht : t.valid) :
    isRFC3339 (formatRFC3339Nano t) = true := by
  obtain ⟨hy, hm1, hm2, hd1, hd2, hh, hmin, hs, hn, ho⟩ := ht
  have hd3 := daysInMonth_le t.year t.month
  have b4 : t.year < 10 ^ 4 := by norm_num; exact hy
  have bm : t.month < 10 ^ 2 := by norm_num; omega
  have bd : t.day < 10 ^ 2 := by norm_num; omega
  have bh : t.hour < 10 ^ 2 := by norm_num; omega
  have bn : t.minute < 10 ^ 2 := by norm_num; omega
  have bs : t.second < 10 ^ 2 := by norm_num; omega
  have tail := isTimeTail_format t.nanosecond t.offset hn ho
  have hyear : t.year / 10 / 10 % 100 * 100 + t.year % 100 = t.year := by omega
  have cm : t.month % 100 = t.month := Nat.mod_eq_of_lt (by omega)
  have cd : t.day % 100 = t.day := Nat.mod_eq_of_lt (by omega)
  have ch : t.hour % 100 = t.hour := Nat.mod_eq_of_lt (by omega)
  have cn : t.minute % 100 = t.minute := Nat.mod_eq_of_lt (by omega)
  have cs : t.second % 100 = t.second := Nat.mod_eq_of_lt (by omega)
  simp only [formatRFC3339Nano, isRFC3339, appendInt, b4, bm, bd, bh, bn, bs, if_true,
    lastDigits, List.nil_append, List.cons_append, digitChar_isDigit, tail,
    number2_digits, hyear, cm, cd, ch, cn, cs]
  simp
  omega

/-- C17 (timestamp sampling). For a node of type `string` and a name whose lower-case
form is `timestamp`, `sampleType` returns the clock reading rendered by the layout
`time.RFC3339Nano`, and for a clock reading with its fields in range that string is a
date-time of RFC 3339; `example`, `default`, `enum` and `description` play no part: every
other node of type `string` gives the same sample at the same clock reading. -/
theorem sampleType_timestamp (env : Env) (o : List (String × JVal)) (name : String)
    (htype : lookupKey "type" o = some (.str "string"))
    (hname : env.toLower name = "timestamp")
    (hclock : env.now.valid) :
    sampleType env (.obj o) name = .str (formatRFC3339Nano env.now) ∧
      isRFC3339 (formatRFC3339Nano env.now) = true ∧
      ∀ o2 : List (String × JVal), lookupKey "type" o2 = some (.str "string") →
        sampleType env (.obj o2) name = sampleType env (.obj o) name := by
  have key : ∀ o3 : List (String × JVal), lookupKey "type" o3 = some (.str "string") →
      sampleType env (.obj o3) name = .str (formatRFC3339Nano env.now) := by
    intro o3 h3
    rw [sampleType_string env o3 name h3]
    simp [sampleString, hname]
  exact ⟨key o htype, formatRFC3339Nano_valid env.now hclock,
    fun o2 h2 => by rw [key o2 h2, key o htype]⟩

/-- Witness of C17 on `{"type": "string", "example": "X", "enum": ["A", "B"]}` and the
name `TimeStamp`, half a second past noon UTC on 8 June 2016. -/
theorem sampleType_timestamp_witness :
    lookupKey "type" [("type", JVal.str "string"), ("example", .str "X"),
        ("enum", .arr [.str "A", .str "B"])] = some (.str "string") ∧
      sampleEnv.toLower "TimeStamp" = "timestamp" ∧
      sampleEnv.now.valid ∧
      formatRFC3339Nano sampleEnv.now = "2016-06-08T12:00:00.5Z" ∧
      sampleType sampleEnv
          (.obj [("type", .str "string"), ("example", .str "X"),
            ("enum", .arr [.str "A", .str "B"])]) "TimeStamp"
        = .str (formatRFC3339Nano sampleEnv.now) ∧
      isRFC3339 (formatRFC3339Nano sampleEnv.now) = true :=
  have h := sampleType_timestamp sampleEnv
    [("type", .str "string"), ("example", .str "X"), ("enum", .arr [.str "A", .str "B"])]
    "TimeStamp" rfl (by decide) (by simp [Time.valid, sampleEnv, daysInMonth])
  ⟨rfl, by decide, by simp [Time.valid, sampleEnv, daysInMonth], by decide, h.1, h.2.1⟩

/-! ## sampleType: the shape of an object sample, faulty members -/

theorem setKey_append_new {α : Type} (k : String) (v : α) (l : List (String × α))
    (h : k ∉ l.map Prod.fst) : setKey k v l = l ++ [(k, v)] := by
  induction l with
  | nil => rfl
  | cons p rest ih =>
    obtain ⟨k2, w⟩ := p
    simp only [List.map_cons, List.mem_cons, not_or] at h
    simp [setKey, Ne.symm h.1, ih h.2]

theorem memberSample_of_map (env : Env) (k : String) (v : JVal)
    (hv : treeView.assertMap v ≠ none) : memberSample env k v = some (sampleType env v k) := by
  cases v with
  | obj m => rfl
  | nilMap => rfl
  | _ => simp [treeView] at hv

theorem propsLoop_all_maps (env : Env) (props : List (String × JVal)) :
    ∀ objOut : List (String × JVal), (∀ kv ∈ props, treeView.assertMap kv.2 ≠ none) →
      (props.map Prod.fst).Nodup → (∀ k ∈ props.map Prod.fst, k ∉ objOut.map Prod.fst) →
      propsLoop env props objOut =
        .obj (objOut ++ props.map fun kv => (kv.1, sampleType env kv.2 kv.1)) := by
  induction props with
  | nil => intro objOut _ _ _; rw [propsLoop]; simp
  | cons p rest ih =>
    intro objOut hmaps hnd hdis
    obtain ⟨k0, v0⟩ := p
    have hv0 : treeView.assertMap v0 ≠ none := hmaps (k0, v0) (by simp)
    have hnn : v0 ≠ .null := by
      rintro rfl
      simp [treeView] at hv0
    simp only [List.map_cons, List.nodup_cons] at hnd
    rw [propsLoop_cons env k0 v0 rest objOut hnn, memberSample_of_map env k0 v0 hv0]
    simp only
    have hk0 : k0 ∉ objOut.map Prod.fst := hdis k0 (by simp)
    rw [setKey_append_new k0 _ objOut hk0]
    rw [ih _ (fun kv hkv => hmaps kv (List.mem_cons_of_mem _ hkv)) hnd.2]
    · simp
    · intro k hk
      simp only [List.map_append, List.map_cons, List.map_nil, List.mem_append,
        List.mem_singleton, not_or]
      refine ⟨hdis k (by simp [hk]), ?_⟩
      rintro rfl
      exact hnd.1 hk

theorem memberMap_of_properties (o props : List (String × JVal))
    (h : lookupKey "properties" o = some (.obj props)) :
    memberMap o = some (some props) := by
  simp [memberMap, h, treeView]

theorem memberMap_eq_none (m : List (String × JVal)) (h : memberMap m = none) :
    (lookupKey "properties" m).bind treeView.assertMap = none ∧
      (lookupKey "patternProperties" m).bind treeView.assertMap = none := by
  unfold memberMap at h
  cases hp : (lookupKey "properties" m).bind treeView.assertMap with
  | none =>
    rw [hp] at h
    exact ⟨rfl, h⟩
  | some x =>
    rw [hp] at h
    cases h

/-- C15 (object sampling mirrors the schema shape). For a node of type `object` whose
member map (`properties` when it is a map, otherwise `patternProperties`) has distinct
keys and only map-valued members, `sampleType` returns the map with the member map's keys,
in the same order, each key `k` holding `sampleType(member k, k)`. When `properties` is a
map it is the member map, whatever `patternProperties` holds. -/
theorem sampleType_object_shape (env : Env) (o props : List (String × JVal)) (name : String)
    (htype : lookupKey "type" o = some (.str "object"))
    (hprops : memberMap o = some (some props))
    (hkeys : (props.map Prod.fst).Nodup)
    (hmaps : ∀ kv ∈ props, treeView.assertMap kv.2 ≠ none) :
    sampleType env (.obj o) name =
        .obj (props.map fun kv => (kv.1, sampleType env kv.2 kv.1)) ∧
      ∀ p : List (String × JVal), lookupKey "properties" o = some (.obj p) → p = props := by
  refine ⟨?_, ?_⟩
  · rw [sampleType_object env o name props htype hprops,
      propsLoop_all_maps env props [] hmaps hkeys (by simp)]
    simp
  · intro p hp
    have := memberMap_of_properties o p hp
    rw [hprops] at this
    simpa using this.symm

/-- Witness of C15 on a node with both `properties` and `patternProperties`: the sample
has the two keys of `properties`, `n` holding 789 and `b` holding `true`. -/
theorem sampleType_object_shape_witness :
    memberMap [("type", JVal.str "object"),
        ("patternProperties", .obj [("x", .obj [("type", .str "null")])]),
        ("properties", .obj [("n", .obj [("type", .str "integer")]),
          ("b", .obj [("type", .str "boolean")])])]
      = some (some [("n", .obj [("type", .str "integer")]),
          ("b", .obj [("type", .str "boolean")])]) ∧
    sampleType sampleEnv
        (.obj [("type", .str "object"),
          ("patternProperties", .obj [("x", .obj [("type", .str "null")])]),
          ("properties", .obj [("n", .obj [("type", .str "integer")]),
            ("b", .obj [("type", .str "boolean")])])]) "asset"
      = .obj ([("n", JVal.obj [("type", .str "integer")]),
          ("b", JVal.obj [("type", .str "boolean")])].map
            fun kv => (kv.1, sampleType sampleEnv kv.2 kv.1)) :=
  ⟨rfl,
    (sampleType_object_shape sampleEnv
      [("type", .str "object"),
        ("patternProperties", .obj [("x", .obj [("type", .str "null")])]),
        ("properties", .obj [("n", .obj [("type", .str "integer")]),
          ("b", .obj [("type", .str "boolean")])])]
      [("n", .obj [("type", .str "integer")]), ("b", .obj [("type", .str "boolean")])]
      "asset" rfl rfl (by simp) (by simp [treeView])).1⟩

theorem propsLoop_nil_member (env : Env) (props : List (String × JVal)) :
    ∀ objOut : List (String × JVal), (∃ kv ∈ props, kv.2 = JVal.null) →
      ∃ k, (k, JVal.null) ∈ props ∧
        propsLoop env props objOut =
          .str ("INVALID OBJECT - " ++ ("Key " ++ k ++ " has NIL value in SampleType\n")) := by
  induction props with
  | nil => intro objOut h; simp at h
  | cons p rest ih =>
    intro objOut h
    obtain ⟨k0, v0⟩ := p
    by_cases hv : v0 = .null
    · subst hv
      exact ⟨k0, by simp, by rw [propsLoop]⟩
    · rw [propsLoop_cons env k0 v0 rest objOut hv]
      obtain ⟨kv, hkv, hnull⟩ := h
      rcases List.mem_cons.1 hkv with rfl | hkv
      · exact absurd hnull hv
      · obtain ⟨k, hk, hres⟩ := ih _ ⟨kv, hkv, hnull⟩
        exact ⟨k, List.mem_cons_of_mem _ hk, hres⟩

/-- C12, as stated, fails: the object node
`{"type": "object", "properties": {"a": null, "b": {"type": "integer"}}}` with a nil-valued
member has, in either visiting order, a string as its sample and not a map; the sample of
`b` is lost. -/
theorem sampleType_nil_member_counterexample :
    sampleType sampleEnv
        (.obj [("type", .str "object"),
          ("properties", .obj [("a", .null), ("b", .obj [("type", .str "integer")])])]) "asset"
      = .str "INVALID OBJECT - Key a has NIL value in SampleType\n" ∧
    sampleType sampleEnv
        (.obj [("type", .str "object"),
          ("properties", .obj [("b", .obj [("type", .str "integer")]), ("a", .null)])]) "asset"
      = .str "INVALID OBJECT - Key a has NIL value in SampleType\n" := by
  refine ⟨?_, ?_⟩
  · rw [sampleType_object sampleEnv
      [("type", .str "object"),
        ("properties", .obj [("a", .null), ("b", .obj [("type", .str "integer")])])]
      "asset" [("a", .null), ("b", .obj [("type", .str "integer")])] rfl rfl, propsLoop]
    rfl
  · rw [sampleType_object sampleEnv
      [("type", .str "object"),
        ("properties", .obj [("b", .obj [("type", .str "integer")]), ("a", .null)])]
      "asset" [("b", .obj [("type", .str "integer")]), ("a", .null)] rfl rfl,
      propsLoop_cons sampleEnv "b" (.obj [("type", .str "integer")]) [("a", .null)] []
        (by simp), propsLoop]
    rfl

/-- C12, amended (fail-soft synthesis). Take an object-typed node whose member map has
distinct keys. If no member is nil-valued, `sampleType` returns a map in which every
map-valued member `k` holds `sampleType(member k, k)`, and that value is a placeholder
string when the member is faulty: `NO TYPE PROPERTY` for a missing type (unless `k` is
`oneOf`), the unknown-type string for an unknown type, `ARRAY WITH NO ITEMS PROPERTY` for
an array without `items`, `INVALID OBJECT - MISSING PROPERTIES` for an object without
member map. If some member is nil-valued, `sampleType` returns no map but the string
`INVALID OBJECT - Key k has NIL value in SampleType` for a nil-valued key `k`. -/
theorem sampleType_fail_soft (env : Env) (o props : List (String × JVal)) (name : String)
    (htype : lookupKey "type" o = some (.str "object"))
    (hprops : memberMap o = some (some props))
    (hkeys : (props.map Prod.fst).Nodup) :
    ((∀ kv ∈ props, kv.2 ≠ JVal.null) →
      ∃ out, sampleType env (.obj o) name = .obj out ∧
        ∀ k m, lookupKey k props = some (.obj m) →
          lookupKey k out = some (sampleType env (.obj m) k)) ∧
    (∀ (k : String) (m : List (String × JVal)),
      ((∀ t, lookupKey "type" m ≠ some (.str t)) → k ≠ "oneOf" →
        sampleType env (.obj m) k = .str "NO TYPE PROPERTY") ∧
      (∀ t, lookupKey "type" m = some (.str t) →
        t ∉ ["number", "integer", "string", "null", "boolean", "array", "object"] →
        sampleType env (.obj m) k = .str ("UNKNOWN TYPE in SampleType: " ++ t ++ "\n")) ∧
      (lookupKey "type" m = some (.str "array") →
        (lookupKey "items" m).bind treeView.assertMap = none →
        sampleType env (.obj m) k = .str "ARRAY WITH NO ITEMS PROPERTY") ∧
      (lookupKey "type" m = some (.str "object") → memberMap m = none →
        sampleType env (.obj m) k = .str "INVALID OBJECT - MISSING PROPERTIES")) ∧
    ((∃ kv ∈ props, kv.2 = JVal.null) →
      ∃ k, (k, JVal.null) ∈ props ∧
        sampleType env (.obj o) name =
          .str ("INVALID OBJECT - " ++ ("Key " ++ k ++ " has NIL value in SampleType\n"))) := by
  refine ⟨?_, ?_, ?_⟩
  · intro hnn
    obtain ⟨out, hout, hl⟩ := propsLoop_spec env props [] hnn hkeys
    refine ⟨out, by rw [sampleType_object env o name props htype hprops]; exact hout, ?_⟩
    intro k m hk
    rw [hl k, hk]
    rfl
  · intro k m
    refine ⟨?_, ?_, ?_, ?_⟩
    · intro h hk
      rw [sampleType_no_type env m k h, if_neg hk]
    · intro t ht hu
      exact sampleType_unknown_type env m k t ht hu
    · intro ht hi
      rw [sampleType]
      simp only [ht]
      simp only [String.reduceEq, if_false, if_true]
      split
      · rename_i items h
        simp [h, treeView] at hi
      · rename_i h
        simp [h, treeView] at hi
      · rfl
    · intro ht hm
      obtain ⟨hm1, hm2⟩ := memberMap_eq_none m hm
      rw [sampleType]
      simp only [ht]
      simp only [String.reduceEq, if_false, if_true]
      split
      · rename_i p h
        simp [h, treeView] at hm1
      · rename_i h
        simp [h, treeView] at hm1
      · split
        · rename_i p h
          simp [h, treeView] at hm2
        · rename_i h
          simp [h, treeView] at hm2
        · rfl
  · intro hnil
    obtain ⟨k, hk, hres⟩ := propsLoop_nil_member env props [] hnil
    exact ⟨k, hk, by rw [sampleType_object env o name props htype hprops]; exact hres⟩

/-- Witness of the amended C12 on
`{"type": "object", "properties": {"bad": {"type": "array"}, "n": {"type": "integer"}}}`:
the sample is a map, `bad` holds the placeholder of an array without `items`, `n` its own
sample. -/
theorem sampleType_fail_soft_witness :
    ∃ out, sampleType sampleEnv
        (.obj [("type", .str "object"),
          ("properties", .obj [("bad", .obj [("type", .str "array")]),
            ("n", .obj [("type", .str "integer")])])]) "asset" = .obj out ∧
      lookupKey "bad" out = some (sampleType sampleEnv (.obj [("type", .str "array")]) "bad") ∧
      lookupKey "n" out = some (sampleType sampleEnv (.obj [("type", .str "integer")]) "n") ∧
      sampleType sampleEnv (.obj [("type", .str "array")]) "bad"
        = .str "ARRAY WITH NO ITEMS PROPERTY" := by
  have h := sampleType_fail_soft sampleEnv
    [("type", .str "object"),
      ("properties", .obj [("bad", .obj [("type", .str "array")]),
        ("n", .obj [("type", .str "integer")])])]
    [("bad", .obj [("type", .str "array")]), ("n", .obj [("type", .str "integer")])]
    "asset" rfl rfl (by simp)
  obtain ⟨out, hout, hl⟩ := h.1 (by simp)
  exact ⟨out, hout, hl "bad" _ rfl, hl "n" _ rfl,
    (h.2.1 "bad" [("type", .str "array")]).2.2.1 rfl rfl⟩

/-! ## A reference that does not resolve -/

/-- C13 at a failing input. The heap holds the root
`{"definitions": {}, "x": {"$ref": "#/definitions/Missing", "title": "t"}}` (cell 2; the
referring object is cell 1, visited `$ref` first). The pointer does not resolve, the loop
goes on with the nil map and the assignment of the sibling `title` panics. With `title`
visited first, or without siblings, the run returns and `x` holds the nil map. -/
theorem replaceReferences_dangling_then_sibling :
    getObject
        (heapView [.map [], .map [("$ref", .str "#/definitions/Missing"), ("title", .str "t")],
          .map [("definitions", .map 0), ("x", .map 1)]])
        (some 2) "#/definitions/Missing" = none ∧
    replaceReferences 3
        [.map [], .map [("$ref", .str "#/definitions/Missing"), ("title", .str "t")],
          .map [("definitions", .map 0), ("x", .map 1)]]
        (some 2) (.map 2) = .panic ∧
    (∀ fuel, 3 ≤ fuel →
      replaceReferences fuel
        [.map [], .map [("$ref", .str "#/definitions/Missing"), ("title", .str "t")],
          .map [("definitions", .map 0), ("x", .map 1)]]
        (some 2) (.map 2) = .panic) ∧
    replaceReferences 3
        [.map [], .map [("title", .str "t"), ("$ref", .str "#/definitions/Missing")],
          .map [("definitions", .map 0), ("x", .map 1)]]
        (some 2) (.map 2) =
      .ok ([.map [], .map [("title", .str "t"), ("$ref", .str "#/definitions/Missing")],
          .map [("definitions", .map 0), ("x", .nilMap)]], .map 2) ∧
    replaceReferences 3
        [.map [], .map [("$ref", .str "#/definitions/Missing")],
          .map [("definitions", .map 0), ("x", .map 1)]]
        (some 2) (.map 2) =
      .ok ([.map [], .map [("$ref", .str "#/definitions/Missing")],
          .map [("definitions", .map 0), ("x", .nilMap)]], .map 2) := by
  refine ⟨by decide, by decide, ?_, by decide, by decide⟩
  intro fuel hf
  obtain ⟨n, rfl⟩ : ∃ n, fuel = n + 3 := ⟨fuel - 3, by omega⟩
  simp [replaceReferences, refMapLoop, Heap.members, lookupKey, heapView, getObject,
    getObjectLoop, View.get, View.toMap, normalizeName, startsWith, split, splitChars,
    Val.ofMap, Heap.setMember, setKey]

/-! ## referencesExist -/

/-- C14 at a failing input. On `{"x": [{"$ref": "#/definitions/T"}]}` an object under the
array carries a `$ref` key and `referencesExist` returns false; on
`{"x": {"y": {"$ref": "#/definitions/T"}}}`, where the object is reached through nested
objects only, it returns true. -/
theorem referencesExist_under_array :
    referencesExist (some [("x", .arr [.obj [("$ref", .str "#/definitions/T")]])]) = false ∧
    carriesRef (.obj [("x", .arr [.obj [("$ref", .str "#/definitions/T")]])]) = true ∧
    referencesExist (some [("x", .obj [("y", .obj [("$ref", .str "#/definitions/T")])])])
      = true := by
  decide

/-! ## The order of visiting and the result -/

/-- C19 at a failing input. The root
`{"definitions": {"T": {"type": "string"}}, "x": {"$ref": "#/definitions/T", "title": "t"}}`
is resolved twice from cell 3, the two heaps differing only in the order of the members of
`x` (cell 2). Visiting `$ref` first gives a tree in which `T` and `x` both hold
`{"type": "string", "title": "t"}`; visiting `title` first gives a tree in which both hold
`{"type": "string"}`. -/
theorem replaceReferences_order_dependent :
    (match replaceReferences 4
        [.map [("type", .str "string")], .map [("T", .map 0)],
          .map [("$ref", .str "#/definitions/T"), ("title", .str "t")],
          .map [("definitions", .map 1), ("x", .map 2)]]
        (some 3) (.map 3) with
      | .ok (h1, r) => readback 4 h1 r
      | _ => none) =
      some (.obj [("definitions",
          .obj [("T", .obj [("type", .str "string"), ("title", .str "t")])]),
        ("x", .obj [("type", .str "string"), ("title", .str "t")])]) ∧
    (match replaceReferences 4
        [.map [("type", .str "string")], .map [("T", .map 0)],
          .map [("title", .str "t"), ("$ref", .str "#/definitions/T")],
          .map [("definitions", .map 1), ("x", .map 2)]]
        (some 3) (.map 3) with
      | .ok (h1, r) => readback 4 h1 r
      | _ => none) =
      some (.obj [("definitions", .obj [("T", .obj [("type", .str "string")])]),
        ("x", .obj [("type", .str "string")])]) := by
  refine ⟨rfl, rfl⟩

/-! ## Synthesis is total -/

theorem depth_lookup (k : String) (v : JVal) :
    ∀ kvs : List (String × JVal), lookupKey k kvs = some v → depth v ≤ depthMembers kvs := by
  intro kvs
  induction kvs with
  | nil => intro h; simp [lookupKey] at h
  | cons p rest ih =>
    obtain ⟨k2, w⟩ := p
    intro h
    simp only [lookupKey] at h
    simp only [depthMembers]
    split at h
    · cases h; exact le_max_left _ _
    · exact le_trans (ih h) (le_max_right _ _)

theorem enumChoiceChecked_eq (x : Option JVal) :
    enumChoiceChecked x = (enumChoice x).map Res.ok := by
  unfold enumChoiceChecked enumChoice
  rcases x with _ | v
  · rfl
  · cases v with
    | arr xs =>
      rcases xs with _ | ⟨a, _ | ⟨b, r⟩⟩ <;> simp [indexChecked]
    | _ => rfl

theorem sampleStringChecked_eq (env : Env) (o : List (String × JVal)) (name : String) :
    sampleStringChecked env o name = .ok (sampleString env o name) := by
  unfold sampleStringChecked sampleString
  rw [enumChoiceChecked_eq]
  split
  · rfl
  · cases nonEmptyString (lookupKey "example" o) with
    | some ex => rfl
    | none =>
      cases nonEmptyString (lookupKey "default" o) with
      | some d => rfl
      | none =>
        cases enumChoice (lookupKey "enum" o) with
        | some e => rfl
        | none =>
          cases nonEmptyString (lookupKey "description" o) with
          | some d => rfl
          | none => rfl

theorem set_length_append (pre post : List JVal) (x y : JVal) :
    (pre ++ x :: post).set pre.length y = pre ++ y :: post := by
  induction pre with
  | nil => rfl
  | cons a pre ih => simp [ih]

theorem altLoopChecked_eq (env : Env) (rec : JVal → String → Res JVal) (n : Nat)
    (hrec : ∀ v name, depth v < n → rec v name = .ok (sampleType env v name))
    (k2 : Nat) (pre post : List JVal) (hk : pre.length = k2) :
    ∀ (vObj : List (String × JVal)) (x : JVal), depthMembers vObj < n →
      altLoopChecked rec k2 vObj (pre ++ x :: post) =
        .ok (pre ++ altLoop env vObj x :: post) := by
  intro vObj
  induction vObj with
  | nil => intro x _; rw [altLoop]; rfl
  | cons p rest ih =>
    obtain ⟨k3, v3⟩ := p
    intro x hd
    simp only [depthMembers] at hd
    have h1 : depth v3 < n := lt_of_le_of_lt (le_max_left _ _) hd
    have h2 : depthMembers rest < n := lt_of_le_of_lt (le_max_right _ _) hd
    rw [altLoop]
    simp only [altLoopChecked, hrec v3 k3 h1, assignChecked]
    have hlt : k2 < (pre ++ x :: post).length := by simp; omega
    simp only [hlt, if_true]
    rw [← hk, set_length_append, hk]
    exact ih _ h2

theorem oneOfLoop_cons (env : Env) (v2 : JVal) (rest : List JVal) :
    oneOfLoop env (v2 :: rest) =
      (match v2 with
        | .obj vObj => altLoop env vObj .null
        | _ => .null) :: oneOfLoop env rest := by
  cases v2 <;> rw [oneOfLoop] <;> simp

theorem oneOfLoopChecked_eq (env : Env) (rec : JVal → String → Res JVal) (n : Nat)
    (hrec : ∀ v name, depth v < n → rec v name = .ok (sampleType env v name)) :
    ∀ (aArr : List JVal) (pre : List JVal), depthList aArr ≤ n →
      oneOfLoopChecked rec aArr pre.length (pre ++ List.replicate aArr.length .null) =
        .ok (pre ++ oneOfLoop env aArr) := by
  intro aArr
  induction aArr with
  | nil => intro pre _; rw [oneOfLoop]; simp [oneOfLoopChecked]
  | cons v2 rest ih =>
    intro pre hd
    simp only [depthList] at hd
    have h1 : depth v2 ≤ n := le_trans (le_max_left _ _) hd
    have h2 : depthList rest ≤ n := le_trans (le_max_right _ _) hd
    have hnext : ∀ y : JVal,
        oneOfLoopChecked rec rest (pre.length + 1)
            (pre ++ y :: List.replicate rest.length .null) =
          .ok (pre ++ y :: oneOfLoop env rest) := by
      intro y
      have := ih (pre ++ [y]) h2
      simpa using this
    rw [oneOfLoop_cons]
    simp only [List.length_cons, List.replicate_succ]
    cases v2 with
    | obj vObj =>
      simp only [depth] at h1
      simp only [oneOfLoopChecked]
      rw [altLoopChecked_eq env rec n hrec pre.length pre _ rfl vObj .null (by omega)]
      exact hnext _
    | null => simp only [oneOfLoopChecked]; exact hnext _
    | bool b => simp only [oneOfLoopChecked]; exact hnext _
    | num m e => simp only [oneOfLoopChecked]; exact hnext _
    | str s => simp only [oneOfLoopChecked]; exact hnext _
    | arr xs => simp only [oneOfLoopChecked]; exact hnext _
    | nilMap => simp only [oneOfLoopChecked]; exact hnext _

theorem propsLoopChecked_eq (env : Env) (rec : JVal → String → Res JVal) (n : Nat)
    (hrec : ∀ v name, depth v < n → rec v name = .ok (sampleType env v name)) :
    ∀ (props objOut : List (String × JVal)), depthMembers props < n →
      propsLoopChecked rec props objOut = .ok (propsLoop env props objOut) := by
  intro props
  induction props with
  | nil => intro objOut _; rw [propsLoop]; rfl
  | cons p rest ih =>
    obtain ⟨k, v⟩ := p
    intro objOut hd
    simp only [depthMembers] at hd
    have h1 : depth v < n := lt_of_le_of_lt (le_max_left _ _) hd
    have h2 : depthMembers rest < n := lt_of_le_of_lt (le_max_right _ _) hd
    cases v with
    | null => rw [propsLoop]; rfl
    | bool b =>
      rw [propsLoop_cons env k _ rest objOut (by simp)]
      simp only [propsLoopChecked, memberSample]; exact ih _ h2
    | num m e =>
      rw [propsLoop_cons env k _ rest objOut (by simp)]
      simp only [propsLoopChecked, memberSample]; exact ih _ h2
    | str s =>
      rw [propsLoop_cons env k _ rest objOut (by simp)]
      simp only [propsLoopChecked, memberSample]; exact ih _ h2
    | nilMap =>
      rw [propsLoop_cons env k _ rest objOut (by simp)]
      simp only [propsLoopChecked, memberSample, hrec .nilMap k h1]
      exact ih _ h2
    | obj aMap =>
      rw [propsLoop_cons env k _ rest objOut (by simp)]
      simp only [propsLoopChecked, memberSample, hrec (.obj aMap) k h1]
      exact ih _ h2
    | arr aArr =>
      rw [propsLoop_cons env k _ rest objOut (by simp)]
      simp only [propsLoopChecked, memberSample]
      simp only [depth] at h1
      have h3 := oneOfLoopChecked_eq env rec n hrec aArr [] (by omega)
      simp only [List.length_nil, List.nil_append] at h3
      rw [h3]
      by_cases hk : "oneOf" = k
      · simp only [hk, if_true]
        by_cases he : aArr.isEmpty = true
        · simp only [he, if_true]; exact ih _ h2
        · simp only [he]; exact ih _ h2
      · simp only [hk, if_false]; exact ih _ h2

theorem arrayFromSchemaChecked_eq (env : Env) (rec : JVal → String → Res JVal) (n : Nat)
    (hrec : ∀ v name, depth v < n → rec v name = .ok (sampleType env v name))
    (schema : JVal) (name : String) (hd : depth schema < n) :
    arrayFromSchemaChecked rec schema name = .ok (arrayFromSchema env schema name) := by
  cases schema with
  | obj items =>
    rw [arrayFromSchema]
    simp only [arrayFromSchemaChecked]
    cases lookupKey "enum" items with
    | some e => rfl
    | none => simp only [hrec _ name hd]
  | null => rw [arrayFromSchema] <;> simp [arrayFromSchemaChecked, hrec _ name hd]
  | bool b => rw [arrayFromSchema] <;> simp [arrayFromSchemaChecked, hrec _ name hd]
  | num m e => rw [arrayFromSchema] <;> simp [arrayFromSchemaChecked, hrec _ name hd]
  | str s => rw [arrayFromSchema] <;> simp [arrayFromSchemaChecked, hrec _ name hd]
  | arr xs => rw [arrayFromSchema] <;> simp [arrayFromSchemaChecked, hrec _ name hd]
  | nilMap => rw [arrayFromSchema] <;> simp [arrayFromSchemaChecked, hrec _ name hd]

theorem sampleType_array_unfold (env : Env) (o : List (String × JVal)) (name : String)
    (htype : lookupKey "type" o = some (.str "array")) :
    sampleType env (.obj o) name =
      match lookupKey "items" o with
      | some (.obj items) => arrayFromSchema env (.obj items) name
      | some .nilMap => arrayFromSchema env .nilMap name
      | _ => .str "ARRAY WITH NO ITEMS PROPERTY" := by
  rw [sampleType]
  simp only [htype]
  simp only [String.reduceEq, if_false, if_true]
  split <;> simp_all

theorem sampleType_object_unfold (env : Env) (o : List (String × JVal)) (name : String)
    (htype : lookupKey "type" o = some (.str "object")) :
    sampleType env (.obj o) name =
      match lookupKey "properties" o with
      | some (.obj props) => propsLoop env props []
      | some .nilMap => .obj []
      | _ =>
        match lookupKey "patternProperties" o with
        | some (.obj props) => propsLoop env props []
        | some .nilMap => .obj []
        | _ => .str "INVALID OBJECT - MISSING PROPERTIES" := by
  rw [sampleType]
  simp only [htype]
  simp only [String.reduceEq, if_false, if_true]
  split
  · simp_all
  · simp_all
  · rename_i h1 h2
    have e : ∀ (α : Type) (a b : List (String × JVal) → α) (c d : α),
        (match lookupKey "properties" o with
          | some (.obj props) => a props
          | some .nilMap => c
          | _ => d) = d := by
      intro α a b c d
      split
      · rename_i p h; exact absurd h (h1 p)
      · rename_i h; exact absurd h h2
      · rfl
    rw [e _ _ (fun _ => .null)]
    split <;> simp_all

theorem sampleTypeChecked_eq (env : Env) :
    ∀ (n : Nat) (obj : JVal) (name : String), depth obj < n →
      sampleTypeChecked n env obj name = .ok (sampleType env obj name) := by
  intro n
  induction n with
  | zero => intro obj name h; omega
  | succ n ih =>
    intro obj name hd
    cases obj with
    | obj o =>
      simp only [depth] at hd
      have hdo : depthMembers o < n := by omega
      have hsub : ∀ k v, lookupKey k o = some v → depth v < n := fun k v hv =>
        lt_of_le_of_lt (depth_lookup k v o hv) hdo
      have hno : (∀ t, lookupKey "type" o ≠ some (.str t)) →
          sampleTypeChecked (n + 1) env (.obj o) name = .ok (sampleType env (.obj o) name) := by
        intro h
        rw [sampleType_no_type env o name h]
        simp only [sampleTypeChecked]
        by_cases hn : name = "oneOf"
        · simp only [hn, if_true]
        · simp only [hn, if_false]
      cases ht : lookupKey "type" o with
      | none => exact hno (by simp [ht])
      | some tv =>
        cases tv with
        | str t =>
          by_cases h1 : t = "number"
          · subst h1; rw [sampleType]; simp [sampleTypeChecked, ht]
          by_cases h2 : t = "integer"
          · subst h2; rw [sampleType]; simp [sampleTypeChecked, ht]
          by_cases h3 : t = "string"
          · subst h3
            rw [sampleType_string env o name ht]
            simp [sampleTypeChecked, ht, sampleStringChecked_eq]
          by_cases h4 : t = "null"
          · subst h4; rw [sampleType]; simp [sampleTypeChecked, ht]
          by_cases h5 : t = "boolean"
          · subst h5; rw [sampleType]; simp [sampleTypeChecked, ht]
          by_cases h6 : t = "array"
          · subst h6
            rw [sampleType_array_unfold env o name ht]
            simp only [sampleTypeChecked, ht, String.reduceEq, if_false, if_true]
            cases hi : lookupKey "items" o with
            | none => rfl
            | some iv =>
              cases iv with
              | obj items =>
                exact arrayFromSchemaChecked_eq env _ n ih _ name (hsub _ _ hi)
              | nilMap =>
                exact arrayFromSchemaChecked_eq env _ n ih _ name (hsub _ _ hi)
              | _ => rfl
          by_cases h7 : t = "object"
          · subst h7
            rw [sampleType_object_unfold env o name ht]
            simp only [sampleTypeChecked, ht, String.reduceEq, if_false, if_true]
            have hpp : (match lookupKey "patternProperties" o with
                | some (.obj props) => propsLoopChecked (sampleTypeChecked n env) props []
                | some .nilMap => Res.ok (.obj [])
                | _ => .ok (.str "INVALID OBJECT - MISSING PROPERTIES")) =
                Res.ok (match lookupKey "patternProperties" o with
                | some (.obj props) => propsLoop env props []
                | some .nilMap => .obj []
                | _ => .str "INVALID OBJECT - MISSING PROPERTIES") := by
              cases hq : lookupKey "patternProperties" o with
              | none => rfl
              | some qv =>
                cases qv with
                | obj props =>
                  have := hsub _ _ hq
                  simp only [depth] at this
                  exact propsLoopChecked_eq env _ n ih props [] (by omega)
                | _ => rfl
            cases hp : lookupKey "properties" o with
            | none => exact hpp
            | some pv =>
              cases pv with
              | obj props =>
                have := hsub _ _ hp
                simp only [depth] at this
                exact propsLoopChecked_eq env _ n ih props [] (by omega)
              | nilMap => rfl
              | null => exact hpp
              | bool b => exact hpp
              | num m e => exact hpp
              | str s => exact hpp
              | arr xs => exact hpp
          rw [sampleType_unknown_type env o name t ht (by simp [h1, h2, h3, h4, h5, h6, h7])]
          simp only [sampleTypeChecked, ht, h1, h2, h3, h4, h5, h6, h7, if_false]
        | null => exact hno (by simp [ht])
        | bool b => exact hno (by simp [ht])
        | num m e => exact hno (by simp [ht])
        | arr xs => exact hno (by simp [ht])
        | obj kvs => exact hno (by simp [ht])
        | nilMap => exact hno (by simp [ht])
    | nilMap => rw [sampleType]; simp only [sampleTypeChecked]; split <;> rfl
    | null => rw [sampleType] <;> simp [sampleTypeChecked]
    | bool b => rw [sampleType] <;> simp [sampleTypeChecked]
    | num m e => rw [sampleType] <;> simp [sampleTypeChecked]
    | str s => rw [sampleType] <;> simp [sampleTypeChecked]
    | arr xs => rw [sampleType] <;> simp [sampleTypeChecked]

/-- C20. Sample synthesis returns a value on every value tree: run with its index checks
and with room for more nested calls than the tree has nested containers, `sampleType`
neither panics nor runs out of calls, and what it returns is the value of the total
function `sampleType`. Each nested call is on a proper subtree of its argument, which is
why depth-many calls are enough. -/
theorem sampleType_total (env : Env) (obj : JVal) (name : String) (fuel : Nat)
    (hfuel : depth obj < fuel) :
    sampleTypeChecked fuel env obj name = .ok (sampleType env obj name) :=
  sampleTypeChecked_eq env fuel obj name hfuel

/-- Witness of C20 on the node
`{"type": "object", "properties": {"a": {"type": "string", "enum": ["x", "y"]},
"oneOf": [{"b": {"type": "integer"}}], "l": {"type": "array", "items": {"type": "number"}}}}`,
of depth 5, run with room for six nested calls; the last part shows the value. -/
theorem sampleType_total_witness :
    depth (.obj [("type", .str "object"),
        ("properties", .obj [
          ("a", .obj [("type", .str "string"), ("enum", .arr [.str "x", .str "y"])]),
          ("oneOf", .arr [.obj [("b", .obj [("type", .str "integer")])]]),
          ("l", .obj [("type", .str "array"), ("items", .obj [("type", .str "number")])])])])
      = 5 ∧
    sampleTypeChecked 6 sampleEnv
      (.obj [("type", .str "object"),
        ("properties", .obj [
          ("a", .obj [("type", .str "string"), ("enum", .arr [.str "x", .str "y"])]),
          ("oneOf", .arr [.obj [("b", .obj [("type", .str "integer")])]]),
          ("l", .obj [("type", .str "array"), ("items", .obj [("type", .str "number")])])])])
      "asset" =
    .ok (sampleType sampleEnv
      (.obj [("type", .str "object"),
        ("properties", .obj [
          ("a", .obj [("type", .str "string"), ("enum", .arr [.str "x", .str "y"])]),
          ("oneOf", .arr [.obj [("b", .obj [("type", .str "integer")])]]),
          ("l", .obj [("type", .str "array"), ("items", .obj [("type", .str "number")])])])])
      "asset") ∧
    sampleTypeChecked 6 sampleEnv
      (.obj [("type", .str "object"),
        ("properties", .obj [
          ("a", .obj [("type", .str "string"), ("enum", .arr [.str "x", .str "y"])]),
          ("oneOf", .arr [.obj [("b", .obj [("type", .str "integer")])]]),
          ("l", .obj [("type", .str "array"), ("items", .obj [("type", .str "number")])])])])
      "asset" =
    .ok (.obj [("a", .str "y"), ("oneOf", .arr [.obj [("b", .num 789 0)]]),
      ("l", .arr [.num 123456 (-3)])]) :=
  ⟨by simp [depth, depthList, depthMembers],
    sampleType_total _ _ _ _ (by simp [depth, depthList, depthMembers]),
    by simp [sampleTypeChecked, propsLoopChecked, oneOfLoopChecked, altLoopChecked,
      assignChecked, arrayFromSchemaChecked, sampleStringChecked, enumChoiceChecked,
      indexChecked, nonEmptyString, lookupKey, setKey, sampleEnv, asciiLower]⟩

/-! ## Reference cycles -/

theorem getObjectLoop_cons_step {V M : Type} (vw : View V M) (schema : Option M)
    (seg : String) (rest : List String) :
    getObjectLoop vw schema (seg :: rest) =
      if (stepNext vw schema seg).2 then getObjectLoop vw (stepNext vw schema seg).1 rest
      else none := by
  simp only [getObjectLoop, stepNext, stepContainer]
  cases h1 : (vw.toMap (vw.get schema "properties")).2 <;>
    cases h2 : (vw.toMap (vw.get schema "patternProperties")).2 <;>
    cases h3 : (vw.toMap (vw.get schema seg)).2 <;>
    cases h4 : (vw.toMap (vw.get (vw.toMap (vw.get schema "properties")).1 seg)).2 <;>
    cases h5 : (vw.toMap (vw.get (vw.toMap (vw.get schema "patternProperties")).1 seg)).2 <;>
    simp [h1, h2, h3, h4, h5]

theorem walkIn_head (h : Heap) (T : Val → Prop) (schema : Option Nat) (segs : List String)
    (hw : walkIn h T schema segs) : T (Val.ofMap schema) := by
  cases segs with
  | nil => exact hw
  | cons seg rest => exact hw.1

theorem walkIn_result (h : Heap) (T : Val → Prop) :
    ∀ (segs : List String) (schema : Option Nat), walkIn h T schema segs →
      T (Val.ofMap (getObjectLoop (heapView h) schema segs)) := by
  intro segs
  induction segs with
  | nil => intro schema hw; exact hw
  | cons seg rest ih =>
    intro schema hw
    obtain ⟨_, _, hf, hr⟩ := hw
    rw [getObjectLoop_cons_step, hf]
    exact ih _ hr

theorem keeps_refl (T : Val → Prop) (h : Heap) : Keeps T h h :=
  ⟨fun _ _ _ => Or.inl rfl, fun _ _ _ => Or.inl rfl⟩

theorem keeps_trans {T : Val → Prop} {h0 h1 h2 : Heap} (a : Keeps T h0 h1)
    (b : Keeps T h1 h2) : Keeps T h0 h2 := by
  constructor
  · intro x hx key
    rcases a.members x hx key with e1 | hq1
    · rcases b.members x hx key with e2 | ⟨q, e2, hq⟩
      · exact Or.inl (e2.trans e1)
      · exact Or.inr ⟨q, e1 ▸ e2, hq⟩
    · exact Or.inr hq1
  · intro c hc i
    rcases a.elems c hc i with e1 | hq1
    · rcases b.elems c hc i with e2 | ⟨q, e2, hq⟩
      · exact Or.inl (e2.trans e1)
      · exact Or.inr ⟨q, e1 ▸ e2, hq⟩
    · exact Or.inr hq1

theorem keeps_lookup {T : Val → Prop} {h h1 : Heap} (hk : Keeps T h h1) (x : Nat)
    (hx : T (.map x)) (key : String)
    (hq : ∀ q, lookupKey key (h.members x) = some (.map q) → T (.map q)) :
    lookupKey key (h1.members x) = lookupKey key (h.members x) := by
  rcases hk.members x hx key with e | ⟨q, e, hn⟩
  · exact e
  · exact absurd (hq q e) hn

theorem keeps_elem {T : Val → Prop} {h h1 : Heap} (hk : Keeps T h h1) (c : Nat)
    (hc : T (.arr c)) (i : Nat)
    (hq : ∀ q : Nat, (h.elems c)[i]? = some (Val.map q) → T (.map q)) :
    (h1.elems c)[i]? = (h.elems c)[i]? := by
  rcases hk.elems c hc i with e | ⟨q, e, hn⟩
  · exact e
  · exact absurd (hq q e) hn

theorem keeps_get {T : Val → Prop} {h h1 : Heap} (hk : Keeps T h h1) (m : Option Nat)
    (hm : T (Val.ofMap m)) (key : String)
    (hq : ∀ q, (heapView h).get m key = some (.map q) → T (.map q)) :
    (heapView h1).get m key = (heapView h).get m key := by
  cases m with
  | none => rfl
  | some x => exact keeps_lookup hk x hm key hq

theorem toMap_map (h : Heap) (x : Option Val) (q : Nat) (hx : x = some (.map q)) :
    (heapView h).toMap x = (some q, true) := by
  subst hx; rfl

theorem toMap_heap (h h1 : Heap) (x y : Option Val) (e : x = y) :
    (heapView h1).toMap x = (heapView h).toMap y := by
  subst e; rfl

theorem step_keeps {T : Val → Prop} {h h1 : Heap} (hk : Keeps T h h1) (schema : Option Nat)
    (seg : String) (hs : T (Val.ofMap schema))
    (hcont : (stepContainer (heapView h) schema).2 = true →
      T (Val.ofMap (stepContainer (heapView h) schema).1))
    (hnext : (stepNext (heapView h) schema seg).2 = true →
      T (Val.ofMap (stepNext (heapView h) schema seg).1)) :
    stepContainer (heapView h1) schema = stepContainer (heapView h) schema ∧
      stepNext (heapView h1) schema seg = stepNext (heapView h) schema seg := by
  have e1 : (heapView h1).get schema "properties" = (heapView h).get schema "properties" := by
    apply keeps_get hk schema hs
    intro q hq
    have e := toMap_map h _ q hq
    simp only [stepContainer, e, if_true] at hcont
    exact hcont trivial
  have t1 := toMap_heap h h1 _ _ e1
  have hc : stepContainer (heapView h1) schema = stepContainer (heapView h) schema := by
    by_cases f1 : ((heapView h).toMap ((heapView h).get schema "properties")).2 = true
    · simp only [stepContainer, t1, f1, if_true]
    · have e2 : (heapView h1).get schema "patternProperties" =
          (heapView h).get schema "patternProperties" := by
        apply keeps_get hk schema hs
        intro q hq
        have e := toMap_map h _ q hq
        simp only [stepContainer, f1, e, if_false] at hcont
        exact hcont rfl
      simp only [stepContainer, t1, f1, if_false]
      exact toMap_heap h h1 _ _ e2
  refine ⟨hc, ?_⟩
  by_cases f2 : (stepContainer (heapView h) schema).2 = true
  · have e3 : (heapView h1).get (stepContainer (heapView h) schema).1 seg =
        (heapView h).get (stepContainer (heapView h) schema).1 seg := by
      apply keeps_get hk _ (hcont f2)
      intro q hq
      have e := toMap_map h _ q hq
      simp only [stepNext, f2, e, if_true] at hnext
      exact hnext trivial
    simp only [stepNext, hc, f2, if_true]
    exact toMap_heap h h1 _ _ e3
  · have e3 : (heapView h1).get schema seg = (heapView h).get schema seg := by
      apply keeps_get hk schema hs
      intro q hq
      have e := toMap_map h _ q hq
      simp only [stepNext, f2, e, if_false] at hnext
      exact hnext rfl
    simp only [stepNext, hc, f2, if_false]
    exact toMap_heap h h1 _ _ e3

theorem walk_keeps {T : Val → Prop} {h h1 : Heap} (hk : Keeps T h h1) :
    ∀ (segs : List String) (schema : Option Nat), walkIn h T schema segs →
      walkIn h1 T schema segs ∧
        getObjectLoop (heapView h1) schema segs = getObjectLoop (heapView h) schema segs := by
  intro segs
  induction segs with
  | nil => intro schema hw; exact ⟨hw, rfl⟩
  | cons seg rest ih =>
    intro schema hw
    obtain ⟨hs, hcont, hf, hr⟩ := hw
    obtain ⟨hc, hn⟩ := step_keeps hk schema seg hs hcont
      (fun _ => walkIn_head h T _ rest hr)
    obtain ⟨ih1, ih2⟩ := ih _ hr
    refine ⟨⟨hs, ?_, ?_, ?_⟩, ?_⟩
    · rw [hc]; exact hcont
    · rw [hn]; exact hf
    · rw [hn]; exact ih1
    · rw [getObjectLoop_cons_step, getObjectLoop_cons_step, hn, ih2]

theorem trapSet_keeps {T : Val → Prop} {h h1 : Heap} {schema : Option Nat}
    (hT : TrapSet h schema T) (hk : Keeps T h h1) : TrapSet h1 schema T := by
  intro v hv
  have ht := hT v hv
  cases v with
  | map x =>
    simp only [Trap] at ht ⊢
    cases hl : lookupKey "$ref" (h.members x) with
    | none =>
      rw [hl] at ht
      have e : lookupKey "$ref" (h1.members x) = none := by
        rw [keeps_lookup hk x hv "$ref" (fun q hq => by rw [hl] at hq; cases hq), hl]
      rw [e]
      obtain ⟨k, w, hw, hTw⟩ := ht
      refine ⟨k, w, ?_, hTw⟩
      rw [keeps_lookup hk x hv k (fun q hq => by rw [hw] at hq; cases hq; exact hTw), hw]
    | some w =>
      rw [hl] at ht
      obtain ⟨p, hp, hwalk⟩ := ht
      have e : lookupKey "$ref" (h1.members x) = some w := by
        rw [keeps_lookup hk x hv "$ref"
          (fun q hq => by rw [hl, hp] at hq; cases hq), hl]
      rw [e]
      exact ⟨p, hp, (walk_keeps hk _ _ hwalk).1⟩
  | arr c =>
    simp only [Trap] at ht ⊢
    obtain ⟨i, y, hy, hTy⟩ := ht
    refine ⟨i, y, ?_, hTy⟩
    rw [keeps_elem hk c hv i (fun q hq => by rw [hy] at hq; cases hq; exact hTy), hy]
  | null => exact ht
  | bool b => exact ht
  | num m e => exact ht
  | str s => exact ht
  | nilMap => exact ht

theorem lookup_setMember (h : Heap) (a : Nat) (k : String) (v : Val) (a2 : Nat) (k2 : String) :
    lookupKey k2 ((h.setMember a k v).members a2) = lookupKey k2 (h.members a2) ∨
      (a2 = a ∧ k2 = k ∧ lookupKey k2 ((h.setMember a k v).members a2) = some v) := by
  unfold Heap.setMember
  cases hc : h[a]? with
  | none => exact Or.inl rfl
  | some c =>
    cases c with
    | arr xs => exact Or.inl rfl
    | map kvs =>
      simp only []
      have ha : a < h.length := (List.getElem?_eq_some.1 hc).1
      by_cases e : a2 = a
      · subst e
        have hm : Heap.members (h.set a2 (Cell.map (setKey k v kvs))) a2 = setKey k v kvs := by
          simp [Heap.members, List.getElem?_set_self, ha]
        have hm0 : h.members a2 = kvs := by simp [Heap.members, hc]
        rw [hm, hm0]
        by_cases ek : k2 = k
        · subst ek
          exact Or.inr ⟨rfl, rfl, lookupKey_setKey_same _ _ _⟩
        · exact Or.inl (lookupKey_setKey_other _ _ _ _ ek)
      · have hm : Heap.members (h.set a (Cell.map (setKey k v kvs))) a2 = h.members a2 := by
          simp [Heap.members, List.getElem?_set_ne (Ne.symm e)]
        rw [hm]
        exact Or.inl rfl

theorem getElem_setElem (h : Heap) (a i : Nat) (v : Val) (a2 j : Nat) :
    ((h.setElem a i v).elems a2)[j]? = (h.elems a2)[j]? ∨
      (a2 = a ∧ j = i ∧ ((h.setElem a i v).elems a2)[j]? = some v) := by
  unfold Heap.setElem
  cases hc : h[a]? with
  | none => exact Or.inl rfl
  | some c =>
    cases c with
    | map kvs => exact Or.inl rfl
    | arr xs =>
      simp only []
      have ha : a < h.length := (List.getElem?_eq_some.1 hc).1
      by_cases e : a2 = a
      · subst e
        have hm : Heap.elems (h.set a2 (Cell.arr (xs.set i v))) a2 = xs.set i v := by
          simp [Heap.elems, List.getElem?_set_self, ha]
        have hm0 : h.elems a2 = xs := by simp [Heap.elems, hc]
        rw [hm, hm0]
        by_cases ej : j = i
        · subst ej
          by_cases hj : j < xs.length
          · exact Or.inr ⟨rfl, rfl, List.getElem?_set_self hj⟩
          · left
            rw [List.getElem?_eq_none (by simpa using hj),
              List.getElem?_eq_none (by simpa using hj)]
        · exact Or.inl (List.getElem?_set_ne (Ne.symm ej))
      · have hm : Heap.elems (h.set a (Cell.arr (xs.set i v))) a2 = h.elems a2 := by
          simp [Heap.elems, List.getElem?_set_ne (Ne.symm e)]
        rw [hm]
        exact Or.inl rfl

theorem keeps_setMember {T : Val → Prop} {h h1 : Heap} (hk : Keeps T h h1) (b : Nat)
    (k : String) (r v : Val)
    (hc : T (.map b) → lookupKey k (h.members b) = some v ∧
      ((∃ q, v = .map q ∧ ¬ T (.map q)) ∨ r = v)) :
    Keeps T h (h1.setMember b k r) := by
  constructor
  · intro x hx key
    rcases lookup_setMember h1 b k r x key with e | ⟨e1, e2, e⟩
    · rw [e]; exact hk.members x hx key
    · subst e1; subst e2
      obtain ⟨hv, hd⟩ := hc hx
      rcases hd with ⟨q, hq, hn⟩ | hd
      · subst hq; exact Or.inr ⟨q, hv, hn⟩
      · subst hd; exact Or.inl (by rw [e, hv])
  · intro c hcT i
    rw [elems_setMember]
    exact hk.elems c hcT i

theorem keeps_setElem {T : Val → Prop} {h h1 : Heap} (hk : Keeps T h h1) (c i : Nat)
    (x v : Val)
    (hc : T (.arr c) → (h.elems c)[i]? = some v ∧
      ((∃ q, v = .map q ∧ ¬ T (.map q)) ∨ x = v)) :
    Keeps T h (h1.setElem c i x) := by
  constructor
  · intro y hy key
    rw [members_setElem]
    exact hk.members y hy key
  · intro c2 hcT j
    rcases getElem_setElem h1 c i x c2 j with e | ⟨e1, e2, e⟩
    · rw [e]; exact hk.elems c2 hcT j
    · subst e1; subst e2
      obtain ⟨hv, hd⟩ := hc hcT
      rcases hd with ⟨q, hq, hn⟩ | hd
      · subst hq; exact Or.inr ⟨q, hv, hn⟩
      · subst hd; exact Or.inl (by rw [e, hv])

theorem lookupKey_key_mem {α : Type} (k : String) (v : α) (l : List (String × α))
    (h : lookupKey k l = some v) : k ∈ l.map Prod.fst :=
  List.mem_map_of_mem Prod.fst (lookupKey_mem k v l h)

theorem trap_ref_target {T : Val → Prop} {h : Heap} {schema : Option Nat}
    (hT : TrapSet h schema T) (a : Nat) (ha : T (.map a)) (ref : String)
    (hl : lookupKey "$ref" (h.members a) = some (.str ref)) :
    T (Val.ofMap (getObject (heapView h) schema ref)) := by
  have ht := hT _ ha
  simp only [Trap, hl] at ht
  obtain ⟨p, hp, hw⟩ := ht
  cases hp
  exact walkIn_result h T _ _ hw

theorem refMapLoop_trap (T : Val → Prop) (schema : Option Nat)
    (rr : Heap → Val → Res (Heap × Val)) (a : Nat)
    (hrr : ∀ h v h1 r, TrapSet h schema T → rr h v = .ok (h1, r) →
      ¬ T v ∧ Keeps T h h1 ∧ ¬ T r ∧ ((∀ q, v ≠ .map q) → r = v)) :
    ∀ (ks : List String) (h : Heap) (oMap : Option Nat) (hf : Heap) (oMapf : Option Nat),
      TrapSet h schema T →
      (oMap = some a ∨ ¬ T (Val.ofMap oMap)) →
      (T (.map a) →
        (∃ w, lookupKey "$ref" (h.members a) = some w ∧ "$ref" ∈ ks) ∨
        (lookupKey "$ref" (h.members a) = none ∧
          ∃ k, k ∈ ks ∧ ∃ w, lookupKey k (h.members a) = some w ∧ T w)) →
      refMapLoop rr schema a ks h oMap = .ok (hf, oMapf) →
      ¬ T (.map a) ∧ Keeps T h hf ∧ ¬ T (Val.ofMap oMapf) := by
  intro ks
  induction ks with
  | nil =>
    intro h oMap hf oMapf hT ho hpend hrun
    simp only [refMapLoop, Res.ok.injEq, Prod.mk.injEq] at hrun
    obtain ⟨e1, e2⟩ := hrun
    subst e1; subst e2
    have hna : ¬ T (.map a) := by
      intro hTa
      rcases hpend hTa with ⟨w, _, hm⟩ | ⟨_, k, hm, _⟩
      · simp at hm
      · simp at hm
    refine ⟨hna, keeps_refl T h, ?_⟩
    rcases ho with e | hn
    · subst e; exact hna
    · exact hn
  | cons k ks ih =>
    intro h oMap hf oMapf hT ho hpend hrun
    simp only [refMapLoop] at hrun
    cases hl : lookupKey k (h.members a) with
    | none =>
      simp only [hl] at hrun
      refine ih h oMap hf oMapf hT ho ?_ hrun
      intro hTa
      rcases hpend hTa with ⟨w, hw, hm⟩ | ⟨hn, k2, hm, w, hw, hTw⟩
      · left
        refine ⟨w, hw, ?_⟩
        rcases List.mem_cons.1 hm with e | hm
        · rw [← e, hw] at hl; cases hl
        · exact hm
      · right
        refine ⟨hn, k2, ?_, w, hw, hTw⟩
        rcases List.mem_cons.1 hm with e | hm
        · rw [← e, hw] at hl; cases hl
        · exact hm
    | some v =>
      simp only [hl] at hrun
      by_cases hk : k = "$ref"
      · subst hk
        simp only [if_true] at hrun
        cases v with
        | str ref =>
          simp only [] at hrun
          cases hr : rr h (Val.ofMap (getObject (heapView h) schema ref)) with
          | ok p =>
            obtain ⟨h1, r⟩ := p
            simp only [hr] at hrun
            cases hm : (heapView h1).assertMap r with
            | none => simp only [hm] at hrun; cases hrun
            | some m =>
              simp only [hm] at hrun
              obtain ⟨hnt, hk1, hnr, _⟩ := hrr _ _ _ _ hT hr
              have hna : ¬ T (.map a) := fun hTa => hnt (trap_ref_target hT a hTa ref hl)
              have hrm := assertMap_eq_ofMap h1 r m hm
              obtain ⟨_, hk2, hfin⟩ := ih h1 m hf oMapf (trapSet_keeps hT hk1)
                (Or.inr (hrm ▸ hnr)) (fun hTa => absurd hTa hna) hrun
              exact ⟨hna, keeps_trans hk1 hk2, hfin⟩
          | panic => simp only [hr] at hrun; cases hrun
          | diverge => simp only [hr] at hrun; cases hrun
        | null => cases hrun
        | bool b => cases hrun
        | num m e => cases hrun
        | arr c => cases hrun
        | map b => cases hrun
        | nilMap => cases hrun
      · simp only [hk, if_false] at hrun
        cases hr : rr h v with
        | ok p =>
          obtain ⟨h1, r⟩ := p
          simp only [hr] at hrun
          cases oMap with
          | none => cases hrun
          | some b =>
            simp only [] at hrun
            obtain ⟨hnv, hk1, hnr, hsame⟩ := hrr _ _ _ _ hT hr
            have hk2 : Keeps T h (h1.setMember b k r) := by
              apply keeps_setMember hk1 b k r v
              intro hTb
              have hb : b = a := by
                rcases ho with e | hn
                · cases e; rfl
                · exact absurd hTb hn
              subst hb
              refine ⟨hl, ?_⟩
              cases v with
              | map q => exact Or.inl ⟨q, rfl, hnv⟩
              | null => exact Or.inr (hsame (fun q => by simp))
              | bool b => exact Or.inr (hsame (fun q => by simp))
              | num m e => exact Or.inr (hsame (fun q => by simp))
              | str s => exact Or.inr (hsame (fun q => by simp))
              | arr c => exact Or.inr (hsame (fun q => by simp))
              | nilMap => exact Or.inr (hsame (fun q => by simp))
            have hpend2 : T (.map a) →
                (∃ w, lookupKey "$ref" ((h1.setMember b k r).members a) = some w ∧
                  "$ref" ∈ ks) ∨
                (lookupKey "$ref" ((h1.setMember b k r).members a) = none ∧
                  ∃ k2, k2 ∈ ks ∧ ∃ w,
                    lookupKey k2 ((h1.setMember b k r).members a) = some w ∧ T w) := by
              intro hTa
              have ht := hT _ hTa
              rcases hpend hTa with ⟨w, hw, hm⟩ | ⟨hn, k2, hm, w, hw, hTw⟩
              · left
                simp only [Trap, hw] at ht
                obtain ⟨p, hp, _⟩ := ht
                refine ⟨w, ?_, ?_⟩
                · rw [keeps_lookup hk2 a hTa "$ref"
                    (fun q hq => by rw [hw, hp] at hq; cases hq), hw]
                · rcases List.mem_cons.1 hm with e | hm
                  · exact absurd e.symm hk
                  · exact hm
              · right
                refine ⟨?_, k2, ?_, w, ?_, hTw⟩
                · rw [keeps_lookup hk2 a hTa "$ref"
                    (fun q hq => by rw [hn] at hq; cases hq), hn]
                · rcases List.mem_cons.1 hm with e | hm
                  · subst e
                    rw [hw] at hl
                    cases hl
                    exact absurd hTw hnv
                  · exact hm
                · rw [keeps_lookup hk2 a hTa k2
                    (fun q hq => by rw [hw] at hq; cases hq; exact hTw), hw]
            obtain ⟨hna, hk3, hfin⟩ := ih (h1.setMember b k r) (some b) hf oMapf
              (trapSet_keeps hT hk2) ho hpend2 hrun
            exact ⟨hna, keeps_trans hk2 hk3, hfin⟩
        | panic => simp only [hr] at hrun; cases hrun
        | diverge => simp only [hr] at hrun; cases hrun

theorem refArrLoop_trap (T : Val → Prop) (schema : Option Nat)
    (rr : Heap → Val → Res (Heap × Val)) (c : Nat)
    (hrr : ∀ h v h1 r, TrapSet h schema T → rr h v = .ok (h1, r) →
      ¬ T v ∧ Keeps T h h1 ∧ ¬ T r ∧ ((∀ q, v ≠ .map q) → r = v)) :
    ∀ (ks : List Nat) (h hf : Heap),
      TrapSet h schema T →
      (T (.arr c) →
        ∃ i : Nat, i ∈ ks ∧ ∃ y : Nat, (h.elems c)[i]? = some (Val.map y) ∧ T (.map y)) →
      refArrLoop rr schema c ks h = .ok hf →
      ¬ T (.arr c) ∧ Keeps T h hf := by
  intro ks
  induction ks with
  | nil =>
    intro h hf hT hpend hrun
    simp only [refArrLoop, Res.ok.injEq] at hrun
    subst hrun
    refine ⟨?_, keeps_refl T h⟩
    intro hTc
    obtain ⟨i, hm, _⟩ := hpend hTc
    simp at hm
  | cons i ks ih =>
    intro h hf hT hpend hrun
    simp only [refArrLoop] at hrun
    -- a pass that leaves the heap as it is
    have hskip : (∀ y : Nat, (h.elems c)[i]? ≠ some (Val.map y)) →
        refArrLoop rr schema c ks h = .ok hf → ¬ T (.arr c) ∧ Keeps T h hf := by
      intro hne hrun2
      refine ih h hf hT ?_ hrun2
      intro hTc
      obtain ⟨i2, hm, y, hy, hTy⟩ := hpend hTc
      refine ⟨i2, ?_, y, hy, hTy⟩
      rcases List.mem_cons.1 hm with e | hm
      · subst e; exact absurd hy (hne y)
      · exact hm
    -- a pass that stores `x` after a call that returned
    have hstore : ∀ (v : Val) (h1 : Heap) (x : Val), (h.elems c)[i]? = some v →
        Keeps T h h1 → ¬ T v → ((∀ q, v ≠ .map q) → x = v) →
        refArrLoop rr schema c ks (h1.setElem c i x) = .ok hf →
        ¬ T (.arr c) ∧ Keeps T h hf := by
      intro v h1 x he hk1 hnv hsame hrun2
      have hk2 : Keeps T h (h1.setElem c i x) := by
        apply keeps_setElem hk1 c i x v
        intro _
        refine ⟨he, ?_⟩
        cases v with
        | map q => exact Or.inl ⟨q, rfl, hnv⟩
        | null => exact Or.inr (hsame (fun q => by simp))
        | bool b => exact Or.inr (hsame (fun q => by simp))
        | num m e => exact Or.inr (hsame (fun q => by simp))
        | str s => exact Or.inr (hsame (fun q => by simp))
        | arr c => exact Or.inr (hsame (fun q => by simp))
        | nilMap => exact Or.inr (hsame (fun q => by simp))
      obtain ⟨hnc, hk3⟩ := ih (h1.setElem c i x) hf (trapSet_keeps hT hk2) (by
        intro hTc
        obtain ⟨i2, hm, y, hy, hTy⟩ := hpend hTc
        refine ⟨i2, ?_, y, ?_, hTy⟩
        · rcases List.mem_cons.1 hm with e | hm
          · subst e
            rw [he] at hy
            cases hy
            exact absurd hTy hnv
          · exact hm
        · rw [keeps_elem hk2 c hTc i2
            (fun q hq => by rw [hy] at hq; cases hq; exact hTy), hy]) hrun2
      exact ⟨hnc, keeps_trans hk2 hk3⟩
    cases he : (h.elems c)[i]? with
    | none =>
      simp only [he] at hrun
      exact hskip (fun y => by rw [he]; simp) hrun
    | some v =>
      simp only [he] at hrun
      cases v with
      | map y =>
        simp only [heapView, View.get, Option.bind] at hrun
        cases hl : lookupKey "$ref" (h.members y) with
        | none =>
          simp only [hl] at hrun
          cases hr : rr h (.map y) with
          | ok p =>
            obtain ⟨h1, x⟩ := p
            simp only [hr] at hrun
            obtain ⟨hnv, hk1, _, hsame⟩ := hrr _ _ _ _ hT hr
            exact hstore _ h1 x he hk1 hnv hsame hrun
          | panic => simp only [hr] at hrun; cases hrun
          | diverge => simp only [hr] at hrun; cases hrun
        | some ref =>
          simp only [hl] at hrun
          cases ref with
          | str p =>
            simp only [] at hrun
            cases hr : rr h (Val.ofMap (getObject (heapView h) schema p)) with
            | ok q =>
              obtain ⟨h1, x⟩ := q
              have hr2 : rr h (Val.ofMap (getObject
                  ⟨fun v => match v with
                    | .map a => some (some a)
                    | .nilMap => some none
                    | _ => none, fun a k => lookupKey k (h.members a)⟩ schema p)) =
                  .ok (h1, x) := hr
              simp only [hr2] at hrun
              obtain ⟨hnt, hk1, _, _⟩ := hrr _ _ _ _ hT hr
              have hny : ¬ T (.map y) := fun hTy => hnt (trap_ref_target hT y hTy p hl)
              exact hstore _ h1 x he hk1 hny (fun hq => absurd rfl (hq y)) hrun
            | panic =>
              have hr2 : rr h (Val.ofMap (getObject
                  ⟨fun v => match v with
                    | .map a => some (some a)
                    | .nilMap => some none
                    | _ => none, fun a k => lookupKey k (h.members a)⟩ schema p)) =
                  .panic := hr
              simp only [hr2] at hrun; cases hrun
            | diverge =>
              have hr2 : rr h (Val.ofMap (getObject
                  ⟨fun v => match v with
                    | .map a => some (some a)
                    | .nilMap => some none
                    | _ => none, fun a k => lookupKey k (h.members a)⟩ schema p)) =
                  .diverge := hr
              simp only [hr2] at hrun; cases hrun
          | null => cases hrun
          | bool b => cases hrun
          | num m e => cases hrun
          | arr c => cases hrun
          | map b => cases hrun
          | nilMap => cases hrun
      | nilMap =>
        simp only [heapView, View.get, Option.bind] at hrun
        cases hr : rr h .nilMap with
        | ok p =>
          obtain ⟨h1, x⟩ := p
          simp only [hr] at hrun
          obtain ⟨hnv, hk1, _, hsame⟩ := hrr _ _ _ _ hT hr
          exact hstore _ h1 x he hk1 hnv hsame hrun
        | panic => simp only [hr] at hrun; cases hrun
        | diverge => simp only [hr] at hrun; cases hrun
      | null => exact hskip (fun y => by rw [he]; simp) hrun
      | bool b => exact hskip (fun y => by rw [he]; simp) hrun
      | num m e => exact hskip (fun y => by rw [he]; simp) hrun
      | str s => exact hskip (fun y => by rw [he]; simp) hrun
      | arr c2 => exact hskip (fun y => by rw [he]; simp) hrun

theorem replaceReferences_trap (T : Val → Prop) (schema : Option Nat) :
    ∀ (fuel : Nat) (h : Heap) (v : Val) (h1 : Heap) (r : Val), TrapSet h schema T →
      replaceReferences fuel h schema v = .ok (h1, r) →
      ¬ T v ∧ Keeps T h h1 ∧ ¬ T r ∧ ((∀ q, v ≠ .map q) → r = v) := by
  intro fuel
  induction fuel with
  | zero => intro h v h1 r _ hrun; simp [replaceReferences] at hrun
  | succ fuel ih =>
    intro h v h1 r hT hrun
    have hscalar : (∀ a, v ≠ .map a) → (∀ a, v ≠ .arr a) → (h, v) = (h1, r) →
        ¬ T v ∧ Keeps T h h1 ∧ ¬ T r ∧ ((∀ q, v ≠ .map q) → r = v) := by
      intro hm ha e
      cases e
      have hnv : ¬ T v := by
        intro hv
        have ht := hT v hv
        cases v with
        | map a => exact hm a rfl
        | arr a => exact ha a rfl
        | null => exact ht
        | bool b => exact ht
        | num m e => exact ht
        | str s => exact ht
        | nilMap => exact ht
      exact ⟨hnv, keeps_refl T h, hnv, fun _ => rfl⟩
    cases v with
    | arr c =>
      simp only [replaceReferences] at hrun
      cases hl : refArrLoop (fun h1 v => replaceReferences fuel h1 schema v) schema c
          (List.range (h.elems c).length) h with
      | ok hf =>
        simp only [hl, Res.ok.injEq, Prod.mk.injEq] at hrun
        obtain ⟨e1, e2⟩ := hrun
        subst e1; subst e2
        obtain ⟨hnc, hk⟩ := refArrLoop_trap T schema _ c
          (fun h v h1 r hT2 hr => ih h v h1 r hT2 hr) _ h hf hT (by
            intro hTc
            have ht := hT _ hTc
            simp only [Trap] at ht
            obtain ⟨i, y, hy, hTy⟩ := ht
            exact ⟨i, List.mem_range.2 (List.getElem?_eq_some.1 hy).1, y, hy, hTy⟩) hl
        exact ⟨hnc, hk, hnc, fun _ => rfl⟩
      | panic => simp only [hl] at hrun; cases hrun
      | diverge => simp only [hl] at hrun; cases hrun
    | map a =>
      simp only [replaceReferences] at hrun
      cases hl : refMapLoop (fun h1 v => replaceReferences fuel h1 schema v) schema a
          ((h.members a).map Prod.fst) h (some a) with
      | ok p =>
        obtain ⟨hf, oMapf⟩ := p
        simp only [hl, Res.ok.injEq, Prod.mk.injEq] at hrun
        obtain ⟨e1, e2⟩ := hrun
        subst e1; subst e2
        obtain ⟨hna, hk, hfin⟩ := refMapLoop_trap T schema _ a
          (fun h v h1 r hT2 hr => ih h v h1 r hT2 hr) _ h (some a) hf oMapf hT
          (Or.inl rfl) (by
            intro hTa
            have ht := hT _ hTa
            simp only [Trap] at ht
            cases hq : lookupKey "$ref" (h.members a) with
            | some w => exact Or.inl ⟨w, rfl, lookupKey_key_mem _ _ _ hq⟩
            | none =>
              rw [hq] at ht
              obtain ⟨k, w, hw, hTw⟩ := ht
              exact Or.inr ⟨rfl, k, lookupKey_key_mem _ _ _ hw, w, hw, hTw⟩) hl
        exact ⟨hna, hk, hfin, fun hq => absurd rfl (hq a)⟩
      | panic => simp only [hl] at hrun; cases hrun
      | diverge => simp only [hl] at hrun; cases hrun
    | null =>
      simp only [replaceReferences, Res.ok.injEq] at hrun
      exact hscalar (fun a => by simp) (fun a => by simp) hrun
    | bool b =>
      simp only [replaceReferences, Res.ok.injEq] at hrun
      exact hscalar (fun a => by simp) (fun a => by simp) hrun
    | num m e =>
      simp only [replaceReferences, Res.ok.injEq] at hrun
      exact hscalar (fun a => by simp) (fun a => by simp) hrun
    | str s =>
      simp only [replaceReferences, Res.ok.injEq] at hrun
      exact hscalar (fun a => by simp) (fun a => by simp) hrun
    | nilMap =>
      simp only [replaceReferences, Res.ok.injEq] at hrun
      exact hscalar (fun a => by simp) (fun a => by simp) hrun

theorem replaceReferences_first_trap (T : Val → Prop) (h : Heap) (schema : Option Nat)
    (hT : TrapSet h schema T) (hF : ∀ v, T v → FirstTrap h T v) :
    ∀ (fuel : Nat) (v : Val), T v → replaceReferences fuel h schema v = .diverge := by
  intro fuel
  induction fuel with
  | zero => intro v _; rfl
  | succ fuel ih =>
    intro v hv
    have hf := hF v hv
    cases v with
    | map x =>
      simp only [FirstTrap] at hf
      cases hm : h.members x with
      | nil => rw [hm] at hf; exact hf.elim
      | cons p rest =>
        obtain ⟨k, w⟩ := p
        rw [hm] at hf
        simp only [List.head?_cons] at hf
        have hl : lookupKey k (h.members x) = some w := by simp [hm, lookupKey]
        simp only [replaceReferences, hm, List.map_cons, refMapLoop]
        rw [← hm, hl]
        by_cases hk : k = "$ref"
        · subst hk
          have ht := hT _ hv
          simp only [Trap, hl] at ht
          obtain ⟨p, hp, _⟩ := ht
          subst hp
          simp only [if_true, ih _ (trap_ref_target hT x hv p hl)]
        · rcases hf with e | hw
          · exact absurd e hk
          · simp only [hk, if_false, ih _ hw]
    | arr c =>
      simp only [FirstTrap] at hf
      obtain ⟨y, hy, hTy⟩ := hf
      have hlen : 0 < (h.elems c).length := (List.getElem?_eq_some.1 hy).1
      obtain ⟨n, hn⟩ : ∃ n, (h.elems c).length = n + 1 := ⟨(h.elems c).length - 1, by omega⟩
      simp only [replaceReferences, hn, List.range_succ_eq_map, refArrLoop, hy]
      simp only [heapView, View.get, Option.bind]
      cases hl : lookupKey "$ref" (h.members y) with
      | none => simp only [ih _ hTy]
      | some ref =>
        have ht := hT _ hTy
        simp only [Trap, hl] at ht
        obtain ⟨p, hp, _⟩ := ht
        subst hp
        have e := ih _ (trap_ref_target hT y hTy p hl)
        have e2 : replaceReferences fuel h schema (Val.ofMap (getObject
            ⟨fun v => match v with
              | .map a => some (some a)
              | .nilMap => some none
              | _ => none, fun a k => lookupKey k (h.members a)⟩ schema p)) = .diverge := e
        simp only [e2]
    | null => exact hf.elim
    | bool b => exact hf.elim
    | num m e => exact hf.elim
    | str s => exact hf.elim
    | nilMap => exact hf.elim

/-! ## The `oneOf` member of a sample -/

theorem oneOfLoop_length (env : Env) (aArr : List JVal) :
    (oneOfLoop env aArr).length = aArr.length := by
  induction aArr with
  | nil => rw [oneOfLoop]
  | cons v2 rest ih => rw [oneOfLoop_cons, List.length_cons, List.length_cons, ih]

theorem oneOfLoop_not_object (env : Env) (aArr : List JVal) :
    ∀ (i : Nat) (v2 : JVal), aArr[i]? = some v2 → (∀ m, v2 ≠ .obj m) →
      (oneOfLoop env aArr)[i]? = some .null := by
  induction aArr with
  | nil => intro i v2 h; simp at h
  | cons a rest ih =>
    intro i v2 h hn
    rw [oneOfLoop_cons]
    cases i with
    | zero =>
      simp only [List.getElem?_cons_zero, Option.some.injEq] at h
      subst h
      simp only [List.getElem?_cons_zero, Option.some.injEq]
    | succ j =>
      simp only [List.getElem?_cons_succ] at h ⊢
      exact ih j v2 h hn

/-- C21, as stated, fails: the object node
`{"type": "object", "properties": {"oneOf": [{"a": {"type": "integer"}}], "z": null}}` has
a `oneOf` member holding a sequence that is not empty, and, in either visiting order, its
sample is a string: there is no sample map with a `oneOf` key. -/
theorem sampleType_oneOf_nil_sibling_counterexample :
    sampleType sampleEnv
        (.obj [("type", .str "object"),
          ("properties", .obj [("oneOf", .arr [.obj [("a", .obj [("type", .str "integer")])]]),
            ("z", .null)])]) "asset"
      = .str "INVALID OBJECT - Key z has NIL value in SampleType\n" ∧
    sampleType sampleEnv
        (.obj [("type", .str "object"),
          ("properties", .obj [("z", .null),
            ("oneOf", .arr [.obj [("a", .obj [("type", .str "integer")])]])])]) "asset"
      = .str "INVALID OBJECT - Key z has NIL value in SampleType\n" ∧
    ¬ ∃ out, sampleType sampleEnv
        (.obj [("type", .str "object"),
          ("properties", .obj [("oneOf", .arr [.obj [("a", .obj [("type", .str "integer")])]]),
            ("z", .null)])]) "asset" = .obj out ∧
        (lookupKey "oneOf" out).isSome = true := by
  have h1 : sampleType sampleEnv
        (.obj [("type", .str "object"),
          ("properties", .obj [("oneOf", .arr [.obj [("a", .obj [("type", .str "integer")])]]),
            ("z", .null)])]) "asset"
      = .str "INVALID OBJECT - Key z has NIL value in SampleType\n" := by
    rw [sampleType_object sampleEnv
      [("type", .str "object"),
        ("properties", .obj [("oneOf", .arr [.obj [("a", .obj [("type", .str "integer")])]]),
          ("z", .null)])]
      "asset" [("oneOf", .arr [.obj [("a", .obj [("type", .str "integer")])]]), ("z", .null)]
      rfl rfl,
      propsLoop_cons sampleEnv "oneOf" (.arr [.obj [("a", .obj [("type", .str "integer")])]])
        [("z", .null)] [] (by simp), propsLoop]
    rfl
  refine ⟨h1, ?_, ?_⟩
  · rw [sampleType_object sampleEnv
      [("type", .str "object"),
        ("properties", .obj [("z", .null),
          ("oneOf", .arr [.obj [("a", .obj [("type", .str "integer")])]])])]
      "asset" [("z", .null), ("oneOf", .arr [.obj [("a", .obj [("type", .str "integer")])]])]
      rfl rfl, propsLoop]
    rfl
  · rintro ⟨out, hout, _⟩
    rw [h1] at hout
    cases hout

/-- C21, amended (empty composition is dropped). Take an object-typed node whose member
map has distinct keys and a `oneOf` member holding a sequence. If no member is nil-valued
the sample is a map. Whenever the sample is a map, it has a `oneOf` key if and only if
the sequence is not empty, and the value under the key is then a sequence as long as the
alternatives, with a nil entry at the position of every alternative that is not an
object. -/
theorem sampleType_oneOf_presence (env : Env) (o props : List (String × JVal))
    (aArr : List JVal) (name : String)
    (htype : lookupKey "type" o = some (.str "object"))
    (hprops : memberMap o = some (some props))
    (hkeys : (props.map Prod.fst).Nodup)
    (hone : lookupKey "oneOf" props = some (.arr aArr)) :
    ((∀ kv ∈ props, kv.2 ≠ JVal.null) → ∃ out, sampleType env (.obj o) name = .obj out) ∧
    ∀ out, sampleType env (.obj o) name = .obj out →
      ((lookupKey "oneOf" out).isSome = true ↔ aArr ≠ []) ∧
      (aArr ≠ [] →
        ∃ aOut, lookupKey "oneOf" out = some (.arr aOut) ∧ aOut.length = aArr.length ∧
          ∀ (i : Nat) (v2 : JVal), aArr[i]? = some v2 → (∀ m, v2 ≠ .obj m) →
            aOut[i]? = some .null) := by
  have hs := sampleType_object env o name props htype hprops
  refine ⟨?_, ?_⟩
  · intro hnn
    obtain ⟨out, hout, _⟩ := propsLoop_spec env props [] hnn hkeys
    exact ⟨out, by rw [hs]; exact hout⟩
  · intro out hout
    by_cases hnil : ∃ kv ∈ props, kv.2 = JVal.null
    · obtain ⟨k, _, hres⟩ := propsLoop_nil_member env props [] hnil
      rw [hs, hres] at hout
      cases hout
    · have hnn : ∀ kv ∈ props, kv.2 ≠ JVal.null := fun kv hkv e => hnil ⟨kv, hkv, e⟩
      obtain ⟨out2, hout2, hl⟩ := propsLoop_spec env props [] hnn hkeys
      rw [hs, hout2] at hout
      injection hout with hout
      subst hout
      have h1 := hl "oneOf"
      rw [hone] at h1
      simp only [memberSample, if_true] at h1
      by_cases he : aArr = []
      · subst he
        simp [lookupKey] at h1
        simp [h1]
      · have hemp : aArr.isEmpty = false := by
          cases aArr with
          | nil => exact absurd rfl he
          | cons a r => rfl
        simp [hemp] at h1
        refine ⟨by simp [h1, he], fun _ => ⟨oneOfLoop env aArr, h1, oneOfLoop_length env aArr,
          oneOfLoop_not_object env aArr⟩⟩

/-- Witness of the amended C21 on
`{"type": "object", "properties": {"oneOf": [{"a": {"type": "integer"}}, "x"],
"n": {"type": "integer"}}}`: the sample is a map with a `oneOf` key holding two entries,
the second nil; and on the same node with `"oneOf": []` the sample is a map without the
key. -/
theorem sampleType_oneOf_presence_witness :
    (∃ out aOut, sampleType sampleEnv
        (.obj [("type", .str "object"),
          ("properties", .obj [
            ("oneOf", .arr [.obj [("a", .obj [("type", .str "integer")])], .str "x"]),
            ("n", .obj [("type", .str "integer")])])]) "asset" = .obj out ∧
      lookupKey "oneOf" out = some (.arr aOut) ∧ aOut.length = 2 ∧
      aOut[1]? = some .null) ∧
    (∃ out, sampleType sampleEnv
        (.obj [("type", .str "object"),
          ("properties", .obj [("oneOf", .arr []),
            ("n", .obj [("type", .str "integer")])])]) "asset" = .obj out ∧
      (lookupKey "oneOf" out).isSome = false) := by
  have h := sampleType_oneOf_presence sampleEnv
    [("type", .str "object"),
      ("properties", .obj [
        ("oneOf", .arr [.obj [("a", .obj [("type", .str "integer")])], .str "x"]),
        ("n", .obj [("type", .str "integer")])])]
    [("oneOf", .arr [.obj [("a", .obj [("type", .str "integer")])], .str "x"]),
      ("n", .obj [("type", .str "integer")])]
    [.obj [("a", .obj [("type", .str "integer")])], .str "x"]
    "asset" rfl rfl (by simp) rfl
  have h0 := sampleType_oneOf_presence sampleEnv
    [("type", .str "object"),
      ("properties", .obj [("oneOf", .arr []), ("n", .obj [("type", .str "integer")])])]
    [("oneOf", .arr []), ("n", .obj [("type", .str "integer")])]
    [] "asset" rfl rfl (by simp) rfl
  refine ⟨?_, ?_⟩
  · obtain ⟨out, hout⟩ := h.1 (by simp)
    obtain ⟨aOut, ha, hlen, hnil⟩ := (h.2 out hout).2 (by simp)
    exact ⟨out, aOut, hout, ha, hlen, hnil 1 (.str "x") rfl (by simp)⟩
  · obtain ⟨out, hout⟩ := h0.1 (by simp)
    have hk := (h0.2 out hout).1
    refine ⟨out, hout, ?_⟩
    cases hq : (lookupKey "oneOf" out).isSome with
    | false => rfl
    | true => exact absurd rfl (hk.1 hq)

/-! ## A reference-free node that is no tree -/

theorem reach_cyclic_node (v w : Val)
    (hr : Reach
      [.map [("type", .str "object"), ("self", .map 0)], .map [("T", .map 0)],
        .map [("$ref", .str "#/definitions/T")],
        .map [("$ref", .str "#/definitions/T"), ("self", .map 2)],
        .map [("definitions", .map 1), ("x", .map 3)]] true v w)
    (hv : v = .map 0) : w = .map 0 ∨ w = .str "object" := by
  induction hr with
  | refl => exact Or.inl hv
  | @member a k w _ hk ih =>
    rcases ih with e | e
    · cases e
      simp only [Heap.members, List.getElem?_cons_zero, lookupKey] at hk
      split at hk
      · cases hk; exact Or.inr rfl
      · split at hk
        · cases hk; exact Or.inl rfl
        · cases hk
    · cases e
  | @elem a i w _ hi hd ih =>
    rcases ih with e | e <;> cases e

theorem refMapLoop_cyclic_node (rr : Heap → Val → Res (Heap × Val))
    (h1 : rr
      [.map [("type", .str "object"), ("self", .map 0)], .map [("T", .map 0)],
        .map [("$ref", .str "#/definitions/T")],
        .map [("$ref", .str "#/definitions/T"), ("self", .map 2)],
        .map [("definitions", .map 1), ("x", .map 3)]] (.str "object") =
      .ok ([.map [("type", .str "object"), ("self", .map 0)], .map [("T", .map 0)],
        .map [("$ref", .str "#/definitions/T")],
        .map [("$ref", .str "#/definitions/T"), ("self", .map 2)],
        .map [("definitions", .map 1), ("x", .map 3)]], .str "object"))
    (h2 : rr
      [.map [("type", .str "object"), ("self", .map 0)], .map [("T", .map 0)],
        .map [("$ref", .str "#/definitions/T")],
        .map [("$ref", .str "#/definitions/T"), ("self", .map 2)],
        .map [("definitions", .map 1), ("x", .map 3)]] (.map 0) = .diverge) :
    refMapLoop rr (some 4) 0 ["type", "self"]
      [.map [("type", .str "object"), ("self", .map 0)], .map [("T", .map 0)],
        .map [("$ref", .str "#/definitions/T")],
        .map [("$ref", .str "#/definitions/T"), ("self", .map 2)],
        .map [("definitions", .map 1), ("x", .map 3)]] (some 0) = .diverge := by
  simp only [refMapLoop, Heap.members, List.getElem?_cons_zero, lookupKey, if_true,
    String.reduceEq, if_false, h1, Heap.setMember, setKey, List.set_cons_zero, h2]

theorem diverge_cyclic_node :
    ∀ fuel, replaceReferences fuel
      [.map [("type", .str "object"), ("self", .map 0)], .map [("T", .map 0)],
        .map [("$ref", .str "#/definitions/T")],
        .map [("$ref", .str "#/definitions/T"), ("self", .map 2)],
        .map [("definitions", .map 1), ("x", .map 3)]] (some 4) (.map 0) = .diverge := by
  intro fuel
  induction fuel with
  | zero => rfl
  | succ n ih =>
    cases n with
    | zero => rfl
    | succ m =>
      have step := refMapLoop_cyclic_node
        (fun h1 v => replaceReferences (m + 1) h1 (some 4) v) rfl ih
      show (match refMapLoop (fun h1 v => replaceReferences (m + 1) h1 (some 4) v) (some 4) 0
          ["type", "self"] _ (some 0) with
        | .ok (h1, oMap) => Res.ok (h1, Val.ofMap oMap)
        | .panic => .panic
        | .diverge => .diverge) = .diverge
      rw [step]

/-- C2, as stated, fails. On the root
`{"definitions": {"T": {"type": "object"}}, "x": {"$ref": "#/definitions/T", "self": {"$ref": "#/definitions/T"}}}`
(cell 4; `T` is cell 0, `x` cell 3) the call on `x`, visiting `$ref` first, returns the
map of `T` and has stored it in `T` under `self`. In the heap it leaves, no map reached
from `T` carries a `$ref` key, `T` stands for no finite tree, and `replaceReferences` on
`T` returns at no depth of recursion. -/
theorem replaceReferences_cyclic_node_counterexample :
    replaceReferences 4
        [.map [("type", .str "object")], .map [("T", .map 0)],
          .map [("$ref", .str "#/definitions/T")],
          .map [("$ref", .str "#/definitions/T"), ("self", .map 2)],
          .map [("definitions", .map 1), ("x", .map 3)]] (some 4) (.map 3) =
      .ok ([.map [("type", .str "object"), ("self", .map 0)], .map [("T", .map 0)],
          .map [("$ref", .str "#/definitions/T")],
          .map [("$ref", .str "#/definitions/T"), ("self", .map 2)],
          .map [("definitions", .map 1), ("x", .map 3)]], .map 0) ∧
    (∀ a, Reach
        [.map [("type", .str "object"), ("self", .map 0)], .map [("T", .map 0)],
          .map [("$ref", .str "#/definitions/T")],
          .map [("$ref", .str "#/definitions/T"), ("self", .map 2)],
          .map [("definitions", .map 1), ("x", .map 3)]] true (.map 0) (.map a) →
      lookupKey "$ref"
        (Heap.members
          [.map [("type", .str "object"), ("self", .map 0)], .map [("T", .map 0)],
            .map [("$ref", .str "#/definitions/T")],
            .map [("$ref", .str "#/definitions/T"), ("self", .map 2)],
            .map [("definitions", .map 1), ("x", .map 3)]] a) = none) ∧
    (∀ fuel, replaceReferences fuel
        [.map [("type", .str "object"), ("self", .map 0)], .map [("T", .map 0)],
          .map [("$ref", .str "#/definitions/T")],
          .map [("$ref", .str "#/definitions/T"), ("self", .map 2)],
          .map [("definitions", .map 1), ("x", .map 3)]] (some 4) (.map 0) = .diverge) ∧
    (∀ fuel res, replaceReferences fuel
        [.map [("type", .str "object"), ("self", .map 0)], .map [("T", .map 0)],
          .map [("$ref", .str "#/definitions/T")],
          .map [("$ref", .str "#/definitions/T"), ("self", .map 2)],
          .map [("definitions", .map 1), ("x", .map 3)]] (some 4) (.map 0) ≠ .ok res) := by
  refine ⟨by decide, ?_, diverge_cyclic_node, ?_⟩
  · intro a hr
    rcases reach_cyclic_node _ _ hr rfl with e | e
    · cases e; rfl
    · cases e
  · intro fuel res h
    rw [diverge_cyclic_node fuel] at h
    cases h

/-! ## A run that has ended ends the same way with more room -/

theorem refMapLoop_mono (rr rr2 : Heap → Val → Res (Heap × Val))
    (hmono : ∀ h v, rr h v ≠ .diverge → rr2 h v = rr h v) (schema : Option Nat) (a : Nat) :
    ∀ (ks : List String) (h : Heap) (oMap : Option Nat),
      refMapLoop rr schema a ks h oMap ≠ .diverge →
      refMapLoop rr2 schema a ks h oMap = refMapLoop rr schema a ks h oMap := by
  intro ks
  induction ks with
  | nil => intro h oMap _; rfl
  | cons k ks ih =>
    intro h oMap hnd
    simp only [refMapLoop] at hnd ⊢
    cases hl : lookupKey k (h.members a) with
    | none =>
      simp only [hl] at hnd ⊢
      exact ih h oMap hnd
    | some v =>
      simp only [hl] at hnd ⊢
      by_cases hk : k = "$ref"
      · simp only [hk, if_true] at hnd ⊢
        cases v with
        | str ref =>
          simp only [] at hnd ⊢
          cases hr : rr h (Val.ofMap (getObject (heapView h) schema ref)) with
          | ok p =>
            obtain ⟨h1, r⟩ := p
            rw [hmono _ _ (by rw [hr]; simp), hr]
            simp only [hr] at hnd
            simp only []
            cases hm : (heapView h1).assertMap r with
            | none => rfl
            | some m =>
              simp only [hm] at hnd ⊢
              exact ih h1 m hnd
          | panic => rw [hmono _ _ (by rw [hr]; simp), hr]
          | diverge => simp only [hr] at hnd; exact absurd rfl hnd
        | null => rfl
        | bool b => rfl
        | num m e => rfl
        | arr c => rfl
        | map b => rfl
        | nilMap => rfl
      · simp only [hk, if_false] at hnd ⊢
        cases hr : rr h v with
        | ok p =>
          obtain ⟨h1, r⟩ := p
          rw [hmono _ _ (by rw [hr]; simp), hr]
          simp only [hr] at hnd
          simp only []
          cases oMap with
          | none => rfl
          | some b =>
            simp only [] at hnd ⊢
            exact ih _ _ hnd
        | panic => rw [hmono _ _ (by rw [hr]; simp), hr]
        | diverge => simp only [hr] at hnd; exact absurd rfl hnd

theorem refArrLoop_mono (rr rr2 : Heap → Val → Res (Heap × Val))
    (hmono : ∀ h v, rr h v ≠ .diverge → rr2 h v = rr h v) (schema : Option Nat) (a : Nat) :
    ∀ (ks : List Nat) (h : Heap),
      refArrLoop rr schema a ks h ≠ .diverge →
      refArrLoop rr2 schema a ks h = refArrLoop rr schema a ks h := by
  intro ks
  induction ks with
  | nil => intro h _; rfl
  | cons k ks ih =>
    intro h hnd
    have hcall : ∀ x : Val,
        (match rr h x with
          | .ok (h1, y) => refArrLoop rr schema a ks (h1.setElem a k y)
          | .panic => .panic
          | .diverge => .diverge) ≠ .diverge →
        (match rr2 h x with
          | .ok (h1, y) => refArrLoop rr2 schema a ks (h1.setElem a k y)
          | .panic => .panic
          | .diverge => .diverge) =
        (match rr h x with
          | .ok (h1, y) => refArrLoop rr schema a ks (h1.setElem a k y)
          | .panic => .panic
          | .diverge => .diverge) := by
      intro x hx
      cases hr : rr h x with
      | ok p =>
        obtain ⟨h1, y⟩ := p
        rw [hmono _ _ (by rw [hr]; simp), hr]
        simp only [hr] at hx
        exact ih _ hx
      | panic => rw [hmono _ _ (by rw [hr]; simp), hr]
      | diverge => simp only [hr] at hx; exact absurd rfl hx
    simp only [refArrLoop] at hnd ⊢
    cases he : (h.elems a)[k]? with
    | none =>
      simp only [he] at hnd ⊢
      exact ih h hnd
    | some v =>
      simp only [he] at hnd ⊢
      cases hm : (heapView h).assertMap v with
      | none =>
        simp only [hm] at hnd ⊢
        exact ih h hnd
      | some r =>
        simp only [hm] at hnd ⊢
        cases hq : (heapView h).get r "$ref" with
        | none =>
          simp only [hq] at hnd ⊢
          exact hcall v hnd
        | some ref =>
          simp only [hq] at hnd ⊢
          cases ref with
          | str p =>
            simp only [] at hnd ⊢
            exact hcall _ hnd
          | null => rfl
          | bool b => rfl
          | num m e => rfl
          | arr c => rfl
          | map b => rfl
          | nilMap => rfl

theorem replaceReferences_succ_map (n : Nat) (h : Heap) (schema : Option Nat) (a : Nat) :
    replaceReferences (n + 1) h schema (.map a) =
      match refMapLoop (fun h1 v => replaceReferences n h1 schema v) schema a
          ((h.members a).map Prod.fst) h (some a) with
      | .ok (h1, oMap) => .ok (h1, Val.ofMap oMap)
      | .panic => .panic
      | .diverge => .diverge := rfl

theorem replaceReferences_succ_arr (n : Nat) (h : Heap) (schema : Option Nat) (a : Nat) :
    replaceReferences (n + 1) h schema (.arr a) =
      match refArrLoop (fun h1 v => replaceReferences n h1 schema v) schema a
          (List.range (h.elems a).length) h with
      | .ok h1 => .ok (h1, .arr a)
      | .panic => .panic
      | .diverge => .diverge := rfl

theorem replaceReferences_mono (schema : Option Nat) :
    ∀ (n : Nat) (h : Heap) (v : Val), replaceReferences n h schema v ≠ .diverge →
      replaceReferences (n + 1) h schema v = replaceReferences n h schema v := by
  intro n
  induction n with
  | zero => intro h v hnd; exact absurd rfl hnd
  | succ n ih =>
    intro h v hnd
    cases v with
    | arr a =>
      rw [replaceReferences_succ_arr n] at hnd
      rw [replaceReferences_succ_arr (n + 1), replaceReferences_succ_arr n]
      have hl : refArrLoop (fun h1 v => replaceReferences n h1 schema v) schema a
          (List.range (h.elems a).length) h ≠ .diverge := by
        intro e; rw [e] at hnd; exact hnd rfl
      rw [refArrLoop_mono _ (fun h1 v => replaceReferences (n + 1) h1 schema v)
        (fun h1 v hv => ih h1 v hv) schema a _ h hl]
    | map a =>
      rw [replaceReferences_succ_map n] at hnd
      rw [replaceReferences_succ_map (n + 1), replaceReferences_succ_map n]
      have hl : refMapLoop (fun h1 v => replaceReferences n h1 schema v) schema a
          ((h.members a).map Prod.fst) h (some a) ≠ .diverge := by
        intro e; rw [e] at hnd; exact hnd rfl
      rw [refMapLoop_mono _ (fun h1 v => replaceReferences (n + 1) h1 schema v)
        (fun h1 v hv => ih h1 v hv) schema a _ h (some a) hl]
    | null => rfl
    | bool b => rfl
    | num m e => rfl
    | str s => rfl
    | nilMap => rfl

theorem replaceReferences_mono_le (schema : Option Nat) (n : Nat) (h : Heap) (v : Val)
    (hnd : replaceReferences n h schema v ≠ .diverge) :
    ∀ m, n ≤ m → replaceReferences m h schema v = replaceReferences n h schema v := by
  intro m hm
  induction m with
  | zero =>
    have : n = 0 := by omega
    subst this; rfl
  | succ m ih =>
    by_cases e : n = m + 1
    · subst e; rfl
    · have h1 := ih (by omega)
      rw [← h1]
      exact replaceReferences_mono schema m h v (by rw [h1]; exact hnd)

/-! ## Reference cycles: the run never returns -/

/-- C18, as stated, fails. In the root
`{"definitions": {"A": {"bad": {"$ref": "#/definitions/Missing", "t": 1}, "$ref": "#/definitions/A"}}}`
(cell 3; `A` is cell 1, `bad` cell 0) the object `A` carries a `$ref` whose target is `A`
itself. With `bad` visited before `$ref`, and in `bad` the key `$ref` before `t`, the run
does not recurse without bound: it ends in a panic, the write of `t` into the nil map, at
every depth of recursion from 5 on. -/
theorem replaceReferences_cycle_panic_counterexample :
    lookupKey "$ref"
        (Heap.members
          [.map [("$ref", .str "#/definitions/Missing"), ("t", .num 1 0)],
            .map [("bad", .map 0), ("$ref", .str "#/definitions/A")], .map [("A", .map 1)],
            .map [("definitions", .map 2)]] 1) = some (.str "#/definitions/A") ∧
    getObject
        (heapView
          [.map [("$ref", .str "#/definitions/Missing"), ("t", .num 1 0)],
            .map [("bad", .map 0), ("$ref", .str "#/definitions/A")], .map [("A", .map 1)],
            .map [("definitions", .map 2)]]) (some 3) "#/definitions/A" = some 1 ∧
    replaceReferences 5
        [.map [("$ref", .str "#/definitions/Missing"), ("t", .num 1 0)],
          .map [("bad", .map 0), ("$ref", .str "#/definitions/A")], .map [("A", .map 1)],
          .map [("definitions", .map 2)]] (some 3) (.map 3) = .panic ∧
    (∀ fuel, 5 ≤ fuel →
      replaceReferences fuel
        [.map [("$ref", .str "#/definitions/Missing"), ("t", .num 1 0)],
          .map [("bad", .map 0), ("$ref", .str "#/definitions/A")], .map [("A", .map 1)],
          .map [("definitions", .map 2)]] (some 3) (.map 3) = .panic) ∧
    ¬ ∀ fuel,
      replaceReferences fuel
        [.map [("$ref", .str "#/definitions/Missing"), ("t", .num 1 0)],
          .map [("bad", .map 0), ("$ref", .str "#/definitions/A")], .map [("A", .map 1)],
          .map [("definitions", .map 2)]] (some 3) (.map 3) = .diverge := by
  have h5 : replaceReferences 5
        [.map [("$ref", .str "#/definitions/Missing"), ("t", .num 1 0)],
          .map [("bad", .map 0), ("$ref", .str "#/definitions/A")], .map [("A", .map 1)],
          .map [("definitions", .map 2)]] (some 3) (.map 3) = .panic := by decide
  refine ⟨by decide, by decide, h5, ?_, ?_⟩
  · intro fuel hf
    rw [replaceReferences_mono_le (some 3) 5 _ _ (by rw [h5]; simp) fuel hf, h5]
  · intro hall
    rw [hall 5] at h5
    cases h5

/-- C18, amended. Let `T` be a set of maps and slices of the heap in which every map with
a `$ref` member holds under it a pointer whose lookup succeeds, reads only maps of `T`
and ends in `T`, every map without `$ref` has a member in `T`, and every slice has an
element map in `T` (a reference cycle with the maps on its lookup paths is such a set).
Then `replaceReferences` returns on no value of `T`, however deep its calls may nest:
nothing detects the cycle. Either the run is cut off at every depth, that is, it recurses
without bound, or from some depth on it ends in a panic; so a run that never panics
recurses without bound. When every value of `T` meets its trap first (its first member is
`$ref` or in `T`, its first element is in `T`), there is no panic. -/
theorem replaceReferences_cycle_no_return (h : Heap) (schema : Option Nat) (T : Val → Prop)
    (hT : TrapSet h schema T) (v : Val) (hv : T v) :
    (∀ fuel res, replaceReferences fuel h schema v ≠ .ok res) ∧
      ((∀ fuel, replaceReferences fuel h schema v = .diverge) ∨
        ∃ n, ∀ fuel, n ≤ fuel → replaceReferences fuel h schema v = .panic) ∧
      ((∀ fuel, replaceReferences fuel h schema v ≠ .panic) →
        ∀ fuel, replaceReferences fuel h schema v = .diverge) ∧
      ((∀ w, T w → FirstTrap h T w) →
        ∀ fuel, replaceReferences fuel h schema v = .diverge) := by
  have hok : ∀ fuel res, replaceReferences fuel h schema v ≠ .ok res := by
    intro fuel res hrun
    obtain ⟨h1, r⟩ := res
    exact (replaceReferences_trap T schema fuel h v h1 r hT hrun).1 hv
  have hcases : ∀ fuel, replaceReferences fuel h schema v ≠ .panic →
      replaceReferences fuel h schema v = .diverge := by
    intro fuel hp
    cases hr : replaceReferences fuel h schema v with
    | ok res => exact absurd hr (hok fuel res)
    | panic => exact absurd hr hp
    | diverge => rfl
  refine ⟨hok, ?_, fun hnp fuel => hcases fuel (hnp fuel),
    fun hF fuel => replaceReferences_first_trap T h schema hT hF fuel v hv⟩
  by_cases hp : ∃ n, replaceReferences n h schema v = .panic
  · obtain ⟨n, hn⟩ := hp
    refine Or.inr ⟨n, fun fuel hf => ?_⟩
    rw [replaceReferences_mono_le schema n h v (by rw [hn]; simp) fuel hf, hn]
  · exact Or.inl (fun fuel => hcases fuel (fun e => hp ⟨fuel, e⟩))

/-- Witness of the amended C18 on the schema `{"definitions": {"A": {"$ref": "#/definitions/A"}}}`
(cell 2; `definitions` is cell 1 and `A` cell 0): the three maps form such a set, each
meets its trap first, and the run on the root is cut off at every depth. -/
theorem replaceReferences_cycle_no_return_witness :
    TrapSet [.map [("$ref", .str "#/definitions/A")], .map [("A", .map 0)],
        .map [("definitions", .map 1)]] (some 2)
      (fun v => v = .map 0 ∨ v = .map 1 ∨ v = .map 2) ∧
    getObject (heapView [.map [("$ref", .str "#/definitions/A")], .map [("A", .map 0)],
        .map [("definitions", .map 1)]]) (some 2) "#/definitions/A" = some 0 ∧
    (∀ fuel res,
      replaceReferences fuel [.map [("$ref", .str "#/definitions/A")], .map [("A", .map 0)],
        .map [("definitions", .map 1)]] (some 2) (.map 2) ≠ .ok res) ∧
    (∀ fuel,
      replaceReferences fuel [.map [("$ref", .str "#/definitions/A")], .map [("A", .map 0)],
        .map [("definitions", .map 1)]] (some 2) (.map 2) = .diverge) := by
  have hseg : segments "#/definitions/A" = ["definitions", "A"] := by decide
  have hT : TrapSet [.map [("$ref", .str "#/definitions/A")], .map [("A", .map 0)],
        .map [("definitions", .map 1)]] (some 2)
      (fun v => v = .map 0 ∨ v = .map 1 ∨ v = .map 2) := by
    intro v hv
    rcases hv with e | e | e
    · subst e
      simp [Trap, Heap.members, lookupKey, hseg, walkIn, stepContainer, stepNext,
        View.toMap, View.get, heapView, Val.ofMap]
    · subst e
      exact ⟨"A", .map 0, by decide, Or.inl rfl⟩
    · subst e
      exact ⟨"definitions", .map 1, by decide, Or.inr (Or.inl rfl)⟩
  have hF : ∀ w, (fun v => v = Val.map 0 ∨ v = .map 1 ∨ v = .map 2) w →
      FirstTrap [.map [("$ref", .str "#/definitions/A")], .map [("A", .map 0)],
        .map [("definitions", .map 1)]]
        (fun v => v = .map 0 ∨ v = .map 1 ∨ v = .map 2) w := by
    intro w hw
    rcases hw with e | e | e <;> subst e <;> simp [FirstTrap, Heap.members]
  have hmain := replaceReferences_cycle_no_return _ (some 2) _ hT (.map 2)
    (Or.inr (Or.inr rfl))
  exact ⟨hT, by decide, hmain.1, hmain.2.2.2 hF⟩

/-! ## The drop and copy rule on the raw text -/

theorem splitChars_append_sep (sep : Char) (xs ys : List Char) (h : ∀ c ∈ xs, c ≠ sep) :
    splitChars sep (xs ++ sep :: ys) = xs :: splitChars sep ys := by
  induction xs with
  | nil => simp [splitChars]
  | cons c xs ih =>
    have hc : c ≠ sep := h c (List.mem_cons_self _ _)
    have := ih (fun d hd => h d (List.mem_cons_of_mem _ hd))
    simp [splitChars, hc, this]

theorem byteLength_replicate (n : Nat) (c : Char) :
    byteLength (List.replicate n c) = n * c.utf8Size := by
  unfold byteLength
  induction n with
  | zero => simp
  | succ n ih => simp [List.replicate_succ, ih, Nat.add_mul, Nat.add_comm]

theorem scanLines_eq_rawLines (raw : String)
    (hlen : ∀ p ∈ rawPieces raw, byteLength p < maxScanTokenSize) :
    scanLines raw = rawLines raw := by
  unfold scanLines rawLines
  rw [List.takeWhile_eq_self_iff.2 (fun p hp => by simpa using hlen p hp)]

theorem splitChars_ones : ∀ n : Nat,
    splitChars '\n' (List.replicate n ['1', '\n']).flatten = List.replicate n ['1'] ++ [[]] := by
  intro n
  induction n with
  | zero => rfl
  | succ n ih =>
    rw [List.replicate_succ, List.flatten_cons, List.replicate_succ]
    show splitChars '\n' (['1'] ++ '\n' :: (List.replicate n ['1', '\n']).flatten) = _
    rw [splitChars_append_sep '\n' ['1'] _ (by decide), ih]
    rfl

theorem scanLines_ones (n : Nat) :
    rawLines (String.mk (List.replicate n ['1', '\n']).flatten) = List.replicate n "1" ∧
      scanLines (String.mk (List.replicate n ['1', '\n']).flatten) = List.replicate n "1" := by
  have hp : rawPieces (String.mk (List.replicate n ['1', '\n']).flatten) =
      List.replicate n ['1'] := by
    simp [rawPieces, splitChars_ones]
  have hl : rawLines (String.mk (List.replicate n ['1', '\n']).flatten) =
      List.replicate n "1" := by
    rw [rawLines, hp, List.map_replicate]
    rfl
  refine ⟨hl, ?_⟩
  rw [scanLines_eq_rawLines _ (by
    intro p hpm
    rw [hp] at hpm
    rw [List.eq_of_mem_replicate hpm]
    decide), hl]

theorem trimSpace_letters (n : Nat) :
    trimSpace (String.mk (List.replicate (n + 1) 'a')) =
      String.mk (List.replicate (n + 1) 'a') := by
  have h1 : (List.replicate (n + 1) 'a').dropWhile isSpace = List.replicate (n + 1) 'a' := by
    rw [List.replicate_succ, List.dropWhile_cons_of_neg (by decide)]
  unfold trimSpace
  simp only [h1, List.reverse_replicate, List.reverse_replicate]

theorem long_line_facts (n : Nat) :
    keptLine (String.mk (List.replicate (n + 1) 'a')) = true ∧
      isIncludeLine (String.mk (List.replicate (n + 1) 'a')) = false ∧
      dropCR (List.replicate (n + 1) 'a') = List.replicate (n + 1) 'a' := by
  refine ⟨?_, ?_, ?_⟩
  · unfold keptLine
    rw [trimSpace_letters]
    simp only [startsWith, List.replicate_succ, Bool.and_eq_true, Bool.not_eq_true',
      decide_eq_true_eq]
    refine ⟨rfl, fun h => ?_⟩
    have hd := congrArg String.data h
    simp at hd
  · unfold isIncludeLine
    rw [trimSpace_letters]
    simp [startsWith, List.replicate_succ]
  · unfold dropCR
    rw [if_neg]
    rw [List.getLast?_replicate]
    simp

/-- C11, as stated, fails, in two ways. A raw text of 4999 lines `1`, none of them an
include, blank or a comment, has no rewritten text at all: storing into the offset table
at index 5000 panics. And of the raw text made of a line of 65536 letters `a` and the
line `b`, both to be copied, nothing is copied: the scanner stops at the first line,
which does not fit its buffer, and the loop ends with an empty text. -/
theorem preprocessText_counterexample :
    (rawLines (String.mk (List.replicate 4999 ['1', '\n']).flatten) = List.replicate 4999 "1" ∧
      isIncludeLine "1" = false ∧ keptLine "1" = true ∧
      preprocessText (fun _ => .panic) (String.mk (List.replicate 4999 ['1', '\n']).flatten)
        = .panic) ∧
    (rawLines (String.mk (List.replicate 65536 'a' ++ ['\n', 'b', '\n'])) =
        [String.mk (List.replicate 65536 'a'), "b"] ∧
      keptLine (String.mk (List.replicate 65536 'a')) = true ∧
      isIncludeLine (String.mk (List.replicate 65536 'a')) = false ∧
      keptLine "b" = true ∧ isIncludeLine "b" = false ∧
      scanLines (String.mk (List.replicate 65536 'a' ++ ['\n', 'b', '\n'])) = [] ∧
      (preprocessText (fun _ => .panic)
        (String.mk (List.replicate 65536 'a' ++ ['\n', 'b', '\n']))).toOption.map Pre.api
        = some "") := by
  have hA := long_line_facts 65535
  have hsplit : splitChars '\n' (List.replicate 65536 'a' ++ ['\n', 'b', '\n']) =
      [List.replicate 65536 'a', ['b'], []] := by
    rw [splitChars_append_sep '\n' _ _ (by
      intro c hc
      rw [List.eq_of_mem_replicate hc]
      decide)]
    rfl
  have hp : rawPieces (String.mk (List.replicate 65536 'a' ++ ['\n', 'b', '\n'])) =
      [List.replicate 65536 'a', ['b']] := by
    unfold rawPieces
    show (if (splitChars '\n' (List.replicate 65536 'a' ++ ['\n', 'b', '\n'])).getLast?
        = some [] then
        (splitChars '\n' (List.replicate 65536 'a' ++ ['\n', 'b', '\n'])).dropLast
      else splitChars '\n' (List.replicate 65536 'a' ++ ['\n', 'b', '\n'])) = _
    rw [hsplit]
    rfl
  have hscan : scanLines (String.mk (List.replicate 65536 'a' ++ ['\n', 'b', '\n'])) = [] := by
    have hb : byteLength (List.replicate 65536 'a') = 65536 := by
      rw [byteLength_replicate]; decide
    unfold scanLines
    rw [hp, List.takeWhile_cons_of_neg (by rw [hb]; decide)]
    rfl
  refine ⟨⟨(scanLines_ones 4999).1, by decide, by decide, ?_⟩,
    ?_, hA.1, hA.2.1, by decide, by decide, hscan, ?_⟩
  · unfold preprocessText
    rw [(scanLines_ones 4999).2]
    apply preprocess_overflow
    · intro l hl
      rw [List.eq_of_mem_replicate hl]
      decide
    · decide
    · rw [List.filter_replicate_of_pos (by decide), List.length_replicate]
      decide
  · rw [rawLines, hp]
    simp only [List.map_cons, List.map_nil]
    rw [show (65536 : Nat) = 65535 + 1 from rfl, hA.2.2]
    rfl
  · unfold preprocessText
    rw [hscan]
    rfl

/-- C11, amended (drop and copy rule). For a raw text in which no line is an external
include, no line has 65536 bytes or more, and fewer than 4999 lines are kept (trimmed
form not empty and not starting with `#`), the loop of `main` ends with the rewritten text
being exactly the kept lines, in their order, each as it stands in the raw text without
its line end and followed by a newline. A line whose trimmed form contains `"#/` is never
an external include. -/
theorem preprocessText_drop_copy (getIncludedFile : String → Res String) (raw : String)
    (hlen : ∀ p ∈ rawPieces raw, byteLength p < maxScanTokenSize)
    (hinc : ∀ l ∈ rawLines raw, isIncludeLine l = false)
    (hsize : ((rawLines raw).filter keptLine).length < 4999) :
    (∃ st, preprocessText getIncludedFile raw = .ok st ∧
      st.api = joinLines ((rawLines raw).filter keptLine)) ∧
    ∀ l : String, hasInfix "\"#/".data (trimSpace l).data = true → isIncludeLine l = false := by
  unfold preprocessText
  rw [scanLines_eq_rawLines raw hlen]
  exact preprocess_drop_copy getIncludedFile (rawLines raw) hinc hsize

/-- Witness of the amended C11: of the five lines `{`, a comment, a blank line, a local
`$ref` ending in `\r\n` and `}`, the three kept ones are copied without their line ends. -/
theorem preprocessText_drop_copy_witness :
    rawLines "\x7b\n  # note\n   \n  \"$ref\": \"#/definitions/a\"\r\n\x7d\n" =
      ["\x7b", "  # note", "   ", "  \"$ref\": \"#/definitions/a\"", "\x7d"] ∧
    (∃ st, preprocessText (fun _ => .panic)
        "\x7b\n  # note\n   \n  \"$ref\": \"#/definitions/a\"\r\n\x7d\n" = .ok st ∧
      st.api = "\x7b\n  \"$ref\": \"#/definitions/a\"\n\x7d\n") ∧
    ∀ l : String, hasInfix "\"#/".data (trimSpace l).data = true → isIncludeLine l = false :=
  ⟨by decide,
    preprocessText_drop_copy (fun _ => .panic)
      "\x7b\n  # note\n   \n  \"$ref\": \"#/definitions/a\"\r\n\x7d\n"
      (by decide) (by decide) (by decide)⟩

end GenSchema
